import Mathlib

/-! # RediGo: the sorted-set skip list and the RESP command decoder

A shallow embedding of `datastruct/zset/skiplist.go` and `redis/parser/parser.go`.

* Pointers `*Node` are addresses into a node store (`Heap`), `nil` is `none`.
  Nodes that are unlinked stay in the store as garbage, as they do in Go until collected.
* A nil dereference, an index outside a slice and a loop that would never end are the three
  `Fault`s; every operation returns `Except Fault _`.
* `int64` counters (`span`, `length`, ranks) are `Int`; no list of the store can reach
  `2^63` nodes, so no wrap-around is modelled.  Level indices (`int16`, never negative) are `Nat`.
* Scores range over a linear order `S` (the `float64` values without NaN, `-0` and `+0`
  identified, as `==` does).  Members are strings compared by code points, which on valid
  UTF-8 is Go's bytewise `<`.
-/

namespace zset

/-- Ways in which the Go code stops without returning. -/
inductive Fault where
  | nilDeref
  | indexOutOfRange
  | diverge
  deriving DecidableEq, Repr

deriving instance DecidableEq for Except

/-- `type Element struct { Member string; Score float64 }` -/
structure Element (S : Type) where
  Member : String
  Score : S
  deriving DecidableEq, Repr

/-- `type Level struct { forward *Node; span int64 }` -/
structure Level where
  forward : Option Nat
  span : Int
  deriving DecidableEq, Repr

/-- `type Node struct { Element; backward *Node; level []*Level }`.  Every entry of `level` is
allocated by `makeNode`, so the slice of pointers is modelled as a list of values. -/
structure Node (S : Type) extends Element S where
  backward : Option Nat
  level : List Level
  deriving DecidableEq, Repr

/-- The node store. -/
abbrev Heap (S : Type) := List (Node S)

/-- `type skiplist struct { header, tail *Node; length int64; level int16 }` together with the
store its pointers refer to. -/
structure skiplist (S : Type) where
  heap : Heap S
  header : Nat
  tail : Option Nat
  length : Int
  level : Nat
  deriving DecidableEq, Repr

/-- `const maxLevel = 16` -/
def maxLevel : Nat := 16

variable {S : Type}

/-! ## Memory primitives -/

/-- Dereference of a non-nil pointer. -/
def deref (H : Heap S) (p : Nat) : Except Fault (Node S) :=
  match H[p]? with
  | some n => .ok n
  | none => .error .nilDeref

/-- Dereference of a pointer that may be nil. -/
def ptr (p : Option Nat) : Except Fault Nat :=
  match p with
  | some a => .ok a
  | none => .error .nilDeref

/-- Slice indexing `xs[i]`. -/
def idx {α : Type} (xs : List α) (i : Nat) : Except Fault α :=
  match xs[i]? with
  | some x => .ok x
  | none => .error .indexOutOfRange

/-- Slice assignment `xs[i] = v`. -/
def setIdx {α : Type} (xs : List α) (i : Nat) (v : α) : Except Fault (List α) :=
  if i < xs.length then .ok (xs.set i v) else .error .indexOutOfRange

/-- Read of `p.level[i]`. -/
def readLevel (H : Heap S) (p i : Nat) : Except Fault Level := do
  let n ← deref H p
  idx n.level i

/-- Total form of an update of `p.level[i]`. -/
def setLevel (H : Heap S) (p i : Nat) (f : Level → Level) : Heap S :=
  match H[p]? with
  | some n =>
    match n.level[i]? with
    | some l => H.set p { n with level := n.level.set i (f l) }
    | none => H
  | none => H

/-- Update of a field of `p.level[i]`. -/
def writeLevel (H : Heap S) (p i : Nat) (f : Level → Level) : Except Fault (Heap S) := do
  let _ ← readLevel H p i
  pure (setLevel H p i f)

/-- Total form of `p.backward = b`. -/
def setBackward (H : Heap S) (p : Nat) (b : Option Nat) : Heap S :=
  match H[p]? with
  | some n => H.set p { n with backward := b }
  | none => H

/-- Assignment `p.backward = b`. -/
def writeBackward (H : Heap S) (p : Nat) (b : Option Nat) : Except Fault (Heap S) := do
  let _ ← deref H p
  pure (setBackward H p b)

/-- `func makeNode(level int16, score float64, member string) *Node` (the node value). -/
def makeNode (level : Nat) (score : S) (member : String) : Node S :=
  { Member := member, Score := score, backward := none,
    level := List.replicate level { forward := none, span := 0 } }

/-- Modelled from the spec: the constructor of the empty skip list is not in the sources; the
spec gives a sentinel `header` with `maxLevel` levels, no `tail`, `length` 0 and `level` 1. -/
def makeSkiplist [Zero S] : skiplist S :=
  { heap := [makeNode maxLevel 0 ""], header := 0, tail := none, length := 0, level := 1 }

/-! ## getByRank -/

/-- Inner loop of `getByRank` at level `curLevel`:
`for n.level[curLevel].forward != nil && (i+n.level[curLevel].span) <= rank`. -/
def getByRank.walk (H : Heap S) (curLevel : Nat) (rank : Int) :
    Nat → Nat → Int → Except Fault (Nat × Int)
  | 0, _, _ => .error .diverge
  | fuel + 1, n, i => do
    let lv ← readLevel H n curLevel
    match lv.forward with
    | none => pure (n, i)
    | some f =>
      if i + lv.span ≤ rank then getByRank.walk H curLevel rank fuel f (i + lv.span)
      else pure (n, i)

/-- Outer loop of `getByRank`, `curLevel` running from the first argument minus one down to 0. -/
def getByRank.levels (H : Heap S) (rank : Int) :
    Nat → Nat → Int → Except Fault (Option Nat)
  | 0, _, _ => pure none
  | curLevel + 1, n, i => do
    let (n, i) ← getByRank.walk H curLevel rank (H.length + 1) n i
    if i = rank then pure (some n) else getByRank.levels H rank curLevel n i

/-- `func (skiplist *skiplist) getByRank(rank int64) *Node` -/
def getByRank (sl : skiplist S) (rank : Int) : Except Fault (Option Nat) :=
  getByRank.levels sl.heap rank sl.level sl.header 0

/-! ## insert -/

section
variable [LinearOrder S]

/-- Inner loop of the search of `insert` at level `i`; the running value of `rank[i]` is the
last argument and is stored by the caller when the loop ends. -/
def insert.walk (H : Heap S) (member : String) (score : S) (i : Nat) :
    Nat → Nat → Int → Except Fault (Nat × Int)
  | 0, _, _ => .error .diverge
  | fuel + 1, node, r => do
    let lv ← readLevel H node i
    match lv.forward with
    | none => pure (node, r)
    | some f => do
      let fn ← deref H f
      if fn.Score < score ∨ (fn.Score = score ∧ fn.Member.data < member.data) then
        insert.walk H member score i fuel f (r + lv.span)
      else pure (node, r)

/-- Search of `insert`: `for i := skiplist.level - 1; i >= 0; i--`. -/
def insert.search (sl : skiplist S) (member : String) (score : S) :
    Nat → Nat → List (Option Nat) → List Int →
      Except Fault (Nat × List (Option Nat) × List Int)
  | 0, node, update, rank => pure (node, update, rank)
  | i + 1, node, update, rank => do
    let r0 ← (if i = sl.level - 1 then pure 0 else idx rank (i + 1))
    let rank ← setIdx rank i r0
    let _ ← readLevel sl.heap node i
    let (node, r) ← insert.walk sl.heap member score i (sl.heap.length + 1) node r0
    let rank ← setIdx rank i r
    let update ← setIdx update i (some node)
    insert.search sl member score i node update rank

/-- New levels of `insert`: `for i := skiplist.level; i < level; i++`, the first argument
counting the iterations that remain. -/
def insert.raise (header : Nat) (length : Int) :
    Nat → Nat → Heap S → List (Option Nat) → List Int →
      Except Fault (Heap S × List (Option Nat) × List Int)
  | 0, _, H, update, rank => pure (H, update, rank)
  | n + 1, i, H, update, rank => do
    let rank ← setIdx rank i 0
    let update ← setIdx update i (some header)
    let u ← idx update i >>= ptr
    let H ← writeLevel H u i (fun l => { l with span := length })
    insert.raise header length n (i + 1) H update rank

/-- Linking loop of `insert`: `for i := int16(0); i < level; i++`. -/
def insert.splice (newNode node : Nat) (update : List (Option Nat)) (rank : List Int) :
    Nat → Nat → Heap S → Except Fault (Heap S)
  | 0, _, H => pure H
  | n + 1, i, H => do
    let u ← idx update i >>= ptr
    let ul ← readLevel H u i
    let H ← writeLevel H newNode i (fun l => { l with forward := ul.forward })
    let H ← writeLevel H u i (fun l => { l with forward := some newNode })
    let ul ← readLevel H u i
    let r0 ← idx rank 0
    let ri ← idx rank i
    let H ← writeLevel H node i (fun l => { l with span := ul.span - (r0 - ri) })
    let H ← writeLevel H u i (fun l => { l with span := (r0 - ri) + 1 })
    insert.splice newNode node update rank n (i + 1) H

/-- Loop over the levels above the new node: `for i := level; i < skiplist.level; i++`. -/
def insert.bump (update : List (Option Nat)) : Nat → Nat → Heap S → Except Fault (Heap S)
  | 0, _, H => pure H
  | n + 1, i, H => do
    let u ← idx update i >>= ptr
    let H ← writeLevel H u i (fun l => { l with span := l.span + 1 })
    insert.bump update n (i + 1) H

/-- `func (skiplist *skiplist) insert(member string, score float64) *Node`.  The height that
`randomLevel()` draws is the argument `level`. -/
def insert (sl : skiplist S) (member : String) (score : S) (level : Nat) :
    Except Fault (skiplist S × Nat) := do
  let update : List (Option Nat) := List.replicate maxLevel none
  let rank : List Int := List.replicate maxLevel 0
  let (node, update, rank) ← insert.search sl member score sl.level sl.header update rank
  let (H, update, rank, slLevel) ←
    (if level > sl.level then do
      let (H, update, rank) ←
        insert.raise sl.header sl.length (level - sl.level) sl.level sl.heap update rank
      pure (H, update, rank, level)
    else pure (sl.heap, update, rank, sl.level))
  let newNode := H.length
  let H := H ++ [makeNode level score member]
  let H ← insert.splice newNode node update rank level 0 H
  let H ← insert.bump update (slLevel - level) level H
  let u0 ← idx update 0
  let H ← (if u0 = some sl.header then writeBackward H node none else writeBackward H node u0)
  let nl ← readLevel H node 0
  let (H, tail) ←
    (match nl.forward with
    | some f => do
      let H ← writeBackward H f (some node)
      pure (H, sl.tail)
    | none => pure (H, some node))
  pure ({ heap := H, header := sl.header, tail := tail, length := sl.length + 1,
          level := slLevel }, node)

end


/-! ## Score ranges -/

/-- The methods of the `Border` interface that the skip list calls.  The interface is declared
outside the sources given, so the border type `B` and its methods are parameters. -/
structure BorderOps (B : Type) (S : Type) where
  isIntersected : B → B → Bool
  less : B → Element S → Bool
  greater : B → Element S → Bool

/-- `func (skiplist *skiplist) hasInRange(min Border, max Border) bool` -/
def hasInRange {B : Type} (ops : BorderOps B S) (sl : skiplist S) (min max : B) :
    Except Fault Bool := do
  if ops.isIntersected min max then
    pure false
  else
    match sl.tail with
    | none => pure false
    | some n => do
      let tn ← deref sl.heap n
      if !ops.less min tn.toElement then
        pure false
      else
        let hl ← readLevel sl.heap sl.header 0
        match hl.forward with
        | none => pure false
        | some n => do
          let fn ← deref sl.heap n
          if !ops.greater max fn.toElement then pure false else pure true

/-- Inner loop of `getFirstInScoreRange` at one level:
`for n.level[level].forward != nil && !min.less(&n.level[level].forward.Element)`. -/
def getFirstInScoreRange.walk {B : Type} (ops : BorderOps B S) (H : Heap S) (min : B)
    (level : Nat) : Nat → Nat → Except Fault Nat
  | 0, _ => .error .diverge
  | fuel + 1, n => do
    let lv ← readLevel H n level
    match lv.forward with
    | none => pure n
    | some f => do
      let fn ← deref H f
      if !ops.less min fn.toElement then getFirstInScoreRange.walk ops H min level fuel f
      else pure n

/-- Outer loop of `getFirstInScoreRange`: `for level := skiplist.level - 1; level >= 0; level--`. -/
def getFirstInScoreRange.levels {B : Type} (ops : BorderOps B S) (H : Heap S) (min : B) :
    Nat → Nat → Except Fault Nat
  | 0, n => pure n
  | level + 1, n => do
    let n ← getFirstInScoreRange.walk ops H min level (H.length + 1) n
    getFirstInScoreRange.levels ops H min level n

/-- `func (skiplist *skiplist) getFirstInScoreRange(min Border, max Border) *Node` -/
def getFirstInScoreRange {B : Type} (ops : BorderOps B S) (sl : skiplist S) (min max : B) :
    Except Fault (Option Nat) := do
  let inRange ← hasInRange ops sl min max
  if !inRange then
    pure none
  else
    let n ← getFirstInScoreRange.levels ops sl.heap min sl.level sl.header
    let nl ← readLevel sl.heap n 0
    let n ← ptr nl.forward
    let fn ← deref sl.heap n
    if !ops.greater max fn.toElement then pure none else pure (some n)

/-- Modelled from the spec: the score boundary of sections 3 and 4.1 (its declaration is not in
the sources): a value, an exclusive flag, and `Inf` negative, zero or positive for an
unbounded lower side, a bounded side, an unbounded upper side. -/
structure ScoreBorder (S : Type) where
  Inf : Int
  Value : S
  Exclude : Bool
  deriving DecidableEq, Repr

/-- Modelled from the spec: the methods of a score boundary.  `less` holds when the boundary
lies below the element (the element passes a lower bound), `greater` when it lies above; two
boundaries intersect when `min` is at or past `max`, exclusivity counted. -/
def scoreBorderOps [LinearOrder S] : BorderOps (ScoreBorder S) S where
  isIntersected := fun min max =>
    decide (max.Value < min.Value ∨ (min.Value = max.Value ∧ (min.Exclude ∨ max.Exclude)))
  less := fun b e =>
    if b.Inf < 0 then true
    else if 0 < b.Inf then false
    else if b.Exclude then decide (b.Value < e.Score) else decide (b.Value ≤ e.Score)
  greater := fun b e =>
    if b.Inf < 0 then false
    else if 0 < b.Inf then true
    else if b.Exclude then decide (e.Score < b.Value) else decide (e.Score ≤ b.Value)

/-! ## RemoveRangeByRank -/

/-- Inner loop of the search of `RemoveRangeByRank` at one level:
`for node.level[level].forward != nil && (i+node.level[level].span) < start`. -/
def RemoveRangeByRank.walk (H : Heap S) (level : Nat) (start : Int) :
    Nat → Nat → Int → Except Fault (Nat × Int)
  | 0, _, _ => .error .diverge
  | fuel + 1, node, i => do
    let lv ← readLevel H node level
    match lv.forward with
    | none => pure (node, i)
    | some f =>
      if i + lv.span < start then RemoveRangeByRank.walk H level start fuel f (i + lv.span)
      else pure (node, i)

/-- Search of `RemoveRangeByRank`: `for level := skiplist.level - 1; level >= 0; level--`. -/
def RemoveRangeByRank.search (H : Heap S) (start : Int) :
    Nat → Nat → Int → List (Option Nat) → Except Fault (Nat × Int × List (Option Nat))
  | 0, node, i, update => pure (node, i, update)
  | level + 1, node, i, update => do
    let (node, i) ← RemoveRangeByRank.walk H level start (H.length + 1) node i
    let update ← setIdx update level (some node)
    RemoveRangeByRank.search H start level node i update

/-- First loop of `removeNode`: `for i := int16(0); i < skiplist.level; i++`, the first argument
counting the iterations that remain. -/
def removeNode.unlink (node : Nat) (update : List (Option Nat)) :
    Nat → Nat → Heap S → Except Fault (Heap S)
  | 0, _, H => pure H
  | n + 1, i, H => do
    let u ← idx update i >>= ptr
    let ul ← readLevel H u i
    let H ←
      (if ul.forward = some node then do
        let nl ← readLevel H node i
        let H ← writeLevel H u i (fun l => { l with span := l.span + (nl.span - 1) })
        let nl ← readLevel H node i
        writeLevel H u i (fun l => { l with forward := nl.forward })
      else writeLevel H u i (fun l => { l with span := l.span - 1 }))
    removeNode.unlink node update n (i + 1) H

/-- Last loop of `removeNode`:
`for skiplist.level > 1 && skiplist.header.level[skiplist.level-1].forward == nil`. -/
def removeNode.shrink (H : Heap S) (header : Nat) : Nat → Except Fault Nat
  | 0 => pure 0
  | 1 => pure 1
  | level + 2 => do
    let hl ← readLevel H header (level + 1)
    match hl.forward with
    | none => removeNode.shrink H header (level + 1)
    | some _ => pure (level + 2)

/-- Backward block of `removeNode`: `if node.level[0].forward != nil` the successor takes the
backward link of the node, `else` the tail does; the store and the tail are returned. -/
def removeNode.relink (H : Heap S) (tail : Option Nat) (forward backward : Option Nat) :
    Except Fault (Heap S × Option Nat) :=
  match forward with
  | some f => do
    let H ← writeBackward H f backward
    pure (H, tail)
  | none => pure (H, backward)

/-- `func (skiplist *skiplist) removeNode(node *Node, update []*Node)` -/
def removeNode (sl : skiplist S) (node : Nat) (update : List (Option Nat)) :
    Except Fault (skiplist S) := do
  let H ← removeNode.unlink node update sl.level 0 sl.heap
  let nl ← readLevel H node 0
  let n ← deref H node
  let (H, tail) ← removeNode.relink H sl.tail nl.forward n.backward
  let level ← removeNode.shrink H sl.header sl.level
  pure { heap := H, header := sl.header, tail := tail, length := sl.length - 1, level := level }

/-- Removal loop of `RemoveRangeByRank`: `for node != nil && i < stop`. -/
def RemoveRangeByRank.loop (update : List (Option Nat)) (stop : Int) :
    Nat → skiplist S → Option Nat → Int → List (Element S) →
      Except Fault (skiplist S × List (Element S))
  | 0, _, _, _, _ => .error .diverge
  | fuel + 1, sl, node, i, removed =>
    match node with
    | none => pure (sl, removed)
    | some node =>
      if i < stop then do
        let nl ← readLevel sl.heap node 0
        let n ← deref sl.heap node
        let sl ← removeNode sl node update
        RemoveRangeByRank.loop update stop fuel sl nl.forward (i + 1)
          (removed ++ [n.toElement])
      else pure (sl, removed)

/-- `func (skiplist *skiplist) RemoveRangeByRank(start int64, stop int64) (removed []*Element)`;
the list after the call is returned with the removed elements. -/
def RemoveRangeByRank (sl : skiplist S) (start stop : Int) :
    Except Fault (skiplist S × List (Element S)) := do
  let update : List (Option Nat) := List.replicate maxLevel none
  let (node, i, update) ←
    RemoveRangeByRank.search sl.heap start sl.level sl.header 0 update
  let nl ← readLevel sl.heap node 0
  RemoveRangeByRank.loop update stop (sl.heap.length + 1) sl nl.forward (i + 1) []

/-! ## Views of the store

Total readings of the fields of a node, used to state the shape of a list. -/

/-- Number of levels of the node at `p` (`len(p.level)`), 0 when nothing is stored there. -/
def hgt (H : Heap S) (p : Nat) : Nat :=
  match H[p]? with
  | some n => n.level.length
  | none => 0

/-- The pointer `p.level[i].forward`, `none` when it is nil or does not exist. -/
def fwdOf (H : Heap S) (p i : Nat) : Option Nat :=
  match H[p]? with
  | some n =>
    match n.level[i]? with
    | some l => l.forward
    | none => none
  | none => none

/-- The counter `p.level[i].span`, 0 when it does not exist. -/
def spanOf (H : Heap S) (p i : Nat) : Int :=
  match H[p]? with
  | some n =>
    match n.level[i]? with
    | some l => l.span
    | none => 0
  | none => 0

/-- The pointer `p.backward`. -/
def backOf (H : Heap S) (p : Nat) : Option Nat :=
  match H[p]? with
  | some n => n.backward
  | none => none

/-- The element stored at `p`. -/
def elemOf (H : Heap S) (p : Nat) : Option (Element S) :=
  match H[p]? with
  | some n => some n.toElement
  | none => none

/-- The level-0 walk from a node to the end of its forward chain, listing the nodes met. -/
def chain0.walk (H : Heap S) : Nat → Nat → Except Fault (List Nat)
  | 0, _ => .error .diverge
  | fuel + 1, n => do
    let lv ← readLevel H n 0
    match lv.forward with
    | none => pure []
    | some f => do
      let rest ← chain0.walk H fuel f
      pure (f :: rest)

/-- The nodes of the level-0 forward chain from the header, in order. -/
def chain0 (sl : skiplist S) : Except Fault (List Nat) :=
  chain0.walk sl.heap (sl.heap.length + 1) sl.header

/-- The elements stored at a sequence of nodes. -/
def elements.collect (H : Heap S) : List Nat → Except Fault (List (Element S))
  | [] => pure []
  | p :: ps => do
    let n ← deref H p
    let rest ← elements.collect H ps
    pure (n.toElement :: rest)

/-- The elements of the level-0 forward chain from the header, in order. -/
def elements (sl : skiplist S) : Except Fault (List (Element S)) := do
  let ns ← chain0 sl
  elements.collect sl.heap ns

/-! ## The order on elements and the shape of a well-formed list -/

section
variable [LinearOrder S]

/-- The comparison the search of `insert` makes: the element lies strictly before the key
`(score, member)`. -/
def keyLt (e : Element S) (member : String) (score : S) : Prop :=
  e.Score < score ∨ (e.Score = score ∧ e.Member.data < member.data)

instance (e : Element S) (member : String) (score : S) : Decidable (keyLt e member score) := by
  unfold keyLt
  exact inferInstance

/-- Strict order of elements: by score, ties broken by member. -/
def elemLt (a b : Element S) : Prop := keyLt a b.Member b.Score

instance (a b : Element S) : Decidable (elemLt a b) := by
  unfold elemLt
  exact inferInstance

/-- Order of the elements stored at two addresses. -/
def nodeLt (H : Heap S) (p q : Nat) : Prop :=
  match elemOf H p, elemOf H q with
  | some a, some b => elemLt a b
  | _, _ => False

instance (H : Heap S) (p q : Nat) : Decidable (nodeLt H p q) := by
  unfold nodeLt
  split <;> exact inferInstance

end

/-- Forward links of level `i`: walking the level-0 sequence `l` that follows `p`, the level-`i`
pointer of `p` is the first node of `l` that has a level `i`, and so on from that node; it is
nil when no node of `l` has one. -/
def FwdOK (H : Heap S) (i : Nat) : Nat → List Nat → Prop
  | p, [] => fwdOf H p i = none
  | p, q :: l => if i < hgt H q then fwdOf H p i = some q ∧ FwdOK H i q l else FwdOK H i p l

instance FwdOK.dec (H : Heap S) (i : Nat) : (p : Nat) → (l : List Nat) → Decidable (FwdOK H i p l)
  | p, [] => by unfold FwdOK; exact inferInstance
  | p, q :: l => by
    unfold FwdOK
    have := FwdOK.dec H i q l
    have := FwdOK.dec H i p l
    exact inferInstance

/-- Spans of level `i`: every existing level-`i` link carries the number of level-0 hops it
covers (`c` hops lie between `p` and the head of the sequence). -/
def SpanOK (H : Heap S) (i : Nat) : Nat → Int → List Nat → Prop
  | _, _, [] => True
  | p, c, q :: l =>
    if i < hgt H q then spanOf H p i = c + 1 ∧ SpanOK H i q 0 l else SpanOK H i p (c + 1) l

instance SpanOK.dec (H : Heap S) (i : Nat) :
    (p : Nat) → (c : Int) → (l : List Nat) → Decidable (SpanOK H i p c l)
  | _, _, [] => by unfold SpanOK; exact inferInstance
  | p, c, q :: l => by
    unfold SpanOK
    have := SpanOK.dec H i q 0 l
    have := SpanOK.dec H i p (c + 1) l
    exact inferInstance

/-- Backward links: each node of the sequence points back to the one before it, the first to
`prev`. -/
def BackOK (H : Heap S) : Option Nat → List Nat → Prop
  | _, [] => True
  | prev, q :: l => backOf H q = prev ∧ BackOK H (some q) l

instance BackOK.dec (H : Heap S) : (prev : Option Nat) → (l : List Nat) → Decidable (BackOK H prev l)
  | _, [] => by unfold BackOK; exact inferInstance
  | prev, q :: l => by
    unfold BackOK
    have := BackOK.dec H (some q) l
    exact inferInstance

/-- The forward structure of a skip list whose level-0 sequence of nodes is `abs`: a header with
`maxLevel` levels, distinct nodes of height `1..level`, and at every level the links of
`FwdOK` (so the header's links at and above `level` are nil). -/
structure Linked (sl : skiplist S) (abs : List Nat) : Prop where
  header_levels : hgt sl.heap sl.header = maxLevel
  header_fresh : sl.header ∉ abs
  nodup : abs.Nodup
  heights : ∀ p ∈ abs, 1 ≤ hgt sl.heap p ∧ hgt sl.heap p ≤ sl.level
  level_pos : 1 ≤ sl.level
  level_le : sl.level ≤ maxLevel
  forward : ∀ i, i < maxLevel → FwdOK sl.heap i sl.header abs

/-- Invariant 1 of the data model: the level-0 sequence ascends strictly in the element order. -/
def Ordered [LinearOrder S] (H : Heap S) (abs : List Nat) : Prop :=
  abs.Pairwise (nodeLt H)

instance [LinearOrder S] (H : Heap S) (abs : List Nat) : Decidable (Ordered H abs) := by
  unfold Ordered
  exact inferInstance


/-- The last node of `p :: l` that has a level `i`: the level-`i` predecessor of whatever
follows `l`. -/
def lastAt (H : Heap S) (i : Nat) : Nat → List Nat → Nat
  | p, [] => p
  | p, q :: l => if i < hgt H q then lastAt H i q l else lastAt H i p l

/-- The element stored at `q` lies strictly before the key `(score, member)`. -/
def before [LinearOrder S] (H : Heap S) (member : String) (score : S) (q : Nat) : Prop :=
  match elemOf H q with
  | some e => keyLt e member score
  | none => False

instance [LinearOrder S] (H : Heap S) (member : String) (score : S) (q : Nat) :
    Decidable (before H member score q) := by
  unfold before
  split <;> exact inferInstance

/-- A sequence of `insert` calls, each with its member, score and drawn height. -/
def insertAll [LinearOrder S] (sl : skiplist S) :
    List (String × S × Nat) → Except Fault (skiplist S)
  | [] => pure sl
  | (member, score, level) :: ops => do
    let (sl, _) ← insert sl member score level
    insertAll sl ops


/-- Two stores that differ at most in spans and backward pointers. -/
def SameLinks (H H' : Heap S) : Prop :=
  H'.length = H.length ∧
    ∀ q, hgt H' q = hgt H q ∧ elemOf H' q = elemOf H q ∧ ∀ j, fwdOf H' q j = fwdOf H q j


/-- The state reached from the empty list by the completed calls `done` of `insert`, with
level-0 sequence `abs`: the links are in place, the sequence is ordered and holds the inserted
elements, `tail` has never been assigned, and `length` and `level` count the calls and the
greatest height drawn. -/
structure Grown [LinearOrder S] (sl : skiplist S) (done : List (String × S × Nat))
    (abs : List Nat) : Prop where
  linked : Linked sl abs
  ordered : Ordered sl.heap abs
  perm : (abs.map (elemOf sl.heap)).Perm (done.map fun o => some ⟨o.1, o.2.1⟩)
  tail_none : sl.tail = none
  length_eq : sl.length = done.length
  level_eq : sl.level = (done.map fun o => o.2.2).foldr max 1


/-- A sequence of three calls that completes: `("c", 3)` with height 2, then `("a", 1)` and
`("b", 2)` with height 1. -/
def opsCAB : List (String × Int × Nat) := [("c", 3, 2), ("a", 1, 1), ("b", 2, 1)]


/-- Two calls in descending order: `("b", 2)` then `("a", 1)`, both of height 1. -/
def opsBA : List (String × Int × Nat) := [("b", 2, 1), ("a", 1, 1)]

/-- The inclusive score range `[0, 2]`. -/
def range02 : ScoreBorder Int × ScoreBorder Int :=
  ({ Inf := 0, Value := 0, Exclude := false }, { Inf := 0, Value := 2, Exclude := false })


/-- The list after `insert("a", 1)` with height 1 on the empty list. -/
def slA : skiplist Int :=
  match insert makeSkiplist "a" 1 1 with
  | .ok (sl, _) => sl
  | .error _ => makeSkiplist

/-- The list after the calls `opsBA` on the empty list. -/
def slBA : skiplist Int :=
  match insertAll makeSkiplist opsBA with
  | .ok sl => sl
  | .error _ => makeSkiplist


/-- The invariants of section 3 of the spec for a list whose level-0 sequence of nodes is
`abs`: the forward structure (`Linked`), (1) the element order, (2, 3) the span of every
existing link, (4) the backward chain and `tail`, (5) `length` and `level`. -/
structure WF [LinearOrder S] (sl : skiplist S) (abs : List Nat) : Prop where
  linked : Linked sl abs
  ordered : Ordered sl.heap abs
  spans : ∀ i, i < maxLevel → SpanOK sl.heap i sl.header 0 abs
  backward : BackOK sl.heap none abs
  tail_last : sl.tail = abs.getLast?
  length_eq : sl.length = abs.length
  level_used : 1 < sl.level → ∃ p ∈ abs, hgt sl.heap p = sl.level

/-- The rank of a node of `abs`: its 1-based position, 0 for the header `hdr`. -/
def rankOf (hdr : Nat) (abs : List Nat) (q : Nat) : Int :=
  ((hdr :: abs).indexOf q : Nat)


/-- The header of the example list: level 0 leads to `a`, level 1 to `b`. -/
def hdr5 : Node Int :=
  { Member := "", Score := 0, backward := none,
    level := [⟨some 1, 1⟩, ⟨some 2, 2⟩] ++ List.replicate 14 ⟨none, 0⟩ }

/-- A well-formed list of five elements `a, b, c, d, e` with scores 1 to 5, stored at the
addresses 1 to 5; `b` and `d` have height 2, the others height 1. -/
def sl5 : skiplist Int :=
  { heap := [hdr5,
      { Member := "a", Score := 1, backward := none, level := [⟨some 2, 1⟩] },
      { Member := "b", Score := 2, backward := some 1, level := [⟨some 3, 1⟩, ⟨some 4, 2⟩] },
      { Member := "c", Score := 3, backward := some 2, level := [⟨some 4, 1⟩] },
      { Member := "d", Score := 4, backward := some 3, level := [⟨some 5, 1⟩, ⟨none, 0⟩] },
      { Member := "e", Score := 5, backward := some 4, level := [⟨none, 0⟩] }],
    header := 0, tail := some 5, length := 5, level := 2 }


/-- The ranks that `RemoveRangeByRank(start, stop)` is to remove, in the words of the spec: the
0-based position `k` holds rank `k + 1`, and a rank `r` is removed when
`max(start, 1) ≤ r < stop`. -/
def inRankRange (start stop : Int) (k : Nat) : Bool :=
  decide (max start 1 ≤ (k : Int) + 1 ∧ (k : Int) + 1 < stop)

/-- The elements of a sequence whose rank lies in the range, in order. -/
def rankSlice {α : Type} (l : List α) (start stop : Int) : List α :=
  (l.enum.filter (fun p => inRankRange start stop p.1)).map Prod.snd

/-- The elements of a sequence whose rank lies outside the range, in order. -/
def rankRest {α : Type} (l : List α) (start stop : Int) : List α :=
  (l.enum.filter (fun p => !inRankRange start stop p.1)).map Prod.snd

end zset

/-! # The RESP decoder (`redis/parser/parser.go`)

`parse0` runs in a goroutine and sends payloads on an unbuffered channel that `ParseBytes`
drains; the pair is modelled sequentially: `parse0` yields the payloads in the order sent,
with a flag telling whether it closed the channel, and `ParseBytes` consumes them up to the
first error.  The reader is the list of bytes not yet read.  The replies are built by
constructors of the godis library, modelled as an inductive type.  Allocation is assumed to
succeed; a slice length that wraps around `int64` is a panic.
-/

namespace protocol

/-- A byte slice. -/
abbrev Bytes := List UInt8

/-- The replies built by `protocol.MakeStatusReply`, `MakeErrReply`, `MakeIntReply`,
`MakeBulkReply`, `MakeNullBulkReply`, `MakeMultiBulkReply` and `MakeEmptyMultiBulkReply`. -/
inductive Reply where
  | status (content : Bytes)
  | err (msg : Bytes)
  | int (value : Int)
  | bulk (arg : Bytes)
  | nullBulk
  | multiBulk (args : List Bytes)
  | emptyMultiBulk
  deriving DecidableEq, Repr

/-- The error values: `io.EOF`, `io.ErrUnexpectedEOF`, the protocol error built by
`protocolError` (its message and the bytes appended to it), and the errors built by
`errors.New` in `parseRDBBulkString`. -/
inductive Err where
  | eof
  | unexpectedEOF
  | protocolErr (msg : String) (arg : Bytes)
  | other (msg : String) (arg : Bytes)
  deriving DecidableEq, Repr

/-- `type Payload struct { Data redis.Reply; Err error }`: one of the two is set. -/
inductive Payload where
  | data (r : Reply)
  | error (e : Err)
  deriving DecidableEq, Repr

/-- How a helper of `parse0` ends: it returns nil, returns an error, or panics. -/
inductive Ret where
  | nil
  | err (e : Err)
  | panic
  deriving DecidableEq, Repr

/-- What `ParseBytes` gives back: the replies with a nil error, or an error, or nothing when
the goroutine stopped on a panic without closing the channel. -/
inductive Result where
  | ok (replies : List Reply)
  | error (e : Err)
  | noReturn
  deriving DecidableEq, Repr

/-! ## Library functions -/

/-- `bufio.Reader.ReadBytes('\n')`: the line up to and including the first line feed, what is
left, and whether the input ended first (`io.EOF`, the bytes read so far being returned). -/
def ReadBytes : Bytes → Bytes × Bytes × Bool
  | [] => ([], [], true)
  | b :: bs =>
    if b = 10 then ([b], bs, false)
    else
      let r := ReadBytes bs
      (b :: r.1, r.2.1, r.2.2)

/-- `io.ReadFull(reader, make([]byte, n))`: exactly `n` bytes, or `io.EOF` when none is left,
or `io.ErrUnexpectedEOF` when too few are. -/
def ReadFull (inp : Bytes) (n : Nat) : Except Err (Bytes × Bytes) :=
  if n ≤ inp.length then .ok (inp.take n, inp.drop n)
  else if inp = [] then .error .eof
  else .error .unexpectedEOF

/-- A decimal digit. -/
def isDigit (b : UInt8) : Bool := 48 ≤ b.toNat && b.toNat ≤ 57

/-- The digits of `strconv.ParseUint(s, 10, 64)`, read from the left. -/
def parseUintDigits : Nat → Bytes → Option Nat
  | acc, [] => some acc
  | acc, b :: bs =>
    if isDigit b then parseUintDigits (acc * 10 + (b.toNat - 48)) bs else none

/-- `strconv.ParseInt(s, 10, 64)`: an optional sign and at least one decimal digit, the value
within `int64`; `none` stands for any error. -/
def ParseInt (s : Bytes) : Option Int :=
  match s with
  | [] => none
  | c :: rest =>
    let ds := if c = 43 ∨ c = 45 then rest else s
    match ds with
    | [] => none
    | _ =>
      match parseUintDigits 0 ds with
      | none => none
      | some n =>
        if c = 45 then (if n ≤ 2 ^ 63 then some (-(n : Int)) else none)
        else (if n < 2 ^ 63 then some (n : Int) else none)

/-- `bytes.TrimSuffix(s, suffix)` -/
def TrimSuffix (s suffix : Bytes) : Bytes :=
  if s.drop (s.length - suffix.length) = suffix then s.take (s.length - suffix.length) else s

/-- `strings.HasPrefix(s, prefix)` -/
def HasPrefix (s pre : Bytes) : Bool := decide (s.take pre.length = pre)

/-- `bytes.Split(s, []byte{sep})` -/
def Split (sep : UInt8) : Bytes → List Bytes
  | [] => [[]]
  | b :: bs =>
    if b = sep then [] :: Split sep bs
    else
      match Split sep bs with
      | [] => [[b]]
      | x :: xs => (b :: x) :: xs

/-- The bytes of `"FULLRESYNC"`. -/
def FULLRESYNC : Bytes := [70, 85, 76, 76, 82, 69, 83, 89, 78, 67]

/-! ## The decoder -/

/-- `func protocolError(ch chan<- *Payload, msg string)`: the payload it sends. -/
def protocolError (msg : String) (arg : Bytes) : Payload :=
  .error (.protocolErr msg arg)

/-- `func parseBulkString(header []byte, reader *bufio.Reader, ch chan<- *Payload) error`: the
payloads sent, the reader afterwards, and how the call ends. -/
def parseBulkString (header : Bytes) (inp : Bytes) : List Payload × Bytes × Ret :=
  match ParseInt (header.drop 1) with
  | none => ([protocolError "illegal bulk string header: " header], inp, .nil)
  | some strLen =>
    if strLen < -1 then ([protocolError "illegal bulk string header: " header], inp, .nil)
    else if strLen = -1 then ([.data .nullBulk], inp, .nil)
    else if 2 ^ 63 ≤ strLen + 2 then ([], inp, .panic)
    else
      match ReadFull inp (strLen + 2).toNat with
      | .error e => ([], [], .err e)
      | .ok (body, rest) => ([.data (.bulk (body.take (body.length - 2)))], rest, .nil)

/-- `func parseRDBBulkString(reader *bufio.Reader, ch chan<- *Payload) error` -/
def parseRDBBulkString (inp : Bytes) : List Payload × Bytes × Ret :=
  let r := ReadBytes inp
  if r.2.2 then ([], r.2.1, .err (.other "failed to read bytes" []))
  else
    let header := TrimSuffix r.1 [13, 10]
    if header.length = 0 then ([], r.2.1, .err (.other "empty header" []))
    else
      match ParseInt (header.drop 1) with
      | none => ([], r.2.1, .err (.other "illegal bulk header: " header))
      | some strLen =>
        if strLen ≤ 0 then ([], r.2.1, .err (.other "illegal bulk header: " header))
        else
          match ReadFull r.2.1 strLen.toNat with
          | .error e => ([], [], .err e)
          | .ok (body, rest) => ([.data (.bulk body)], rest, .nil)

/-- The loop of `parseArray`, `for i := int64(0); i < nStrs; i++`, the first argument counting
the iterations that remain: the payloads sent, the reader, how the loop ends (`nil` when it
runs out or breaks, so that the reply is sent after it) and the lines collected. -/
def parseArray.loop : Nat → Bytes → List Bytes → List Payload × Bytes × Ret × List Bytes
  | 0, inp, lines => ([], inp, .nil, lines)
  | n + 1, inp, lines =>
    let r := ReadBytes inp
    if r.2.2 then ([], r.2.1, .err .eof, lines)
    else
      let ln := r.1
      let length := ln.length
      if length < 4 ∨ ln[length - 2]? ≠ some 13 ∨ ln[0]? ≠ some 36 then
        ([protocolError "illegal bulk string header " ln], r.2.1, .nil, lines)
      else
        match ParseInt ((ln.take (length - 2)).drop 1) with
        | none => ([protocolError "illegal bulk string length " ln], r.2.1, .nil, lines)
        | some strLen =>
          if strLen < -1 then
            ([protocolError "illegal bulk string length " ln], r.2.1, .nil, lines)
          else if strLen = -1 then parseArray.loop n r.2.1 (lines ++ [[]])
          else if 2 ^ 63 ≤ strLen + 2 then ([], r.2.1, .panic, lines)
          else
            match ReadFull r.2.1 (strLen + 2).toNat with
            | .error e => ([], [], .err e, lines)
            | .ok (body, rest) =>
              parseArray.loop n rest (lines ++ [body.take (body.length - 2)])

/-- `func parseArray(header []byte, reader *bufio.Reader, ch chan<- *Payload) error` -/
def parseArray (header : Bytes) (inp : Bytes) : List Payload × Bytes × Ret :=
  match ParseInt (header.drop 1) with
  | none => ([protocolError "illegal array header " (header.drop 1)], inp, .nil)
  | some nStrs =>
    if nStrs < 0 then ([protocolError "illegal array header " (header.drop 1)], inp, .nil)
    else if nStrs = 0 then ([.data .emptyMultiBulk], inp, .nil)
    else
      let r := parseArray.loop nStrs.toNat inp []
      match r.2.2.1 with
      | .nil => (r.1 ++ [.data (.multiBulk r.2.2.2)], r.2.1, .nil)
      | e => (r.1, r.2.1, e)

/-- The `switch line[0]` of `parse0` for a line stripped of its line end: the payloads sent,
the reader afterwards, and `nil` when the loop of `parse0` goes on. -/
def parse0.dispatch (line : Bytes) (inp : Bytes) : List Payload × Bytes × Ret :=
  match line with
  | [] => ([], inp, .panic)
  | c :: content =>
    if c = 43 then
      if HasPrefix content FULLRESYNC then
        let r := parseRDBBulkString inp
        (.data (.status content) :: r.1, r.2.1, r.2.2)
      else ([.data (.status content)], inp, .nil)
    else if c = 45 then ([.data (.err content)], inp, .nil)
    else if c = 58 then
      match ParseInt content with
      | none => ([protocolError "illegal number " content], inp, .nil)
      | some value => ([.data (.int value)], inp, .nil)
    else if c = 36 then parseBulkString line inp
    else if c = 42 then parseArray line inp
    else ([.data (.multiBulk (Split 32 line))], inp, .nil)

/-- `func parse0(rawReader io.Reader, ch chan<- *Payload)`: the payloads sent and whether the
channel is closed at the end.  Every turn of the loop reads at least one byte, so the first
argument, set to the length of the input plus one, bounds the turns. -/
def parse0 : Nat → Bytes → List Payload × Bool
  | 0, _ => ([], false)
  | fuel + 1, inp =>
    let r := ReadBytes inp
    if r.2.2 then ([.error .eof], true)
    else
      let ln := r.1
      let length := ln.length
      if length ≤ 2 ∨ ln[length - 2]? ≠ some 13 then parse0 fuel r.2.1
      else
        let d := parse0.dispatch (TrimSuffix ln [13, 10]) r.2.1
        match d.2.2 with
        | .nil =>
          let rest := parse0 fuel d.2.1
          (d.1 ++ rest.1, rest.2)
        | .err e => (d.1 ++ [.error e], true)
        | .panic => (d.1, false)

/-- The loop of `ParseBytes` over the payloads received. -/
def ParseBytes.drain (closed : Bool) : List Payload → List Reply → Result
  | [], results => if closed then .ok results else .noReturn
  | .data r :: ps, results => ParseBytes.drain closed ps (results ++ [r])
  | .error e :: _, results => if e = .eof then .ok results else .error e

/-- `func ParseBytes(data []byte) ([]redis.Reply, error)` -/
def ParseBytes (data : Bytes) : Result :=
  let r := parse0 (data.length + 1) data
  ParseBytes.drain r.2 r.1 []

/-! ## The encoding of commands -/

/-- The decimal digits of a number in front of `acc`, the first argument bounding the number
of digits. -/
def encodeDecimal.go : Nat → Nat → Bytes → Bytes
  | 0, _, acc => acc
  | fuel + 1, n, acc =>
    if n < 10 then UInt8.ofNat (48 + n) :: acc
    else encodeDecimal.go fuel (n / 10) (UInt8.ofNat (48 + n % 10) :: acc)

/-- A number in decimal. -/
def encodeDecimal (n : Nat) : Bytes := encodeDecimal.go (n + 1) n []

/-- The bulk string of an argument: `$<len>\r\n<bytes>\r\n`. -/
def encodeBulk (arg : Bytes) : Bytes :=
  36 :: encodeDecimal arg.length ++ [13, 10] ++ arg ++ [13, 10]

/-- The array of a command: `*<n>\r\n` followed by the bulk string of each argument. -/
def encodeArray (args : List Bytes) : Bytes :=
  42 :: encodeDecimal args.length ++ [13, 10] ++ (args.map encodeBulk).flatten

/-- The encodings of a list of commands, one after the other. -/
def encodeAll (cmds : List (List Bytes)) : Bytes :=
  (cmds.map encodeArray).flatten

/-- The bytes of an ASCII string. -/
def ascii (s : String) : Bytes := s.data.map (fun c => UInt8.ofNat c.toNat)

/-- Two commands, `SET k v` with a value that holds a line end, and `GET k`. -/
def cmdsSetGet : List (List Bytes) :=
  [[ascii "SET", ascii "k", ascii "a\r\nb"], [ascii "GET", ascii "k"]]

end protocol

/-! # Further definitions: `randomLevel`, the sorted set, `utils/atom.go` -/

namespace zset

variable {S : Type}

/-! ## randomLevel -/

/-- The value of an integer after conversion to `int16` (two's complement wrap-around). -/
def wrapInt16 (v : Int) : Int := (v + 32768) % 65536 - 32768

/-- The loop test of `randomLevel` for one result `r` of `rand.Int31()`:
`float32(r&0xFFFF) < (0.25 * 0xFFFF)`.  The left side is an integer below `2^16` and the
constant is `16383.75`; both are exact in `float32`, so the test compares the numbers:
`4 * (r&0xFFFF) < 65535`. -/
def randomLevel.advances (r : Nat) : Bool := decide (4 * (r &&& 0xFFFF) < 65535)

/-- The loop of `randomLevel`, `for float32(rand.Int31()&0xFFFF) < (0.25 * 0xFFFF) { level++ }`,
run on the successive results of `rand.Int31()`; `level` is an `int16`.  The loop has not
stopped when the results given run out (`none`). -/
def randomLevel.loop : List Nat → Int → Option Int
  | [], _ => none
  | r :: rs, level =>
    if randomLevel.advances r then randomLevel.loop rs (wrapInt16 (level + 1)) else some level

/-- `func randomLevel() int16` on the successive results of `rand.Int31()`. -/
def randomLevel (draws : List Nat) : Option Int :=
  match randomLevel.loop draws 1 with
  | some level => if level < maxLevel then some level else some maxLevel
  | none => none

/-! ## The sorted set -/

/-- Modelled from the spec: the sorted set of section 4.3, a member→score table next to the
skip list.  The type and its methods are not in the sources (`sortedset.go` holds the type
declarations of the skip list only). -/
structure SortedSet (S : Type) where
  dict : List (String × S)
  skiplist : skiplist S
  deriving DecidableEq, Repr

/-- Modelled from the spec: the empty sorted set, an empty table and the empty skip list. -/
def Make [Zero S] : SortedSet S := { dict := [], skiplist := makeSkiplist }

/-- Modelled from the spec: `Score(member)`, a table lookup. -/
def SortedSet.Score (ss : SortedSet S) (member : String) : Option S :=
  ss.dict.lookup member

/-- Modelled from the spec: the upsert of the member→score entry. -/
def SortedSet.upsert (dict : List (String × S)) (member : String) (score : S) :
    List (String × S) :=
  (member, score) :: dict.filter (fun o => o.1 ≠ member)

/-- Modelled from the spec: removal of the node of `(member, score)` from the skip list for
`Add` (section 4.3): "search by (old_score, member) to locate exact predecessors, then
node-removal as in §4.2".  The search is the search phase of `insert`, the removal is
`removeNode`; the answer tells whether the node was found. -/
def remove [LinearOrder S] (sl : skiplist S) (member : String) (score : S) :
    Except Fault (skiplist S × Bool) := do
  let update : List (Option Nat) := List.replicate maxLevel none
  let rank : List Int := List.replicate maxLevel 0
  let (node, update, _) ← insert.search sl member score sl.level sl.header update rank
  let nl ← readLevel sl.heap node 0
  match nl.forward with
  | none => pure (sl, false)
  | some f => do
    let fn ← deref sl.heap f
    if fn.Score = score ∧ fn.Member = member then do
      let sl ← removeNode sl f update
      pure (sl, true)
    else pure (sl, false)

/-- Modelled from the spec: `Add(member, score)` (section 4.3).  "If member exists with a
different score, first remove its existing node from the skip list and then re-Insert with the
new score; if the score is unchanged, no-op.  If member does not exist, Insert directly.
Always upserts the member→score entry."  `insert` is the function of `skiplist.go`, the height
it draws is the argument `level`; the answer is true when the member is new. -/
def SortedSet.Add [LinearOrder S] (ss : SortedSet S) (member : String) (score : S)
    (level : Nat) : Except Fault (SortedSet S × Bool) :=
  match ss.dict.lookup member with
  | some old =>
    if old = score then
      pure ({ dict := SortedSet.upsert ss.dict member score, skiplist := ss.skiplist }, false)
    else do
      let (sl, _) ← remove ss.skiplist member old
      let (sl, _) ← insert sl member score level
      pure ({ dict := SortedSet.upsert ss.dict member score, skiplist := sl }, false)
  | none => do
    let (sl, _) ← insert ss.skiplist member score level
    pure ({ dict := SortedSet.upsert ss.dict member score, skiplist := sl }, true)

/-- Modelled from the spec: two calls of `Add` for the same member, with the heights drawn. -/
def SortedSet.addTwice [LinearOrder S] (ss : SortedSet S) (member : String) (s1 s2 : S)
    (h1 h2 : Nat) : Except Fault (SortedSet S) := do
  let (ss, _) ← ss.Add member s1 h1
  let (ss, _) ← ss.Add member s2 h2
  pure ss

/-- The sorted set after `Add("x", 5)` on the empty set, the node drawn with height 1. -/
def setX : SortedSet Int :=
  match (Make : SortedSet Int).Add "x" 5 1 with
  | .ok (ss, _) => ss
  | .error _ => Make

/-! ## Boundaries read at the nodes of the store -/

/-- The answer of `min.less(&n.Element)` for the node stored at `q` (false when nothing is
stored there). -/
def lessAt {B : Type} (ops : BorderOps B S) (H : Heap S) (min : B) (q : Nat) : Bool :=
  match elemOf H q with
  | some e => ops.less min e
  | none => false

/-- The answer of `max.greater(&n.Element)` for the node stored at `q` (false when nothing is
stored there). -/
def greaterAt {B : Type} (ops : BorderOps B S) (H : Heap S) (max : B) (q : Nat) : Bool :=
  match elemOf H q with
  | some e => ops.greater max e
  | none => false

/-! ## Examples for the score range -/

/-- The inclusive score range `[2, 4]`. -/
def range24 : ScoreBorder Int × ScoreBorder Int :=
  ({ Inf := 0, Value := 2, Exclude := false }, { Inf := 0, Value := 4, Exclude := false })

end zset

namespace protocol

/-- An array of two elements whose second element line `xx` is no bulk-string header. -/
def badArray : Bytes := ascii "*2\r\n$3\r\nGET\r\nxx\r\n"

/-- An array of one element whose element line `$x` has no number for a length. -/
def badLength : Bytes := ascii "*1\r\n$x\r\n"

end protocol

/-! # The atomic boolean (`utils/atom.go`)

The calls are modelled one at a time on the value of the `int32` flag. -/

namespace utils

/-- `type AtomicBool struct { flag int32 }` -/
structure AtomicBool where
  flag : Int
  deriving DecidableEq, Repr

/-- `atomic.CompareAndSwapInt32(addr, old, new)` run alone: whether the swap is made, and the
value stored afterwards. -/
def CompareAndSwapInt32 (v old new : Int) : Bool × Int :=
  if v = old then (true, new) else (false, v)

/-- `func (a *AtomicBool) Load() bool` -/
def AtomicBool.Load (a : AtomicBool) : Bool := decide (a.flag = 1)

/-- `func (a *AtomicBool) Store(val bool)`: the value afterwards. -/
def AtomicBool.Store (_a : AtomicBool) (val : Bool) : AtomicBool :=
  let v : Int := 0
  let v := if val then 1 else v
  { flag := v }

/-- `func (a *AtomicBool) CompareAndSwap(oldVal, newVal bool) bool`: the answer and the value
afterwards. -/
def AtomicBool.CompareAndSwap (a : AtomicBool) (oldVal newVal : Bool) : Bool × AtomicBool :=
  let oldInt32 : Int := 1
  let newInt32 : Int := 0
  let oldInt32 := if !oldVal then 0 else oldInt32
  let newInt32 := if !newVal then 0 else newInt32
  let r := CompareAndSwapInt32 a.flag oldInt32 newInt32
  (r.1, { flag := r.2 })

end utils

/-! # Theorems about the skip list -/

namespace zset

variable {S : Type}

/-! ## Facts about the memory primitives -/

@[simp] theorem bind_ok_eq {ε α β : Type} (a : α) (f : α → Except ε β) :
    (Except.ok a >>= f) = f a := rfl

@[simp] theorem bind_error_eq {ε α β : Type} (e : ε) (f : α → Except ε β) :
    (Except.error e >>= f) = Except.error e := rfl

@[simp] theorem pure_eq_ok {ε α : Type} (a : α) : (pure a : Except ε α) = Except.ok a := rfl

theorem bind_eq_ok {ε α β : Type} {x : Except ε α} {f : α → Except ε β} {b : β} :
    (x >>= f) = Except.ok b ↔ ∃ a, x = Except.ok a ∧ f a = Except.ok b := by
  cases x with
  | error e => simp
  | ok a => simp

theorem deref_eq_ok {H : Heap S} {p : Nat} {n : Node S} :
    deref H p = .ok n ↔ H[p]? = some n := by
  cases h : H[p]? <;> simp [deref, h]

theorem ptr_eq_ok {p : Option Nat} {a : Nat} : ptr p = .ok a ↔ p = some a := by
  cases p <;> simp [ptr]

theorem idx_eq_ok {α : Type} {xs : List α} {i : Nat} {x : α} :
    idx xs i = .ok x ↔ xs[i]? = some x := by
  cases h : xs[i]? <;> simp [idx, h]

theorem setIdx_eq_ok {α : Type} {xs ys : List α} {i : Nat} {v : α} :
    setIdx xs i v = .ok ys ↔ i < xs.length ∧ ys = xs.set i v := by
  unfold setIdx
  split <;> simp_all [eq_comm]

theorem readLevel_eq_ok {H : Heap S} {p i : Nat} {l : Level} :
    readLevel H p i = .ok l ↔
      i < hgt H p ∧ l = { forward := fwdOf H p i, span := spanOf H p i } := by
  unfold readLevel hgt fwdOf spanOf deref idx
  cases hp : H[p]? with
  | none => simp
  | some n =>
    cases hl : n.level[i]? with
    | none =>
      have := List.getElem?_eq_none_iff.mp hl
      simp [hl]; omega
    | some l' =>
      have := (List.getElem?_eq_some_iff.mp hl).1
      simp [hl, this, eq_comm]

theorem readLevel_of_lt {H : Heap S} {p i : Nat} (h : i < hgt H p) :
    readLevel H p i = .ok { forward := fwdOf H p i, span := spanOf H p i } :=
  readLevel_eq_ok.mpr ⟨h, rfl⟩

theorem writeLevel_eq_ok {H H' : Heap S} {p i : Nat} {f : Level → Level} :
    writeLevel H p i f = .ok H' ↔ i < hgt H p ∧ H' = setLevel H p i f := by
  unfold writeLevel
  constructor
  · intro h
    obtain ⟨l, hl, h⟩ := bind_eq_ok.mp h
    exact ⟨(readLevel_eq_ok.mp hl).1, by simpa [eq_comm] using h⟩
  · rintro ⟨h, rfl⟩
    simp [readLevel_of_lt h]

theorem writeLevel_of_lt {H : Heap S} {p i : Nat} (f : Level → Level) (h : i < hgt H p) :
    writeLevel H p i f = .ok (setLevel H p i f) :=
  writeLevel_eq_ok.mpr ⟨h, rfl⟩

theorem hgt_pos_iff {H : Heap S} {p : Nat} (h : 0 < hgt H p) : p < H.length := by
  unfold hgt at h
  cases hp : H[p]? with
  | none => simp [hp] at h
  | some n => exact (List.getElem?_eq_some_iff.mp hp).1

theorem writeBackward_eq_ok {H H' : Heap S} {p : Nat} {b : Option Nat} :
    writeBackward H p b = .ok H' ↔ p < H.length ∧ H' = setBackward H p b := by
  unfold writeBackward deref
  cases hp : H[p]? with
  | none =>
    have := List.getElem?_eq_none_iff.mp hp
    simp; omega
  | some n =>
    have := (List.getElem?_eq_some_iff.mp hp).1
    simp [this, eq_comm]

/-! ### Views after an update of a level -/

@[simp] theorem length_setLevel (H : Heap S) (p i : Nat) (f : Level → Level) :
    (setLevel H p i f).length = H.length := by
  unfold setLevel
  split
  · split <;> simp
  · rfl

@[simp] theorem hgt_setLevel (H : Heap S) (p i : Nat) (f : Level → Level) (q : Nat) :
    hgt (setLevel H p i f) q = hgt H q := by
  cases hp : H[p]? with
  | none => simp only [setLevel, hp]
  | some n =>
    cases hl : n.level[i]? with
    | none => simp only [setLevel, hp, hl]
    | some l =>
      simp only [setLevel, hp, hl, hgt, List.getElem?_set]
      by_cases hq : p = q
      · subst hq
        have := (List.getElem?_eq_some_iff.mp hp).1
        simp [this, hp]
      · simp [hq]

@[simp] theorem elemOf_setLevel (H : Heap S) (p i : Nat) (f : Level → Level) (q : Nat) :
    elemOf (setLevel H p i f) q = elemOf H q := by
  cases hp : H[p]? with
  | none => simp only [setLevel, hp]
  | some n =>
    cases hl : n.level[i]? with
    | none => simp only [setLevel, hp, hl]
    | some l =>
      simp only [setLevel, hp, hl, elemOf, List.getElem?_set]
      by_cases hq : p = q
      · subst hq
        have := (List.getElem?_eq_some_iff.mp hp).1
        simp [this, hp]
      · simp [hq]

@[simp] theorem backOf_setLevel (H : Heap S) (p i : Nat) (f : Level → Level) (q : Nat) :
    backOf (setLevel H p i f) q = backOf H q := by
  cases hp : H[p]? with
  | none => simp only [setLevel, hp]
  | some n =>
    cases hl : n.level[i]? with
    | none => simp only [setLevel, hp, hl]
    | some l =>
      simp only [setLevel, hp, hl, backOf, List.getElem?_set]
      by_cases hq : p = q
      · subst hq
        have := (List.getElem?_eq_some_iff.mp hp).1
        simp [this, hp]
      · simp [hq]

theorem level_setLevel (H : Heap S) (p i : Nat) (f : Level → Level) (q j : Nat) :
    (Level.mk (fwdOf (setLevel H p i f) q j) (spanOf (setLevel H p i f) q j)) =
      if q = p ∧ j = i ∧ i < hgt H p then f (Level.mk (fwdOf H p i) (spanOf H p i))
      else Level.mk (fwdOf H q j) (spanOf H q j) := by
  cases hp : H[p]? with
  | none =>
    have : hgt H p = 0 := by simp [hgt, hp]
    simp [this, setLevel, hp]
  | some n =>
    have hpl := (List.getElem?_eq_some_iff.mp hp).1
    have h2 : hgt H p = n.level.length := by simp [hgt, hp]
    cases hl : n.level[i]? with
    | none =>
      have := List.getElem?_eq_none_iff.mp hl
      have : ¬ i < hgt H p := by omega
      simp [this, setLevel, hp, hl]
    | some l =>
      have hil := (List.getElem?_eq_some_iff.mp hl).1
      simp only [setLevel, hp, hl]
      by_cases hq : q = p
      · subst hq
        by_cases hj : j = i
        · subst hj
          simp [fwdOf, spanOf, hp, hl, hpl, hil, h2]
        · have hj' : ¬ i = j := fun h => hj h.symm
          simp [fwdOf, spanOf, hp, hpl, hj, hj', List.getElem?_set]
      · have hq' : ¬ p = q := fun h => hq h.symm
        simp [fwdOf, spanOf, hq, hq', List.getElem?_set]

theorem fwdOf_setLevel (H : Heap S) (p i : Nat) (f : Level → Level) (q j : Nat) :
    fwdOf (setLevel H p i f) q j =
      if q = p ∧ j = i ∧ i < hgt H p then (f (Level.mk (fwdOf H p i) (spanOf H p i))).forward
      else fwdOf H q j := by
  have := congrArg Level.forward (level_setLevel H p i f q j)
  simp only at this
  rw [this]
  split <;> rfl

theorem spanOf_setLevel (H : Heap S) (p i : Nat) (f : Level → Level) (q j : Nat) :
    spanOf (setLevel H p i f) q j =
      if q = p ∧ j = i ∧ i < hgt H p then (f (Level.mk (fwdOf H p i) (spanOf H p i))).span
      else spanOf H q j := by
  have := congrArg Level.span (level_setLevel H p i f q j)
  simp only at this
  rw [this]
  split <;> rfl

/-! ### Views after an update of a backward pointer -/

@[simp] theorem length_setBackward (H : Heap S) (p : Nat) (b : Option Nat) :
    (setBackward H p b).length = H.length := by
  unfold setBackward
  split <;> simp

@[simp] theorem hgt_setBackward (H : Heap S) (p : Nat) (b : Option Nat) (q : Nat) :
    hgt (setBackward H p b) q = hgt H q := by
  unfold setBackward
  cases hp : H[p]? with
  | none => rfl
  | some n =>
    simp only [hgt, List.getElem?_set]
    by_cases hq : p = q
    · subst hq
      have := (List.getElem?_eq_some_iff.mp hp).1
      simp [this, hp]
    · simp [hq]

@[simp] theorem elemOf_setBackward (H : Heap S) (p : Nat) (b : Option Nat) (q : Nat) :
    elemOf (setBackward H p b) q = elemOf H q := by
  unfold setBackward
  cases hp : H[p]? with
  | none => rfl
  | some n =>
    simp only [elemOf, List.getElem?_set]
    by_cases hq : p = q
    · subst hq
      have := (List.getElem?_eq_some_iff.mp hp).1
      simp [this, hp]
    · simp [hq]

@[simp] theorem fwdOf_setBackward (H : Heap S) (p : Nat) (b : Option Nat) (q j : Nat) :
    fwdOf (setBackward H p b) q j = fwdOf H q j := by
  unfold setBackward
  cases hp : H[p]? with
  | none => rfl
  | some n =>
    simp only [fwdOf, List.getElem?_set]
    by_cases hq : p = q
    · subst hq
      have := (List.getElem?_eq_some_iff.mp hp).1
      simp [this, hp]
    · simp [hq]

@[simp] theorem spanOf_setBackward (H : Heap S) (p : Nat) (b : Option Nat) (q j : Nat) :
    spanOf (setBackward H p b) q j = spanOf H q j := by
  unfold setBackward
  cases hp : H[p]? with
  | none => rfl
  | some n =>
    simp only [spanOf, List.getElem?_set]
    by_cases hq : p = q
    · subst hq
      have := (List.getElem?_eq_some_iff.mp hp).1
      simp [this, hp]
    · simp [hq]

theorem backOf_setBackward (H : Heap S) (p : Nat) (b : Option Nat) (q : Nat) :
    backOf (setBackward H p b) q = if q = p ∧ p < H.length then b else backOf H q := by
  unfold setBackward
  cases hp : H[p]? with
  | none =>
    have := List.getElem?_eq_none_iff.mp hp
    have : ¬ p < H.length := by omega
    simp [this]
  | some n =>
    have hpl := (List.getElem?_eq_some_iff.mp hp).1
    simp only [backOf, List.getElem?_set]
    by_cases hq : p = q
    · subst hq
      simp [hpl]
    · have hq' : ¬ q = p := fun h => hq h.symm
      simp [hq, hq']

/-! ### Views after an allocation -/

theorem hgt_append (H : Heap S) (n : Node S) (q : Nat) :
    hgt (H ++ [n]) q = if q = H.length then n.level.length else hgt H q := by
  unfold hgt
  by_cases h1 : q < H.length
  · have : q ≠ H.length := by omega
    simp [List.getElem?_append_left h1, this]
  · by_cases h2 : q = H.length
    · subst h2
      simp
    · have h3 : H.length < q := by omega
      have h4 : (H ++ [n])[q]? = none := by
        apply List.getElem?_eq_none_iff.mpr
        simp; omega
      have h5 : H[q]? = none := List.getElem?_eq_none_iff.mpr (by omega)
      simp [h4, h5, h2]

theorem elemOf_append (H : Heap S) (n : Node S) (q : Nat) :
    elemOf (H ++ [n]) q = if q = H.length then some n.toElement else elemOf H q := by
  unfold elemOf
  by_cases h1 : q < H.length
  · have : q ≠ H.length := by omega
    simp [List.getElem?_append_left h1, this]
  · by_cases h2 : q = H.length
    · subst h2
      simp
    · have h3 : H.length < q := by omega
      have h4 : (H ++ [n])[q]? = none := by
        apply List.getElem?_eq_none_iff.mpr
        simp; omega
      have h5 : H[q]? = none := List.getElem?_eq_none_iff.mpr (by omega)
      simp [h4, h5, h2]

theorem fwdOf_append_of_lt (H : Heap S) (n : Node S) {q : Nat} (h : q < H.length) (j : Nat) :
    fwdOf (H ++ [n]) q j = fwdOf H q j := by
  unfold fwdOf
  simp [List.getElem?_append_left h]

theorem spanOf_append_of_lt (H : Heap S) (n : Node S) {q : Nat} (h : q < H.length) (j : Nat) :
    spanOf (H ++ [n]) q j = spanOf H q j := by
  unfold spanOf
  simp [List.getElem?_append_left h]

theorem backOf_append_of_lt (H : Heap S) (n : Node S) {q : Nat} (h : q < H.length) :
    backOf (H ++ [n]) q = backOf H q := by
  unfold backOf
  simp [List.getElem?_append_left h]

theorem fwdOf_append_new (H : Heap S) (lvl : Nat) (score : S) (member : String) (j : Nat) :
    fwdOf (H ++ [makeNode lvl score member]) H.length j = none := by
  unfold fwdOf
  simp only [List.getElem?_concat_length]
  split
  · rename_i l hl
    have := List.getElem?_eq_some_iff.mp hl
    obtain ⟨h1, h2⟩ := this
    simp [makeNode] at h2
    rw [← h2]
  · rfl

theorem fwdOf_eq_none_of_le {H : Heap S} {p i : Nat} (h : hgt H p ≤ i) : fwdOf H p i = none := by
  unfold hgt at h
  unfold fwdOf
  cases hp : H[p]? with
  | none => rfl
  | some n =>
    simp only [hp] at h
    have : n.level[i]? = none := List.getElem?_eq_none_iff.mpr h
    simp [this]

/-! ## The element order -/

section
variable [LinearOrder S]

theorem elemLt_trans {a b c : Element S} (h1 : elemLt a b) (h2 : elemLt b c) : elemLt a c := by
  unfold elemLt keyLt at *
  rcases h1 with h1 | ⟨h1, h1'⟩ <;> rcases h2 with h2 | ⟨h2, h2'⟩
  · exact Or.inl (lt_trans h1 h2)
  · exact Or.inl (h2 ▸ h1)
  · exact Or.inl (h1 ▸ h2)
  · exact Or.inr ⟨h1.trans h2, lt_trans h1' h2'⟩

theorem keyLt_of_elemLt {a b : Element S} {member : String} {score : S}
    (h1 : elemLt a b) (h2 : keyLt b member score) : keyLt a member score :=
  elemLt_trans (c := ⟨member, score⟩) h1 h2

theorem elemLt_irrefl (a : Element S) : ¬ elemLt a a := by
  unfold elemLt keyLt
  rintro (h | ⟨_, h⟩)
  · exact lt_irrefl _ h
  · exact lt_irrefl _ h

theorem elemLt_of_not_keyLt {b : Element S} {member : String} {score : S}
    (h : ¬ keyLt b member score) (hne : b.Member ≠ member) :
    elemLt ⟨member, score⟩ b := by
  unfold elemLt keyLt at *
  simp only [not_or, not_and, not_lt] at h
  obtain ⟨h1, h2⟩ := h
  rcases lt_or_eq_of_le h1 with h3 | h3
  · exact Or.inl h3
  · refine Or.inr ⟨h3, ?_⟩
    have h4 := h2 h3.symm
    rcases lt_or_eq_of_le h4 with h5 | h5
    · exact h5
    · exact absurd (String.ext h5).symm hne

end

/-! ## Forward links -/

theorem FwdOK_nil (H : Heap S) (i p : Nat) : FwdOK H i p [] ↔ fwdOf H p i = none := Iff.rfl

theorem FwdOK_cons_of_lt {H : Heap S} {i q : Nat} (p : Nat) (l : List Nat) (h : i < hgt H q) :
    FwdOK H i p (q :: l) ↔ fwdOf H p i = some q ∧ FwdOK H i q l := by
  simp only [FwdOK, h, if_true]

theorem FwdOK_cons_of_not_lt {H : Heap S} {i q : Nat} (p : Nat) (l : List Nat)
    (h : ¬ i < hgt H q) : FwdOK H i p (q :: l) ↔ FwdOK H i p l := by
  simp only [FwdOK, h, if_false]

theorem lastAt_nil (H : Heap S) (i p : Nat) : lastAt H i p [] = p := rfl

theorem lastAt_cons_of_lt {H : Heap S} {i q : Nat} (p : Nat) (l : List Nat) (h : i < hgt H q) :
    lastAt H i p (q :: l) = lastAt H i q l := by
  simp only [lastAt, h, if_true]

theorem lastAt_cons_of_not_lt {H : Heap S} {i q : Nat} (p : Nat) (l : List Nat)
    (h : ¬ i < hgt H q) : lastAt H i p (q :: l) = lastAt H i p l := by
  simp only [lastAt, h, if_false]

theorem lastAt_mem (H : Heap S) (i : Nat) (p : Nat) (l : List Nat) :
    lastAt H i p l = p ∨ (lastAt H i p l ∈ l ∧ i < hgt H (lastAt H i p l)) := by
  induction l generalizing p with
  | nil => exact Or.inl rfl
  | cons q l ih =>
    by_cases hq : i < hgt H q
    · rw [lastAt_cons_of_lt _ _ hq]
      rcases ih q with h | ⟨h1, h2⟩
      · rw [h]; exact Or.inr ⟨List.mem_cons_self _ _, hq⟩
      · exact Or.inr ⟨List.mem_cons_of_mem _ h1, h2⟩
    · rw [lastAt_cons_of_not_lt _ _ hq]
      rcases ih p with h | ⟨h1, h2⟩
      · exact Or.inl h
      · exact Or.inr ⟨List.mem_cons_of_mem _ h1, h2⟩

theorem lastAt_eq_self {H : Heap S} {i p : Nat} {l : List Nat}
    (h : ∀ q ∈ l, hgt H q ≤ i) : lastAt H i p l = p := by
  induction l generalizing p with
  | nil => rfl
  | cons q l ih =>
    have hq := h q (List.mem_cons_self _ _)
    have : ¬ i < hgt H q := by omega
    rw [lastAt_cons_of_not_lt _ _ this]
    exact ih (fun x hx => h x (List.mem_cons_of_mem _ hx))

/-- The level-`i` pointer of the start of a well-linked sequence is nil or a node of it. -/
theorem FwdOK.head {H : Heap S} {i p : Nat} {l : List Nat} (h : FwdOK H i p l) :
    fwdOf H p i = none ∨ ∃ q ∈ l, fwdOf H p i = some q ∧ i < hgt H q := by
  induction l generalizing p with
  | nil => exact Or.inl h
  | cons q l ih =>
    by_cases hq : i < hgt H q
    · rw [FwdOK_cons_of_lt _ _ hq] at h
      exact Or.inr ⟨q, List.mem_cons_self _ _, h.1, hq⟩
    · rw [FwdOK_cons_of_not_lt _ _ hq] at h
      rcases ih h with h' | ⟨x, hx, h'⟩
      · exact Or.inl h'
      · exact Or.inr ⟨x, List.mem_cons_of_mem _ hx, h'⟩

/-- Links depend only on the pointers and heights of the nodes involved. -/
theorem FwdOK.congr {H H' : Heap S} {i p p' : Nat} {l : List Nat} (h : FwdOK H i p l)
    (hp : fwdOf H' p' i = fwdOf H p i)
    (hl : ∀ q ∈ l, fwdOf H' q i = fwdOf H q i ∧ hgt H' q = hgt H q) :
    FwdOK H' i p' l := by
  induction l generalizing p p' with
  | nil =>
    rw [FwdOK_nil] at *
    rw [hp]; exact h
  | cons q l ih =>
    have hq := hl q (List.mem_cons_self _ _)
    have hl' : ∀ x ∈ l, fwdOf H' x i = fwdOf H x i ∧ hgt H' x = hgt H x :=
      fun x hx => hl x (List.mem_cons_of_mem _ hx)
    by_cases hlt : i < hgt H q
    · have hlt' : i < hgt H' q := by rw [hq.2]; exact hlt
      rw [FwdOK_cons_of_lt _ _ hlt] at h
      rw [FwdOK_cons_of_lt _ _ hlt']
      exact ⟨hp.trans h.1, ih h.2 hq.1 hl'⟩
    · have hlt' : ¬ i < hgt H' q := by rw [hq.2]; exact hlt
      rw [FwdOK_cons_of_not_lt _ _ hlt] at h
      rw [FwdOK_cons_of_not_lt _ _ hlt']
      exact ih h hp hl'

section
variable [LinearOrder S]

/-- The inner loop of the search of `insert`, started on any node of the level-`i` chain of
`p :: l`, stops on the last node of that chain, when `l` lies before the key and `B` after. -/
theorem insert_walk_spec (H : Heap S) (member : String) (score : S) (i : Nat) (B : List Nat)
    (hB : ∀ q ∈ B, 0 < hgt H q ∧ ¬ before H member score q) :
    ∀ (l : List Nat) (p x : Nat) (fuel : Nat) (r : Int),
      i < hgt H p → FwdOK H i p (l ++ B) →
      (∀ q ∈ l, before H member score q) →
      (x = p ∨ (x ∈ l ∧ i < hgt H x)) → l.length < fuel →
      ∃ r', insert.walk H member score i fuel x r = .ok (lastAt H i p l, r') := by
  intro l
  induction l with
  | nil =>
    intro p x fuel r hp hf _ hx hfuel
    have hx : x = p := by simpa using hx
    subst hx
    obtain ⟨fuel, rfl⟩ : ∃ f, fuel = f + 1 := ⟨fuel - 1, by omega⟩
    simp only [List.nil_append] at hf
    unfold insert.walk
    simp only [readLevel_of_lt hp, bind_ok_eq, lastAt]
    rcases hf.head with h | ⟨q, hq, h, _⟩
    · rw [h]; exact ⟨r, rfl⟩
    · rw [h]
      obtain ⟨hq1, hq2⟩ := hB q hq
      unfold before at hq2
      unfold hgt at hq1
      cases hn : H[q]? with
      | none => simp [hn] at hq1
      | some n =>
        simp only [elemOf, hn] at hq2
        have : deref H q = .ok n := deref_eq_ok.mpr hn
        simp only [this, bind_ok_eq]
        unfold keyLt at hq2
        rw [if_neg hq2]
        exact ⟨r, rfl⟩
  | cons q l ih =>
    intro p x fuel r hp hf hl hx hfuel
    have hl' : ∀ y ∈ l, before H member score y := fun y hy => hl y (List.mem_cons_of_mem _ hy)
    simp only [List.length_cons] at hfuel
    simp only [List.cons_append] at hf
    by_cases hq : i < hgt H q
    · rw [FwdOK_cons_of_lt _ _ hq] at hf
      rw [lastAt_cons_of_lt _ _ hq]
      rcases hx with hx | ⟨hx, hx'⟩
      · subst hx
        obtain ⟨fuel, rfl⟩ : ∃ f, fuel = f + 1 := ⟨fuel - 1, by omega⟩
        unfold insert.walk
        simp only [readLevel_of_lt hp, bind_ok_eq, hf.1]
        have hq2 := hl q (List.mem_cons_self _ _)
        unfold before at hq2
        cases hn : H[q]? with
        | none => simp [elemOf, hn] at hq2
        | some n =>
          simp only [elemOf, hn] at hq2
          have : deref H q = .ok n := deref_eq_ok.mpr hn
          simp only [this, bind_ok_eq]
          unfold keyLt at hq2
          rw [if_pos hq2]
          exact ih q q fuel _ hq hf.2 hl' (Or.inl rfl) (by omega)
      · rcases List.mem_cons.mp hx with hx | hx
        · exact ih q x fuel r hq hf.2 hl' (Or.inl hx) (by omega)
        · exact ih q x fuel r hq hf.2 hl' (Or.inr ⟨hx, hx'⟩) (by omega)
    · rw [FwdOK_cons_of_not_lt _ _ hq] at hf
      rw [lastAt_cons_of_not_lt _ _ hq]
      rcases hx with hx | ⟨hx, hx'⟩
      · exact ih p x fuel r hp hf hl' (Or.inl hx) (by omega)
      · rcases List.mem_cons.mp hx with hx | hx
        · subst hx; exact absurd hx' hq
        · exact ih p x fuel r hp hf hl' (Or.inr ⟨hx, hx'⟩) (by omega)

end

theorem length_le_of_nodup_lt {l : List Nat} {n : Nat} (hn : l.Nodup) (hl : ∀ x ∈ l, x < n) :
    l.length ≤ n := by
  have h1 : l ⊆ List.range n := fun x hx => List.mem_range.mpr (hl x hx)
  have h2 := (List.subperm_of_subset hn h1).length_le
  simpa using h2

theorem Linked.lt_length {sl : skiplist S} {abs : List Nat} (h : Linked sl abs) :
    ∀ x ∈ abs, x < sl.heap.length := fun x hx =>
  hgt_pos_iff (by have := (h.heights x hx).1; omega)

theorem Linked.header_lt {sl : skiplist S} {abs : List Nat} (h : Linked sl abs) :
    sl.header < sl.heap.length :=
  hgt_pos_iff (by rw [h.header_levels]; decide)

theorem Linked.length_le {sl : skiplist S} {abs : List Nat} (h : Linked sl abs) :
    abs.length ≤ sl.heap.length :=
  length_le_of_nodup_lt h.nodup h.lt_length

section
variable [LinearOrder S]

/-- The search of `insert` records, at every level below the list's level, the last node of
that level that lies before the key, and ends on the level-0 one. -/
theorem insert_search_spec (sl : skiplist S) (member : String) (score : S) (A B : List Nat)
    (hL : Linked sl (A ++ B)) (hA : ∀ q ∈ A, before sl.heap member score q)
    (hB : ∀ q ∈ B, ¬ before sl.heap member score q) :
    ∀ k, k ≤ sl.level → ∀ (update : List (Option Nat)) (rank : List Int),
      update.length = maxLevel → rank.length = maxLevel →
      ∃ update' rank',
        insert.search sl member score k (lastAt sl.heap k sl.header A) update rank =
          .ok (lastAt sl.heap 0 sl.header A, update', rank') ∧
        update'.length = maxLevel ∧ rank'.length = maxLevel ∧
        (∀ j, j < k → update'[j]? = some (some (lastAt sl.heap j sl.header A))) ∧
        (∀ j, k ≤ j → update'[j]? = update[j]?) := by
  intro k
  induction k with
  | zero =>
    intro _ update rank hu hr
    exact ⟨update, rank, rfl, hu, hr, fun j hj => absurd hj (by omega), fun _ _ => rfl⟩
  | succ i ih =>
    intro hk update rank hu hr
    have hlvl := hL.level_le
    have hi16 : i < maxLevel := by omega
    -- the node the level above ended on
    have hx := lastAt_mem sl.heap (i + 1) sl.header A
    have hxi : lastAt sl.heap (i + 1) sl.header A = sl.header ∨
        (lastAt sl.heap (i + 1) sl.header A ∈ A ∧
          i < hgt sl.heap (lastAt sl.heap (i + 1) sl.header A)) := by
      rcases hx with h | ⟨h1, h2⟩
      · exact Or.inl h
      · exact Or.inr ⟨h1, by omega⟩
    have hhdr : i < hgt sl.heap sl.header := by rw [hL.header_levels]; exact hi16
    have hxh : i < hgt sl.heap (lastAt sl.heap (i + 1) sl.header A) := by
      rcases hxi with h | ⟨_, h⟩
      · rw [h]; exact hhdr
      · exact h
    have hBv : ∀ q ∈ B, 0 < hgt sl.heap q ∧ ¬ before sl.heap member score q := fun q hq =>
      ⟨by have := (hL.heights q (List.mem_append_right _ hq)).1; omega, hB q hq⟩
    have hlen : A.length < sl.heap.length + 1 := by
      have := hL.length_le
      simp only [List.length_append] at this
      omega
    obtain ⟨r0, hr0⟩ : ∃ r0 : Int,
        (if i = sl.level - 1 then pure 0 else idx rank (i + 1) : Except Fault Int) = .ok r0 := by
      by_cases h : i = sl.level - 1
      · exact ⟨0, by simp [h]⟩
      · have h1 : i + 1 < rank.length := by rw [hr]; omega
        refine ⟨rank[i + 1], ?_⟩
        rw [if_neg h]
        exact idx_eq_ok.mpr (List.getElem?_eq_getElem h1)
    obtain ⟨r', hw⟩ := insert_walk_spec sl.heap member score i B hBv A sl.header
      (lastAt sl.heap (i + 1) sl.header A) (sl.heap.length + 1) r0 hhdr (hL.forward i hi16) hA
      hxi hlen
    have hs1 : setIdx rank i r0 = .ok (rank.set i r0) :=
      setIdx_eq_ok.mpr ⟨by rw [hr]; exact hi16, rfl⟩
    have hs2 : setIdx (rank.set i r0) i r' = .ok ((rank.set i r0).set i r') :=
      setIdx_eq_ok.mpr ⟨by rw [List.length_set, hr]; exact hi16, rfl⟩
    have hs3 : setIdx update i (some (lastAt sl.heap i sl.header A)) =
        .ok (update.set i (some (lastAt sl.heap i sl.header A))) :=
      setIdx_eq_ok.mpr ⟨by rw [hu]; exact hi16, rfl⟩
    obtain ⟨update', rank', h1, h2, h3, h4, h5⟩ := ih (by omega)
      (update.set i (some (lastAt sl.heap i sl.header A))) ((rank.set i r0).set i r')
      (by rw [List.length_set, hu]) (by rw [List.length_set, List.length_set, hr])
    refine ⟨update', rank', ?_, h2, h3, ?_, ?_⟩
    · unfold insert.search
      simp only [hr0, bind_ok_eq, hs1, readLevel_of_lt hxh, hw, hs2, hs3]
      exact h1
    · intro j hj
      by_cases hji : j = i
      · subst hji
        rw [h5 j (le_refl _)]
        rw [List.getElem?_set_self (by rw [hu]; exact hi16)]
      · exact h4 j (by omega)
    · intro j hj
      rw [h5 j (by omega)]
      rw [List.getElem?_set_ne (by omega)]

end

/-! ## The writes of `insert` -/

theorem SameLinks.refl (H : Heap S) : SameLinks H H :=
  ⟨rfl, fun _ => ⟨rfl, rfl, fun _ => rfl⟩⟩

theorem SameLinks.trans {H1 H2 H3 : Heap S} (h1 : SameLinks H1 H2) (h2 : SameLinks H2 H3) :
    SameLinks H1 H3 :=
  ⟨h2.1.trans h1.1, fun q =>
    ⟨(h2.2 q).1.trans (h1.2 q).1, (h2.2 q).2.1.trans (h1.2 q).2.1,
      fun j => ((h2.2 q).2.2 j).trans ((h1.2 q).2.2 j)⟩⟩

theorem fwdOf_setLevel_span (H : Heap S) (p i : Nat) (f : Level → Level)
    (hf : ∀ l, (f l).forward = l.forward) (q j : Nat) :
    fwdOf (setLevel H p i f) q j = fwdOf H q j := by
  rw [fwdOf_setLevel]
  split
  · rename_i h
    rw [hf, h.1, h.2.1]
  · rfl

theorem fwdOf_setLevel_setSpan (H : Heap S) (p i : Nat) (g : Level → Int) (q j : Nat) :
    fwdOf (setLevel H p i (fun l => { forward := l.forward, span := g l })) q j = fwdOf H q j :=
  fwdOf_setLevel_span H p i (fun l => { forward := l.forward, span := g l }) (fun _ => rfl) q j

theorem SameLinks.setLevel_span (H : Heap S) (p i : Nat) (f : Level → Level)
    (hf : ∀ l, (f l).forward = l.forward) : SameLinks H (setLevel H p i f) :=
  ⟨length_setLevel _ _ _ _, fun q =>
    ⟨hgt_setLevel _ _ _ _ q, elemOf_setLevel _ _ _ _ q, fwdOf_setLevel_span H p i f hf q⟩⟩

theorem SameLinks.setBackward (H : Heap S) (p : Nat) (b : Option Nat) :
    SameLinks H (setBackward H p b) :=
  ⟨length_setBackward _ _ _, fun q =>
    ⟨hgt_setBackward _ _ _ q, elemOf_setBackward _ _ _ q, fwdOf_setBackward H p b q⟩⟩

/-- The loop over new levels touches spans only and fills `update` with the header. -/
theorem insert_raise_spec (header : Nat) (length : Int) :
    ∀ (n i : Nat) (H : Heap S) (update : List (Option Nat)) (rank : List Int)
      (H' : Heap S) (update' : List (Option Nat)) (rank' : List Int),
      insert.raise header length n i H update rank = .ok (H', update', rank') →
      SameLinks H H' ∧ update'.length = update.length ∧ rank'.length = rank.length ∧
        (∀ j, i ≤ j → j < i + n → update'[j]? = some (some header)) ∧
        (∀ j, ¬ (i ≤ j ∧ j < i + n) → update'[j]? = update[j]?) := by
  intro n
  induction n with
  | zero =>
    intro i H update rank H' update' rank' h
    simp only [insert.raise, pure_eq_ok, Except.ok.injEq, Prod.mk.injEq] at h
    obtain ⟨rfl, rfl, rfl⟩ := h
    exact ⟨SameLinks.refl _, rfl, rfl, fun j h1 h2 => absurd h2 (by omega), fun _ _ => rfl⟩
  | succ n ih =>
    intro i H update rank H' update' rank' h
    unfold insert.raise at h
    simp only [bind_eq_ok, setIdx_eq_ok, idx_eq_ok, ptr_eq_ok, writeLevel_eq_ok] at h
    obtain ⟨rank1, ⟨hr1, rfl⟩, update1, ⟨hu1, rfl⟩, u, _, H1, ⟨_, rfl⟩, hrec⟩ := h
    obtain ⟨h1, h2, h3, h4, h5⟩ := ih _ _ _ _ _ _ _ hrec
    refine ⟨(SameLinks.setLevel_span H u i (fun l => { l with span := length })
      (fun _ => rfl)).trans h1, ?_, ?_, ?_, ?_⟩
    · rw [h2, List.length_set]
    · rw [h3, List.length_set]
    · intro j hj1 hj2
      by_cases hji : j = i
      · subst hji
        rw [h5 j (by omega), List.getElem?_set_self hu1]
      · exact h4 j (by omega) (by omega)
    · intro j hj
      rw [h5 j (by omega), List.getElem?_set_ne (by omega)]

/-- The loop over the levels above the new node touches spans only. -/
theorem insert_bump_spec (update : List (Option Nat)) :
    ∀ (n i : Nat) (H H' : Heap S), insert.bump update n i H = .ok H' → SameLinks H H' := by
  intro n
  induction n with
  | zero =>
    intro i H H' h
    simp only [insert.bump, pure_eq_ok, Except.ok.injEq] at h
    subst h
    exact SameLinks.refl _
  | succ n ih =>
    intro i H H' h
    unfold insert.bump at h
    simp only [bind_eq_ok, idx_eq_ok, ptr_eq_ok, writeLevel_eq_ok] at h
    obtain ⟨u, _, H1, ⟨_, rfl⟩, hrec⟩ := h
    exact (SameLinks.setLevel_span H u i (fun l => { l with span := l.span + 1 })
      (fun _ => rfl)).trans (ih _ _ _ hrec)

/-- The linking loop: at each level it handles, the new node takes over the pointer of its
predecessor and the predecessor points to the new node; nothing else moves. -/
theorem insert_splice_spec (newNode node : Nat) (update : List (Option Nat)) (rank : List Int)
    (u : Nat → Nat) :
    ∀ (n i : Nat) (H H' : Heap S),
      (∀ j, i ≤ j → j < i + n → update[j]? = some (some (u j))) →
      (∀ j, i ≤ j → j < i + n → u j ≠ newNode) →
      insert.splice newNode node update rank n i H = .ok H' →
      H'.length = H.length ∧ (∀ q, hgt H' q = hgt H q ∧ elemOf H' q = elemOf H q) ∧
      (∀ j, i ≤ j → j < i + n → j < hgt H newNode ∧ j < hgt H (u j)) ∧
      ∀ q j, fwdOf H' q j =
        if i ≤ j ∧ j < i + n then
          (if q = newNode then fwdOf H (u j) j else if q = u j then some newNode
            else fwdOf H q j)
        else fwdOf H q j := by
  intro n
  induction n with
  | zero =>
    intro i H H' _ _ h
    simp only [insert.splice, pure_eq_ok, Except.ok.injEq] at h
    subst h
    refine ⟨rfl, fun _ => ⟨rfl, rfl⟩, fun j h1 h2 => absurd h2 (by omega), fun q j => ?_⟩
    rw [if_neg (by omega)]
  | succ n ih =>
    intro i H H' hu hne h
    unfold insert.splice at h
    have hui := hu i (le_refl _) (by omega)
    have hnei := hne i (le_refl _) (by omega)
    simp only [bind_eq_ok, idx_eq_ok, ptr_eq_ok, writeLevel_eq_ok, readLevel_eq_ok] at h
    obtain ⟨u', ⟨ou, hou, hou'⟩, ul, ⟨hul, rfl⟩, H1, ⟨hn1, rfl⟩, H2, ⟨hu2, rfl⟩, ul2,
      ⟨_, rfl⟩, r0, _, ri, _, H3, ⟨_, rfl⟩, H4, ⟨_, rfl⟩, hrec⟩ := h
    rw [hui] at hou
    simp only [Option.some.injEq] at hou
    subst hou
    simp only [Option.some.injEq] at hou'
    subst hou'
    obtain ⟨h1, h2, h3, h4⟩ := ih (i + 1) _ _ (fun j hj1 hj2 => hu j (by omega) (by omega))
      (fun j hj1 hj2 => hne j (by omega) (by omega)) hrec
    simp only [length_setLevel, hgt_setLevel, elemOf_setLevel] at h1 h2 h3
    refine ⟨h1, h2, ?_, ?_⟩
    · intro j hj1 hj2
      by_cases hji : j = i
      · subst hji; exact ⟨hn1, hul⟩
      · exact h3 j (by omega) (by omega)
    · intro q j
      rw [h4 q j]
      have key : ∀ q j, fwdOf (setLevel (setLevel H newNode i fun l =>
          { forward := fwdOf H (u i) i, span := l.span }) (u i) i fun l =>
          { forward := some newNode, span := l.span }) q j =
          if j = i then (if q = newNode then fwdOf H (u i) i else if q = u i then some newNode
            else fwdOf H q j) else fwdOf H q j := by
        intro q j
        simp only [fwdOf_setLevel, hgt_setLevel]
        by_cases hji : j = i
        · subst hji
          by_cases hq : q = newNode
          · subst hq
            have : ¬ q = u j := fun h => hnei h.symm
            simp [hn1, this]
          · by_cases hq2 : q = u j
            · subst hq2
              simp [hul, hnei]
            · simp [hq, hq2]
        · simp [hji]
      simp only [fwdOf_setLevel_setSpan, key]
      by_cases hji : j = i
      · subst hji
        have e1 : ¬ (j + 1 ≤ j ∧ j < j + 1 + n) := by omega
        have e2 : (j ≤ j ∧ j < j + (n + 1)) := by omega
        rw [if_neg e1, if_pos e2]
        simp
      · by_cases hj : i + 1 ≤ j ∧ j < i + 1 + n
        · have e2 : (i ≤ j ∧ j < i + (n + 1)) := by omega
          rw [if_pos hj, if_pos e2]
          simp [hji]
        · have e2 : ¬ (i ≤ j ∧ j < i + (n + 1)) := by omega
          rw [if_neg hj, if_neg e2]
          simp [hji]

theorem Linked.lastAt_lt {sl : skiplist S} {A B : List Nat} (hL : Linked sl (A ++ B)) (j : Nat) :
    lastAt sl.heap j sl.header A < sl.heap.length := by
  rcases lastAt_mem sl.heap j sl.header A with h | ⟨h, _⟩
  · rw [h]; exact hL.header_lt
  · exact hL.lt_length _ (List.mem_append_left _ h)

theorem Linked.lastAt_top {sl : skiplist S} {A B : List Nat} (hL : Linked sl (A ++ B)) {j : Nat}
    (hj : sl.level ≤ j) : lastAt sl.heap j sl.header A = sl.header :=
  lastAt_eq_self (fun q hq => by
    have := (hL.heights q (List.mem_append_left _ hq)).2
    omega)

theorem fwdOf_append_makeNode (H : Heap S) (lvl : Nat) (score : S) (member : String)
    (q j : Nat) :
    fwdOf (H ++ [makeNode lvl score member]) q j =
      if q = H.length then none else fwdOf H q j := by
  by_cases h1 : q < H.length
  · rw [fwdOf_append_of_lt _ _ h1, if_neg (by omega)]
  · by_cases h2 : q = H.length
    · subst h2
      rw [fwdOf_append_new, if_pos rfl]
    · rw [if_neg h2]
      have e1 : hgt (H ++ [makeNode lvl score member]) q = 0 := by
        rw [hgt_append, if_neg h2]
        unfold hgt
        rw [List.getElem?_eq_none_iff.mpr (by omega)]
      have e2 : hgt H q = 0 := by
        unfold hgt
        rw [List.getElem?_eq_none_iff.mpr (by omega)]
      rw [fwdOf_eq_none_of_le (by omega), fwdOf_eq_none_of_le (by omega)]

section
variable [LinearOrder S]

/-- What a completed `insert` does to the store, read through the views: the new node is
allocated at the end of the store and linked after the last node before the key at each of its
levels; `tail` is left as it was; the node returned is the level-0 predecessor. -/
theorem insert_effect (sl : skiplist S) (member : String) (score : S) (level : Nat)
    (A B : List Nat) (hL : Linked sl (A ++ B))
    (hA : ∀ q ∈ A, before sl.heap member score q)
    (hB : ∀ q ∈ B, ¬ before sl.heap member score q)
    (h1 : 1 ≤ level)
    (sl' : skiplist S) (ret : Nat) (h : insert sl member score level = .ok (sl', ret)) :
    sl'.heap.length = sl.heap.length + 1 ∧ sl'.header = sl.header ∧ sl'.tail = sl.tail ∧
    sl'.length = sl.length + 1 ∧ sl'.level = max sl.level level ∧
    ret = lastAt sl.heap 0 sl.header A ∧
    (∀ q, hgt sl'.heap q = if q = sl.heap.length then level else hgt sl.heap q) ∧
    (∀ q, elemOf sl'.heap q =
      if q = sl.heap.length then some ⟨member, score⟩ else elemOf sl.heap q) ∧
    (∀ q j, fwdOf sl'.heap q j =
      if j < level then
        (if q = sl.heap.length then fwdOf sl.heap (lastAt sl.heap j sl.header A) j
          else if q = lastAt sl.heap j sl.header A then some sl.heap.length
          else fwdOf sl.heap q j)
      else (if q = sl.heap.length then none else fwdOf sl.heap q j)) ∧
    backOf sl'.heap sl.heap.length = some (lastAt sl.heap 0 sl.header A) := by
  obtain ⟨update, rank, hs, hulen, hrlen, hupd, _⟩ :=
    insert_search_spec sl member score A B hL hA hB sl.level (le_refl _)
      (List.replicate maxLevel none) (List.replicate maxLevel 0) (by simp) (by simp)
  rw [hL.lastAt_top (le_refl _)] at hs
  unfold insert at h
  simp only [hs, bind_ok_eq] at h
  -- the new levels
  obtain ⟨r, hr, h⟩ := bind_eq_ok.mp h
  obtain ⟨H1, update1, rank1, slLevel⟩ := r
  have hraise : SameLinks sl.heap H1 ∧ slLevel = max sl.level level ∧
      ∀ j, j < level → update1[j]? = some (some (lastAt sl.heap j sl.header A)) := by
    by_cases hlv : level > sl.level
    · rw [if_pos hlv] at hr
      obtain ⟨r1, hr1, hr⟩ := bind_eq_ok.mp hr
      obtain ⟨H1', update1', rank1'⟩ := r1
      simp only [pure_eq_ok, Except.ok.injEq, Prod.mk.injEq] at hr
      obtain ⟨rfl, rfl, rfl, rfl⟩ := hr
      obtain ⟨e1, _, _, e4, e5⟩ := insert_raise_spec _ _ _ _ _ _ _ _ _ _ hr1
      refine ⟨e1, by omega, fun j hj => ?_⟩
      by_cases hjl : sl.level ≤ j
      · rw [e4 j hjl (by omega), hL.lastAt_top hjl]
      · rw [e5 j (by omega)]
        exact hupd j (by omega)
    · rw [if_neg hlv] at hr
      simp only [pure_eq_ok, Except.ok.injEq, Prod.mk.injEq] at hr
      obtain ⟨rfl, rfl, rfl, rfl⟩ := hr
      exact ⟨SameLinks.refl _, by omega, fun j hj => hupd j (by omega)⟩
  obtain ⟨hsame1, hlvl, hupd1⟩ := hraise
  simp only at h
  obtain ⟨H3, hsplice, h⟩ := bind_eq_ok.mp h
  obtain ⟨H4, hbump, h⟩ := bind_eq_ok.mp h
  obtain ⟨u0, hu0, h⟩ := bind_eq_ok.mp h
  obtain ⟨H5, hback, h⟩ := bind_eq_ok.mp h
  obtain ⟨nl, hnl, h⟩ := bind_eq_ok.mp h
  obtain ⟨r2, hr2, h⟩ := bind_eq_ok.mp h
  have hnew : H1.length = sl.heap.length := hsame1.1
  have hune : ∀ j, lastAt sl.heap j sl.header A ≠ H1.length := fun j => by
    have := hL.lastAt_lt (A := A) (B := B) j
    omega
  obtain ⟨s1, s2, _, s4⟩ := insert_splice_spec H1.length (lastAt sl.heap 0 sl.header A) update1
    rank1 (fun j => lastAt sl.heap j sl.header A) level 0
    (H1 ++ [makeNode level score member]) H3
    (fun j _ hj => hupd1 j (by omega)) (fun j _ _ => hune j) hsplice
  have hsame4 := insert_bump_spec _ _ _ _ _ hbump
  have hsame5 : SameLinks H4 H5 := by
    by_cases hc : u0 = some sl.header
    · rw [if_pos hc] at hback
      rw [(writeBackward_eq_ok.mp hback).2]
      exact SameLinks.setBackward _ _ _
    · rw [if_neg hc] at hback
      rw [(writeBackward_eq_ok.mp hback).2]
      exact SameLinks.setBackward _ _ _
  have hfwd0 : nl.forward = some H1.length := by
    rw [(readLevel_eq_ok.mp hnl).2]
    simp only
    rw [(hsame5.2 _).2.2, (hsame4.2 _).2.2, s4]
    rw [if_pos (by omega), if_neg (hune 0), if_pos rfl]
  rw [hfwd0] at hr2
  simp only at hr2
  obtain ⟨H6, hback6, hr2⟩ := bind_eq_ok.mp hr2
  simp only [pure_eq_ok, Except.ok.injEq] at hr2
  subst hr2
  simp only [pure_eq_ok, Except.ok.injEq, Prod.mk.injEq] at h
  obtain ⟨rfl, rfl⟩ := h
  obtain ⟨hlt6, rfl⟩ := writeBackward_eq_ok.mp hback6
  have hsame6 : SameLinks H3 (setBackward H5 H1.length (some (lastAt sl.heap 0 sl.header A))) :=
    (hsame4.trans hsame5).trans (SameLinks.setBackward _ _ _)
  dsimp only
  refine ⟨?_, rfl, rfl, rfl, hlvl, rfl, ?_, ?_, ?_, ?_⟩
  · rw [hsame6.1, s1, List.length_append, hnew]
    rfl
  · intro q
    rw [(hsame6.2 q).1, (s2 q).1, hgt_append, hnew, (hsame1.2 q).1]
    simp [makeNode]
  · intro q
    rw [(hsame6.2 q).2.1, (s2 q).2, elemOf_append, hnew, (hsame1.2 q).2.1]
    simp [makeNode]
  · intro q j
    rw [(hsame6.2 q).2.2, s4]
    simp only [fwdOf_append_makeNode, hnew, (hsame1.2 _).2.2, Nat.zero_le, true_and,
      Nat.zero_add]
    by_cases hj : j < level
    · simp only [hj, if_true]
      have := hL.lastAt_lt (A := A) (B := B) j
      have hne : ¬ lastAt sl.heap j sl.header A = sl.heap.length := by omega
      by_cases hq : q = sl.heap.length
      · simp [hq, hne]
      · simp [hq]
    · simp only [hj, if_false]
  · rw [backOf_setBackward, hnew, if_pos ⟨rfl, by rw [← hnew]; exact hlt6⟩]

end

/-- Linking a new node after the last level-`j` node of `p :: A` turns the links of `A ++ B`
into the links of `A ++ new :: B`. -/
theorem FwdOK.insertNode {H H' : Heap S} {j new h : Nat} (B : List Nat) :
    ∀ (A : List Nat) (p : Nat),
      FwdOK H j p (A ++ B) → (p :: (A ++ B)).Nodup → new ∉ p :: (A ++ B) →
      (∀ q ∈ p :: (A ++ B), hgt H' q = hgt H q) → hgt H' new = h →
      (∀ q ∈ p :: (A ++ B), q ≠ lastAt H j p A → fwdOf H' q j = fwdOf H q j) →
      (j < h → fwdOf H' (lastAt H j p A) j = some new ∧
        fwdOf H' new j = fwdOf H (lastAt H j p A) j) →
      (¬ j < h → fwdOf H' (lastAt H j p A) j = fwdOf H (lastAt H j p A) j) →
      FwdOK H' j p (A ++ new :: B) := by
  intro A
  induction A with
  | nil =>
    intro p hf hnd hnew hh hhn hfr h1 h2
    simp only [List.nil_append, lastAt_nil] at *
    have hB : ∀ q ∈ B, fwdOf H' q j = fwdOf H q j ∧ hgt H' q = hgt H q := fun q hq =>
      ⟨hfr q (List.mem_cons_of_mem _ hq) (fun e => by
        subst e; exact (List.nodup_cons.mp hnd).1 hq), hh q (List.mem_cons_of_mem _ hq)⟩
    by_cases hj : j < h
    · rw [FwdOK_cons_of_lt _ _ (by rw [hhn]; exact hj)]
      exact ⟨(h1 hj).1, hf.congr (h1 hj).2 hB⟩
    · rw [FwdOK_cons_of_not_lt _ _ (by rw [hhn]; exact hj)]
      exact hf.congr (h2 hj) hB
  | cons q A ih =>
    intro p hf hnd hnew hh hhn hfr h1 h2
    simp only [List.cons_append] at *
    have hq' := hh q (List.mem_cons_of_mem _ (List.mem_cons_self _ _))
    have hnd' : (q :: (A ++ B)).Nodup := (List.nodup_cons.mp hnd).2
    have hpn : p ∉ q :: (A ++ B) := (List.nodup_cons.mp hnd).1
    by_cases hq : j < hgt H q
    · rw [FwdOK_cons_of_lt _ _ hq] at hf
      rw [lastAt_cons_of_lt _ _ hq] at hfr h1 h2
      rw [FwdOK_cons_of_lt _ _ (by rw [hq']; exact hq)]
      have hpu : p ≠ lastAt H j q A := by
        rcases lastAt_mem H j q A with e | ⟨e, _⟩
        · rw [e]; exact fun e' => hpn (e' ▸ List.mem_cons_self _ _)
        · exact fun e' => hpn (e' ▸ List.mem_cons_of_mem _ (List.mem_append_left _ e))
      refine ⟨(hfr p (List.mem_cons_self _ _) hpu).trans hf.1, ?_⟩
      exact ih q hf.2 hnd' (fun e => hnew (List.mem_cons_of_mem _ e))
        (fun x hx => hh x (List.mem_cons_of_mem _ hx)) hhn
        (fun x hx => hfr x (List.mem_cons_of_mem _ hx)) h1 h2
    · rw [FwdOK_cons_of_not_lt _ _ hq] at hf
      rw [lastAt_cons_of_not_lt _ _ hq] at hfr h1 h2
      rw [FwdOK_cons_of_not_lt _ _ (by rw [hq']; exact hq)]
      have hsub : ∀ x, x ∈ p :: (A ++ B) → x ∈ p :: q :: (A ++ B) := fun x hx => by
        rcases List.mem_cons.mp hx with e | e
        · exact e ▸ List.mem_cons_self _ _
        · exact List.mem_cons_of_mem _ (List.mem_cons_of_mem _ e)
      have hnd2 : (p :: (A ++ B)).Nodup :=
        List.nodup_cons.mpr ⟨fun e => hpn (List.mem_cons_of_mem _ e),
          (List.nodup_cons.mp hnd').2⟩
      exact ih p hf hnd2 (fun e => hnew (hsub _ e)) (fun x hx => hh x (hsub _ hx)) hhn
        (fun x hx => hfr x (hsub _ hx)) h1 h2

section
variable [LinearOrder S]

/-- A completed `insert` keeps the forward structure, the new node sitting between the nodes
before the key and the others. -/
theorem insert_linked (sl : skiplist S) (member : String) (score : S) (level : Nat)
    (A B : List Nat) (hL : Linked sl (A ++ B))
    (hA : ∀ q ∈ A, before sl.heap member score q)
    (hB : ∀ q ∈ B, ¬ before sl.heap member score q)
    (h1 : 1 ≤ level) (h16 : level ≤ maxLevel)
    (sl' : skiplist S) (ret : Nat) (h : insert sl member score level = .ok (sl', ret)) :
    Linked sl' (A ++ sl.heap.length :: B) := by
  obtain ⟨e1, e2, _, _, e5, _, e7, _, e9, _⟩ :=
    insert_effect sl member score level A B hL hA hB h1 sl' ret h
  have hlt := hL.lt_length
  have hhl := hL.header_lt
  have hnew : sl.heap.length ∉ sl.header :: (A ++ B) := by
    intro hm
    rcases List.mem_cons.mp hm with e | e
    · omega
    · have := hlt _ e; omega
  have hold : ∀ q ∈ sl.header :: (A ++ B), hgt sl'.heap q = hgt sl.heap q := fun q hq => by
    rw [e7, if_neg (fun (e : q = sl.heap.length) => hnew (e ▸ hq))]
  constructor
  · rw [e2, hold _ (List.mem_cons_self _ _)]; exact hL.header_levels
  · rw [e2]
    intro hm
    rcases List.mem_append.mp hm with e | e
    · exact hL.header_fresh (List.mem_append_left _ e)
    · rcases List.mem_cons.mp e with e | e
      · omega
      · exact hL.header_fresh (List.mem_append_right _ e)
  · have := hL.nodup
    rw [List.nodup_append] at this ⊢
    obtain ⟨n1, n2, n3⟩ := this
    refine ⟨n1, List.nodup_cons.mpr ⟨fun e => hnew (List.mem_cons_of_mem _
      (List.mem_append_right _ e)), n2⟩, ?_⟩
    intro x hx1 hx2
    rcases List.mem_cons.mp hx2 with e | e
    · exact hnew (List.mem_cons_of_mem _ (List.mem_append_left _ (e ▸ hx1)))
    · exact n3 hx1 e
  · intro p hp
    rw [e7, e5]
    by_cases hpn : p = sl.heap.length
    · rw [if_pos hpn]; omega
    · rw [if_neg hpn]
      have hp' : p ∈ A ++ B := by
        rcases List.mem_append.mp hp with e | e
        · exact List.mem_append_left _ e
        · rcases List.mem_cons.mp e with e | e
          · exact absurd e hpn
          · exact List.mem_append_right _ e
      have := hL.heights p hp'
      omega
  · rw [e5]; have := hL.level_pos; omega
  · rw [e5]; have := hL.level_le; omega
  · intro j hj
    rw [e2]
    refine FwdOK.insertNode (h := level) B A sl.header (hL.forward j hj)
      (List.nodup_cons.mpr ⟨hL.header_fresh, hL.nodup⟩) hnew hold ?_ ?_ ?_ ?_
    · rw [e7, if_pos rfl]
    · intro q hq hne
      have hqn : q ≠ sl.heap.length := fun e => hnew (e ▸ hq)
      rw [e9]
      by_cases hjl : j < level
      · rw [if_pos hjl, if_neg hqn, if_neg hne]
      · rw [if_neg hjl, if_neg hqn]
    · intro hjl
      have hun : lastAt sl.heap j sl.header A ≠ sl.heap.length := by
        have := hL.lastAt_lt (A := A) (B := B) j
        omega
      constructor
      · rw [e9, if_pos hjl, if_neg hun, if_pos rfl]
      · rw [e9, if_pos hjl, if_pos rfl]
    · intro hjl
      have hun : lastAt sl.heap j sl.header A ≠ sl.heap.length := by
        have := hL.lastAt_lt (A := A) (B := B) j
        omega
      rw [e9, if_neg hjl, if_neg hun]

end

theorem elemOf_of_hgt_pos {H : Heap S} {q : Nat} (h : 0 < hgt H q) :
    ∃ e, elemOf H q = some e := by
  unfold hgt at h
  unfold elemOf
  cases hq : H[q]? with
  | none => simp [hq] at h
  | some n => exact ⟨_, rfl⟩

theorem deref_of_elemOf {H : Heap S} {q : Nat} {e : Element S} (h : elemOf H q = some e) :
    ∃ n, deref H q = .ok n ∧ n.toElement = e := by
  unfold elemOf at h
  cases hq : H[q]? with
  | none => simp [hq] at h
  | some n =>
    simp only [hq, Option.some.injEq] at h
    exact ⟨n, deref_eq_ok.mpr hq, h⟩

theorem foldr_max_append_singleton (l : List Nat) (x : Nat) :
    (l ++ [x]).foldr max 1 = max (l.foldr max 1) x := by
  induction l with
  | nil => simp [max_comm]
  | cons a l ih =>
    simp only [List.cons_append, List.foldr_cons, ih]
    exact (max_assoc _ _ _).symm

section
variable [LinearOrder S]

/-- In an ordered sequence, the nodes that come after the first one not before the key are not
before the key either. -/
theorem not_before_of_dropWhile {H : Heap S} {member : String} {score : S} :
    ∀ {abs : List Nat}, Ordered H abs →
      ∀ b ∈ abs.dropWhile (fun q => decide (before H member score q)),
        ¬ before H member score b := by
  intro abs
  induction abs with
  | nil => intro _ b hb; simp at hb
  | cons x l ih =>
    intro ho b hb
    have ho' : Ordered H l := (List.pairwise_cons.mp ho).2
    by_cases hx : before H member score x
    · rw [List.dropWhile_cons_of_pos (by simpa using hx)] at hb
      exact ih ho' b hb
    · rw [List.dropWhile_cons_of_neg (by simpa using hx)] at hb
      rcases List.mem_cons.mp hb with e | e
      · rw [e]; exact hx
      · intro hbb
        have hlt := (List.pairwise_cons.mp ho).1 b e
        unfold nodeLt at hlt
        unfold before at hbb hx
        cases hex : elemOf H x with
        | none => simp [hex] at hlt
        | some ex =>
          cases heb : elemOf H b with
          | none => simp [heb] at hbb
          | some eb =>
            simp only [hex, heb] at hlt hbb hx
            exact hx (keyLt_of_elemLt hlt hbb)

/-- A completed `insert` of a member not yet stored keeps the level-0 sequence ordered. -/
theorem insert_ordered (sl : skiplist S) (member : String) (score : S) (level : Nat)
    (A B : List Nat) (hL : Linked sl (A ++ B)) (hO : Ordered sl.heap (A ++ B))
    (hA : ∀ q ∈ A, before sl.heap member score q)
    (hB : ∀ q ∈ B, ¬ before sl.heap member score q)
    (hfresh : ∀ q ∈ A ++ B, ∀ e, elemOf sl.heap q = some e → e.Member ≠ member)
    (h1 : 1 ≤ level)
    (sl' : skiplist S) (ret : Nat) (h : insert sl member score level = .ok (sl', ret)) :
    Ordered sl'.heap (A ++ sl.heap.length :: B) := by
  obtain ⟨_, _, _, _, _, _, _, e8, _, _⟩ :=
    insert_effect sl member score level A B hL hA hB h1 sl' ret h
  have hlt := hL.lt_length
  have hold : ∀ q ∈ A ++ B, elemOf sl'.heap q = elemOf sl.heap q := fun q hq => by
    have := hlt q hq
    rw [e8, if_neg (by omega)]
  have hnew : elemOf sl'.heap sl.heap.length = some ⟨member, score⟩ := by
    rw [e8, if_pos rfl]
  have hcongr : ∀ p ∈ A ++ B, ∀ q ∈ A ++ B, nodeLt sl.heap p q → nodeLt sl'.heap p q := by
    intro p hp q hq hpq
    unfold nodeLt at *
    rw [hold p hp, hold q hq]
    exact hpq
  unfold Ordered at *
  rw [List.pairwise_append] at hO ⊢
  obtain ⟨o1, o2, o3⟩ := hO
  refine ⟨?_, ?_, ?_⟩
  · exact o1.imp_of_mem (fun hp hq hpq =>
      hcongr _ (List.mem_append_left _ hp) _ (List.mem_append_left _ hq) hpq)
  · rw [List.pairwise_cons]
    refine ⟨?_, o2.imp_of_mem (fun hp hq hpq =>
      hcongr _ (List.mem_append_right _ hp) _ (List.mem_append_right _ hq) hpq)⟩
    intro b hb
    have hbm : b ∈ A ++ B := List.mem_append_right _ hb
    obtain ⟨eb, heb⟩ := elemOf_of_hgt_pos (H := sl.heap) (q := b)
      (by have := (hL.heights b hbm).1; omega)
    have hnb := hB b hb
    unfold before at hnb
    simp only [heb] at hnb
    unfold nodeLt
    rw [hnew, hold b hbm, heb]
    exact elemLt_of_not_keyLt hnb (hfresh b hbm eb heb)
  · intro a ha b hb
    have ham : a ∈ A ++ B := List.mem_append_left _ ha
    rcases List.mem_cons.mp hb with e | e
    · subst e
      have hab := hA a ha
      unfold before at hab
      unfold nodeLt
      rw [hnew, hold a ham]
      cases hea : elemOf sl.heap a with
      | none => simp [hea] at hab
      | some ea =>
        simp only [hea] at hab
        exact hab
    · exact hcongr _ ham _ (List.mem_append_right _ e) (o3 a ha b e)

/-- One more completed `insert` of a fresh member extends the state reached. -/
theorem Grown.step {sl : skiplist S} {done : List (String × S × Nat)} {abs : List Nat}
    (hG : Grown sl done abs) (member : String) (score : S) (level : Nat)
    (hfresh : member ∉ done.map (fun o => o.1)) (h1 : 1 ≤ level) (h16 : level ≤ maxLevel)
    (sl' : skiplist S) (ret : Nat) (h : insert sl member score level = .ok (sl', ret)) :
    ∃ abs', Grown sl' (done ++ [(member, score, level)]) abs' := by
  let A := abs.takeWhile (fun q => decide (before sl.heap member score q))
  let B := abs.dropWhile (fun q => decide (before sl.heap member score q))
  have hAB : A ++ B = abs := List.takeWhile_append_dropWhile _ _
  have hL : Linked sl (A ++ B) := by rw [hAB]; exact hG.linked
  have hO : Ordered sl.heap (A ++ B) := by rw [hAB]; exact hG.ordered
  have hA : ∀ q ∈ A, before sl.heap member score q := fun q hq => by
    simpa using List.mem_takeWhile_imp hq
  have hB : ∀ q ∈ B, ¬ before sl.heap member score q := not_before_of_dropWhile hG.ordered
  have hfr : ∀ q ∈ A ++ B, ∀ e, elemOf sl.heap q = some e → e.Member ≠ member := by
    intro q hq e he hm
    rw [hAB] at hq
    have h2 : some e ∈ abs.map (elemOf sl.heap) := by
      rw [← he]; exact List.mem_map_of_mem _ hq
    have h3 := hG.perm.subset h2
    obtain ⟨o, ho, hoe⟩ := List.mem_map.mp h3
    simp only [Option.some.injEq] at hoe
    apply hfresh
    rw [← hm, ← hoe]
    exact List.mem_map_of_mem (fun o => o.1) ho
  obtain ⟨_, _, e3, e4, e5, _, _, e8, _, _⟩ :=
    insert_effect sl member score level A B hL hA hB h1 sl' ret h
  refine ⟨A ++ sl.heap.length :: B, ?_⟩
  constructor
  · exact insert_linked sl member score level A B hL hA hB h1 h16 sl' ret h
  · exact insert_ordered sl member score level A B hL hO hA hB hfr h1 sl' ret h
  · have hlt := hL.lt_length
    have hmap : (A ++ B).map (elemOf sl'.heap) = (A ++ B).map (elemOf sl.heap) :=
      List.map_congr_left (fun q hq => by
        have := hlt q hq
        rw [e8, if_neg (by omega)])
    have p1 : (A ++ sl.heap.length :: B).Perm (sl.heap.length :: (A ++ B)) := List.perm_middle
    have p2 := p1.map (elemOf sl'.heap)
    rw [List.map_cons, hmap, hAB, e8, if_pos rfl] at p2
    refine p2.trans ?_
    rw [List.map_append, List.map_singleton]
    exact ((hG.perm.cons _).trans (List.perm_append_singleton _ _).symm)
  · rw [e3]; exact hG.tail_none
  · rw [e4, hG.length_eq]; simp
  · rw [e5, hG.level_eq, List.map_append, List.map_singleton, foldr_max_append_singleton]

/-- Every completed sequence of `insert` calls with distinct members and heights in
`1..maxLevel` extends the state reached. -/
theorem Grown.run :
    ∀ (ops done : List (String × S × Nat)) (sl sl' : skiplist S) (abs : List Nat),
      Grown sl done abs → ((done ++ ops).map (fun o => o.1)).Nodup →
      (∀ o ∈ ops, 1 ≤ o.2.2 ∧ o.2.2 ≤ maxLevel) → zset.insertAll sl ops = .ok sl' →
      ∃ abs', Grown sl' (done ++ ops) abs' := by
  intro ops
  induction ops with
  | nil =>
    intro done sl sl' abs hG _ _ h
    simp only [zset.insertAll, pure_eq_ok, Except.ok.injEq] at h
    subst h
    exact ⟨abs, by simpa using hG⟩
  | cons o ops ih =>
    intro done sl sl' abs hG hnd hh h
    obtain ⟨member, score, level⟩ := o
    unfold zset.insertAll at h
    obtain ⟨r, hr, h⟩ := bind_eq_ok.mp h
    obtain ⟨sl1, ret⟩ := r
    simp only at h
    have hho := hh _ (List.mem_cons_self _ _)
    have hfresh : member ∉ done.map (fun o => o.1) := by
      rw [List.map_append, List.map_cons, List.nodup_append] at hnd
      intro hm
      exact hnd.2.2 hm (List.mem_cons_self _ _)
    obtain ⟨abs1, hG1⟩ := hG.step member score level hfresh hho.1 hho.2 sl1 ret hr
    have := ih (done ++ [(member, score, level)]) sl1 sl' abs1 hG1
      (by simpa using hnd) (fun o ho => hh o (List.mem_cons_of_mem _ ho)) h
    simpa using this

end

/-! ## Reading the level-0 chain -/

theorem chain0_walk_spec (H : Heap S) :
    ∀ (l : List Nat) (p fuel : Nat), 0 < hgt H p → FwdOK H 0 p l → (∀ q ∈ l, 0 < hgt H q) →
      l.length < fuel → chain0.walk H fuel p = .ok l := by
  intro l
  induction l with
  | nil =>
    intro p fuel hp hf _ hfuel
    obtain ⟨fuel, rfl⟩ : ∃ f, fuel = f + 1 := ⟨fuel - 1, by omega⟩
    rw [FwdOK_nil] at hf
    unfold chain0.walk
    simp only [readLevel_of_lt hp, bind_ok_eq, hf]
    rfl
  | cons q l ih =>
    intro p fuel hp hf hl hfuel
    simp only [List.length_cons] at hfuel
    obtain ⟨fuel, rfl⟩ : ∃ f, fuel = f + 1 := ⟨fuel - 1, by omega⟩
    have hq := hl q (List.mem_cons_self _ _)
    rw [FwdOK_cons_of_lt _ _ hq] at hf
    unfold chain0.walk
    simp only [readLevel_of_lt hp, bind_ok_eq, hf.1]
    rw [ih q fuel hq hf.2 (fun x hx => hl x (List.mem_cons_of_mem _ hx)) (by omega)]
    rfl

theorem Linked.chain0_eq {sl : skiplist S} {abs : List Nat} (hL : Linked sl abs) :
    chain0 sl = .ok abs := by
  unfold zset.chain0
  refine chain0_walk_spec sl.heap abs sl.header _ ?_ (hL.forward 0 (by decide)) ?_ ?_
  · rw [hL.header_levels]; decide
  · intro q hq
    have := (hL.heights q hq).1
    omega
  · have := hL.length_le
    omega

theorem collect_spec (H : Heap S) :
    ∀ (l : List Nat), (∀ q ∈ l, 0 < hgt H q) →
      ∃ es, elements.collect H l = .ok es ∧ es.map some = l.map (elemOf H) := by
  intro l
  induction l with
  | nil => intro _; exact ⟨[], rfl, rfl⟩
  | cons q l ih =>
    intro hl
    obtain ⟨es, h1, h2⟩ := ih (fun x hx => hl x (List.mem_cons_of_mem _ hx))
    obtain ⟨e, he⟩ := elemOf_of_hgt_pos (hl q (List.mem_cons_self _ _))
    obtain ⟨n, hn, hne⟩ := deref_of_elemOf he
    refine ⟨e :: es, ?_, ?_⟩
    · unfold elements.collect
      simp only [hn, h1, bind_ok_eq, pure_eq_ok, hne]
    · simp only [List.map_cons, h2, he]

theorem Linked.elements_eq {sl : skiplist S} {abs : List Nat} (hL : Linked sl abs) :
    ∃ es, elements sl = .ok es ∧ es.map some = abs.map (elemOf sl.heap) := by
  obtain ⟨es, h1, h2⟩ := collect_spec sl.heap abs (fun q hq => by
    have := (hL.heights q hq).1
    omega)
  refine ⟨es, ?_, h2⟩
  unfold zset.elements
  simp only [hL.chain0_eq, bind_ok_eq, h1]

section
variable [LinearOrder S]

theorem pairwise_elemLt_of_ordered {H : Heap S} {abs : List Nat} {es : List (Element S)}
    (hO : Ordered H abs) (h : es.map some = abs.map (elemOf H)) : es.Pairwise elemLt := by
  induction abs generalizing es with
  | nil =>
    simp only [List.map_nil, List.map_eq_nil_iff] at h
    subst h
    exact List.Pairwise.nil
  | cons q l ih =>
    cases es with
    | nil => simp at h
    | cons e es =>
      simp only [List.map_cons, List.cons.injEq] at h
      obtain ⟨h1, h2⟩ := h
      obtain ⟨o1, o2⟩ := List.pairwise_cons.mp hO
      refine List.pairwise_cons.mpr ⟨?_, ih o2 h2⟩
      intro b hb
      have hb' : some b ∈ l.map (elemOf H) := by
        rw [← h2]; exact List.mem_map_of_mem _ hb
      obtain ⟨x, hx, hxb⟩ := List.mem_map.mp hb'
      have := o1 x hx
      unfold nodeLt at this
      rw [← h1, hxb] at this
      exact this

theorem Grown.empty [Zero S] : Grown (makeSkiplist : skiplist S) [] [] := by
  have hh : hgt (makeSkiplist : skiplist S).heap (makeSkiplist : skiplist S).header =
      maxLevel := by
    simp [hgt, makeSkiplist, makeNode]
  refine ⟨⟨hh, by simp, List.nodup_nil, by simp, by simp [makeSkiplist],
    by simp [makeSkiplist, maxLevel], ?_⟩, List.Pairwise.nil, by simp, rfl, rfl, rfl⟩
  intro i _
  rw [FwdOK_nil]
  exact fwdOf_append_new [] maxLevel 0 "" i

end

/-- C1 (ordering).  For every sequence of `insert` calls with pairwise distinct members and
drawn heights in `1..maxLevel`, applied to the empty skip list, if the calls complete then the
level-0 forward chain from the header holds exactly the inserted elements, in strictly
ascending order of score with ties broken by member. -/
theorem insert_sequence_sorted [LinearOrder S] [Zero S] (ops : List (String × S × Nat))
    (hdistinct : (ops.map (fun o => o.1)).Nodup)
    (hheights : ∀ o ∈ ops, 1 ≤ o.2.2 ∧ o.2.2 ≤ maxLevel)
    (sl : skiplist S) (hrun : insertAll makeSkiplist ops = .ok sl) :
    ∃ es, elements sl = .ok es ∧ es.Pairwise elemLt ∧
      es.Perm (ops.map fun o => ⟨o.1, o.2.1⟩) := by
  obtain ⟨abs, hG⟩ := Grown.run ops [] makeSkiplist sl [] Grown.empty
    (by simpa using hdistinct) hheights hrun
  simp only [List.nil_append] at hG
  obtain ⟨es, h1, h2⟩ := hG.linked.elements_eq
  refine ⟨es, h1, pairwise_elemLt_of_ordered hG.ordered h2, ?_⟩
  have hp := hG.perm
  rw [← h2] at hp
  have hp2 := hp.filterMap id
  have e1 : ∀ (l : List (Element S)), (l.map some).filterMap id = l := fun l => by
    induction l with
    | nil => rfl
    | cons a l ih => simp [List.filterMap_cons, ih]
  have e2 : (ops.map fun o => (some ⟨o.1, o.2.1⟩ : Option (Element S))) =
      (ops.map fun o => (⟨o.1, o.2.1⟩ : Element S)).map some := by
    simp [List.map_map, Function.comp]
  rw [e1, e2, e1] at hp2
  exact hp2

/-- The sequence `opsCAB` satisfies the hypotheses of C1 and completes, so its chain is sorted. -/
theorem insert_sequence_sorted_witness :
    ∃ sl, insertAll makeSkiplist opsCAB = .ok sl ∧
      ∃ es, elements sl = .ok es ∧ es.Pairwise elemLt ∧
        es.Perm (opsCAB.map fun o => ⟨o.1, o.2.1⟩) :=
  match h : insertAll (makeSkiplist : skiplist Int) opsCAB with
  | .ok sl => ⟨sl, rfl, insert_sequence_sorted opsCAB (by decide) (by decide) sl h⟩
  | .error _ => by
    have h2 : (insertAll (makeSkiplist : skiplist Int) opsCAB).toBool = true := by decide
    rw [h] at h2
    exact absurd h2 (by simp [Except.toBool])

/-- C2 (span correctness after inserts): evaluation at a failing input.  After
`insert("b", 2)` and `insert("a", 1)`, both completed with height 1, the level-0 chain is
`a, b` (the nodes at addresses 2 and 1), `length` is 2, the level-0 span of `a` is 0, and
`getByRank(2)` returns nil instead of the node of `b`. -/
theorem getByRank_after_inserts_misses :
    insertAll makeSkiplist opsBA = .ok slBA ∧
      chain0 slBA = .ok [2, 1] ∧ elements slBA = .ok [⟨"a", 1⟩, ⟨"b", 2⟩] ∧
      slBA.length = 2 ∧ spanOf slBA.heap 2 0 = 0 ∧ getByRank slBA 2 = .ok none := by
  decide

/-- C3 (backward chain and tail after insert): evaluation at a failing input.  `insert("a", 1)`
with height 1 on the empty list completes, the level-0 chain is the new node alone (address
1), yet `tail` is still nil and the new node's backward link is the header (address 0). -/
theorem insert_leaves_tail_nil :
    (insert makeSkiplist "a" 1 1).map (fun r => r.1) = .ok slA ∧
      chain0 slA = .ok [1] ∧ slA.tail = none ∧ slA.header = 0 ∧
      backOf slA.heap 1 = some 0 := by
  decide

/-- C6 (score-range lookup after inserts): evaluation at a failing input.  After
`insert("a", 1)` the inclusive range `[0, 2]` does not intersect itself and the stored element
passes both of its bounds, yet `hasInRange` is false and `getFirstInScoreRange` returns nil. -/
theorem getFirstInScoreRange_after_insert_none :
    (insert makeSkiplist "a" 1 1).map (fun r => r.1) = .ok slA ∧
      elements slA = .ok [⟨"a", 1⟩] ∧
      scoreBorderOps.isIntersected range02.1 range02.2 = false ∧
      scoreBorderOps.less range02.1 ⟨"a", 1⟩ = true ∧
      scoreBorderOps.greater range02.2 ⟨"a", 1⟩ = true ∧
      hasInRange scoreBorderOps slA range02.1 range02.2 = .ok false ∧
      getFirstInScoreRange scoreBorderOps slA range02.1 range02.2 = .ok none := by
  decide

/-- C8 (ranks outside `1..length`): evaluation at a failing input.  On the empty list, whose
length is 0 and whose header is at address 0, `getByRank(0)` returns the header sentinel
instead of nil. -/
theorem getByRank_zero_returns_header :
    (makeSkiplist : skiplist Int).length = 0 ∧ (makeSkiplist : skiplist Int).header = 0 ∧
      getByRank (makeSkiplist : skiplist Int) 0 = .ok (some 0) := by
  decide

/-- C9 (the node returned by insert): evaluation at a failing input.  `insert("a", 1)` with
height 1 on the empty list returns the header (address 0), whose element is `("", 0)`, not the
node created for `("a", 1)` (address 1, the only node of the level-0 chain). -/
theorem insert_returns_predecessor :
    insert makeSkiplist "a" 1 1 = .ok (slA, 0) ∧ slA.header = 0 ∧
      elemOf slA.heap 0 = some ⟨"", 0⟩ ∧ chain0 slA = .ok [1] ∧
      elemOf slA.heap 1 = some ⟨"a", 1⟩ := by
  decide

/-! ## Spans and ranks -/

theorem SpanOK_nil (H : Heap S) (i p : Nat) (c : Int) : SpanOK H i p c [] := trivial

theorem SpanOK_cons_of_lt {H : Heap S} {i q : Nat} (p : Nat) (c : Int) (l : List Nat)
    (h : i < hgt H q) :
    SpanOK H i p c (q :: l) ↔ spanOf H p i = c + 1 ∧ SpanOK H i q 0 l := by
  simp only [SpanOK, h, if_true]

theorem SpanOK_cons_of_not_lt {H : Heap S} {i q : Nat} (p : Nat) (c : Int) (l : List Nat)
    (h : ¬ i < hgt H q) : SpanOK H i p c (q :: l) ↔ SpanOK H i p (c + 1) l := by
  simp only [SpanOK, h, if_false]

/-- Invariant 2 in its pointwise form: the span of an existing link is the difference of the
positions of its two ends, for any position function that numbers the sequence in order. -/
theorem span_law_pos (H : Heap S) (j : Nat) (pos : Nat → Int) :
    ∀ (l : List Nat) (p : Nat) (c : Int), FwdOK H j p l → SpanOK H j p c l →
      (∀ k (h : k < l.length), pos l[k] = pos p + c + 1 + k) →
      ∀ y, (y = p ∨ (y ∈ l ∧ j < hgt H y)) → ∀ q, fwdOf H y j = some q →
        spanOf H y j = pos q - pos y := by
  intro l
  induction l with
  | nil =>
    intro p c hf _ _ y hy q hq
    have : y = p := by simpa using hy
    subst this
    rw [FwdOK_nil] at hf
    rw [hf] at hq
    exact absurd hq (by simp)
  | cons x l ih =>
    intro p c hf hs hpos y hy q hq
    have hx0 : pos x = pos p + c + 1 := by
      have := hpos 0 (by simp)
      simpa using this
    by_cases hx : j < hgt H x
    · rw [FwdOK_cons_of_lt _ _ hx] at hf
      rw [SpanOK_cons_of_lt _ _ _ hx] at hs
      have hpos' : ∀ k (h : k < l.length), pos l[k] = pos x + 0 + 1 + k := fun k h => by
        have := hpos (k + 1) (by simp; omega)
        simp only [List.getElem_cons_succ] at this
        rw [this, hx0]
        push_cast
        ring
      rcases hy with hy | ⟨hy, hy'⟩
      · subst hy
        rw [hf.1] at hq
        simp only [Option.some.injEq] at hq
        subst hq
        rw [hs.1, hx0]; ring
      · rcases List.mem_cons.mp hy with e | e
        · exact ih x 0 hf.2 hs.2 hpos' y (Or.inl e) q hq
        · exact ih x 0 hf.2 hs.2 hpos' y (Or.inr ⟨e, hy'⟩) q hq
    · rw [FwdOK_cons_of_not_lt _ _ hx] at hf
      rw [SpanOK_cons_of_not_lt _ _ _ hx] at hs
      have hpos' : ∀ k (h : k < l.length), pos l[k] = pos p + (c + 1) + 1 + k := fun k h => by
        have := hpos (k + 1) (by simp; omega)
        simp only [List.getElem_cons_succ] at this
        rw [this]
        push_cast
        ring
      rcases hy with hy | ⟨hy, hy'⟩
      · exact ih p (c + 1) hf hs hpos' y (Or.inl hy) q hq
      · rcases List.mem_cons.mp hy with e | e
        · subst e; exact absurd hy' hx
        · exact ih p (c + 1) hf hs hpos' y (Or.inr ⟨e, hy'⟩) q hq

/-- The inner loop of `getByRank`, started on any node of the level-`j` chain of `p :: l` with
its position as accumulated span, stops on the last node of that chain, when the positions of
`l` are at most `rank` and those of `B` above it. -/
theorem getByRank_walk_spec (H : Heap S) (j : Nat) (rank : Int) (pos : Nat → Int)
    (B : List Nat) (hB : ∀ q ∈ B, rank < pos q) :
    ∀ (l : List Nat) (p x : Nat) (fuel : Nat),
      j < hgt H p → FwdOK H j p (l ++ B) →
      (∀ q ∈ l, pos q ≤ rank) →
      (∀ y, (y = p ∨ (y ∈ l ∧ j < hgt H y)) → ∀ q, fwdOf H y j = some q →
        spanOf H y j = pos q - pos y) →
      (x = p ∨ (x ∈ l ∧ j < hgt H x)) → l.length < fuel →
      getByRank.walk H j rank fuel x (pos x) =
        .ok (lastAt H j p l, pos (lastAt H j p l)) := by
  intro l
  induction l with
  | nil =>
    intro p x fuel hp hf _ hlaw hx hfuel
    have hx : x = p := by simpa using hx
    subst hx
    obtain ⟨fuel, rfl⟩ : ∃ f, fuel = f + 1 := ⟨fuel - 1, by omega⟩
    simp only [List.nil_append] at hf
    unfold getByRank.walk
    simp only [readLevel_of_lt hp, bind_ok_eq, lastAt]
    rcases hf.head with h | ⟨q, hq, h, _⟩
    · rw [h]; rfl
    · rw [h]
      simp only
      have e := hlaw x (Or.inl rfl) q h
      have := hB q hq
      rw [if_neg (by rw [e]; omega)]
      rfl
  | cons q l ih =>
    intro p x fuel hp hf hl hlaw hx hfuel
    have hl' : ∀ y ∈ l, pos y ≤ rank := fun y hy => hl y (List.mem_cons_of_mem _ hy)
    simp only [List.length_cons] at hfuel
    simp only [List.cons_append] at hf
    by_cases hq : j < hgt H q
    · rw [FwdOK_cons_of_lt _ _ hq] at hf
      rw [lastAt_cons_of_lt _ _ hq]
      have hlaw' : ∀ y, (y = q ∨ (y ∈ l ∧ j < hgt H y)) → ∀ z, fwdOf H y j = some z →
          spanOf H y j = pos z - pos y := by
        intro y hy
        rcases hy with e | ⟨e, e'⟩
        · exact hlaw y (Or.inr ⟨e ▸ List.mem_cons_self _ _, e ▸ hq⟩)
        · exact hlaw y (Or.inr ⟨List.mem_cons_of_mem _ e, e'⟩)
      rcases hx with hx | ⟨hx, hx'⟩
      · subst hx
        obtain ⟨fuel, rfl⟩ : ∃ f, fuel = f + 1 := ⟨fuel - 1, by omega⟩
        unfold getByRank.walk
        simp only [readLevel_of_lt hp, bind_ok_eq, hf.1]
        have e := hlaw x (Or.inl rfl) q hf.1
        have hqr := hl q (List.mem_cons_self _ _)
        rw [if_pos (by rw [e]; omega)]
        have e2 : pos x + spanOf H x j = pos q := by rw [e]; ring
        rw [e2]
        exact ih q q fuel hq hf.2 hl' hlaw' (Or.inl rfl) (by omega)
      · rcases List.mem_cons.mp hx with hx | hx
        · exact ih q x fuel hq hf.2 hl' hlaw' (Or.inl hx) (by omega)
        · exact ih q x fuel hq hf.2 hl' hlaw' (Or.inr ⟨hx, hx'⟩) (by omega)
    · rw [FwdOK_cons_of_not_lt _ _ hq] at hf
      rw [lastAt_cons_of_not_lt _ _ hq]
      have hlaw' : ∀ y, (y = p ∨ (y ∈ l ∧ j < hgt H y)) → ∀ z, fwdOf H y j = some z →
          spanOf H y j = pos z - pos y := by
        intro y hy
        rcases hy with e | ⟨e, e'⟩
        · exact hlaw y (Or.inl e)
        · exact hlaw y (Or.inr ⟨List.mem_cons_of_mem _ e, e'⟩)
      rcases hx with hx | ⟨hx, hx'⟩
      · exact ih p x fuel hp hf hl' hlaw' (Or.inl hx) (by omega)
      · rcases List.mem_cons.mp hx with hx | hx
        · subst hx; exact absurd hx' hq
        · exact ih p x fuel hp hf hl' hlaw' (Or.inr ⟨hx, hx'⟩) (by omega)

/-! ## Ranks of the nodes of a sequence -/

theorem rankOf_header (hdr : Nat) (abs : List Nat) : rankOf hdr abs hdr = 0 := by
  simp [rankOf]

theorem rankOf_getElem {hdr : Nat} {abs : List Nat} (hnd : (hdr :: abs).Nodup) (k : Nat)
    (h : k < abs.length) : rankOf hdr abs abs[k] = k + 1 := by
  unfold rankOf
  have := List.indexOf_getElem hnd (k + 1) (by simp; omega)
  simp only [List.getElem_cons_succ] at this
  rw [this]
  push_cast
  rfl

theorem getElem?_of_rankOf {hdr : Nat} {abs : List Nat} {p : Nat} (hp : p ∈ abs)
    (hne : p ≠ hdr) : abs[(rankOf hdr abs p - 1).toNat]? = some p := by
  unfold rankOf
  rw [List.indexOf_cons_ne _ (fun e => hne e.symm)]
  have := List.getElem?_indexOf hp
  simpa using this

theorem rankOf_take_le {hdr : Nat} {abs : List Nat} (hnd : (hdr :: abs).Nodup) (n : Nat)
    {q : Nat} (hq : q ∈ abs.take n) : rankOf hdr abs q ≤ n := by
  obtain ⟨k, hk, rfl⟩ := List.mem_iff_getElem.mp hq
  have hk' : k < n ∧ k < abs.length := by
    simpa [List.length_take] using hk
  rw [List.getElem_take, rankOf_getElem hnd k hk'.2]
  omega

theorem rankOf_drop_gt {hdr : Nat} {abs : List Nat} (hnd : (hdr :: abs).Nodup) (n : Nat)
    {q : Nat} (hq : q ∈ abs.drop n) : (n : Int) < rankOf hdr abs q := by
  obtain ⟨k, hk, rfl⟩ := List.mem_iff_getElem.mp hq
  have hk' : n + k < abs.length := by
    simp only [List.length_drop] at hk
    omega
  rw [List.getElem_drop, rankOf_getElem hnd (n + k) hk']
  omega

theorem rankOf_pos_of_mem {hdr : Nat} {abs : List Nat} (hnd : (hdr :: abs).Nodup) {q : Nat}
    (hq : q ∈ abs) : 1 ≤ rankOf hdr abs q := by
  obtain ⟨k, hk, rfl⟩ := List.mem_iff_getElem.mp hq
  rw [rankOf_getElem hnd k hk]
  omega

/-- At level 0 every node has a link, so the last node with a level 0 is the last node. -/
theorem lastAt_zero_getLast? {H : Heap S} :
    ∀ (l : List Nat) (p : Nat), (∀ q ∈ l, 0 < hgt H q) →
      (p :: l).getLast? = some (lastAt H 0 p l) := by
  intro l
  induction l with
  | nil => intro p _; rfl
  | cons q l ih =>
    intro p hl
    rw [lastAt_cons_of_lt _ _ (hl q (List.mem_cons_self _ _)), List.getLast?_cons_cons]
    exact ih q (fun x hx => hl x (List.mem_cons_of_mem _ hx))

theorem Linked.nodup_cons {sl : skiplist S} {abs : List Nat} (hL : Linked sl abs) :
    (sl.header :: abs).Nodup :=
  List.nodup_cons.mpr ⟨hL.header_fresh, hL.nodup⟩

theorem Linked.hgt_pos {sl : skiplist S} {abs : List Nat} (hL : Linked sl abs) :
    ∀ q ∈ abs, 0 < hgt sl.heap q := fun q hq => by
  have := (hL.heights q hq).1
  omega

/-- The level-0 predecessor of rank `n + 1` is the node of rank `n`. -/
theorem Linked.rankOf_lastAt_zero {sl : skiplist S} {abs : List Nat} (hL : Linked sl abs)
    (n : Nat) (hn : n ≤ abs.length) :
    rankOf sl.header abs (lastAt sl.heap 0 sl.header (abs.take n)) = n := by
  have h1 := lastAt_zero_getLast? (H := sl.heap) (abs.take n) sl.header
    (fun q hq => hL.hgt_pos q (List.mem_of_mem_take hq))
  rw [List.getLast?_eq_getElem?] at h1
  simp only [List.length_cons, List.length_take, Nat.min_eq_left hn,
    Nat.add_sub_cancel] at h1
  have h2 : (sl.header :: abs.take n) = (sl.header :: abs).take (n + 1) := by simp
  rw [h2, List.getElem?_take_of_lt (by omega)] at h1
  have hlt : n < (sl.header :: abs).length := by simp; omega
  rw [List.getElem?_eq_getElem hlt] at h1
  simp only [Option.some.injEq] at h1
  unfold rankOf
  rw [← h1, List.indexOf_getElem hL.nodup_cons n hlt]

theorem Linked.rankOf_lastAt_le {sl : skiplist S} {abs : List Nat} (hL : Linked sl abs)
    (n j : Nat) : rankOf sl.header abs (lastAt sl.heap j sl.header (abs.take n)) ≤ n := by
  rcases lastAt_mem sl.heap j sl.header (abs.take n) with h | ⟨h, _⟩
  · rw [h, rankOf_header]; omega
  · exact rankOf_take_le hL.nodup_cons n h

/-- Invariant 2 for a well-linked list with correct spans, in terms of ranks. -/
theorem Linked.span_law {sl : skiplist S} {abs : List Nat} (hL : Linked sl abs) {j : Nat}
    (hS : SpanOK sl.heap j sl.header 0 abs) (hj : j < maxLevel) :
    ∀ y, (y = sl.header ∨ (y ∈ abs ∧ j < hgt sl.heap y)) → ∀ q, fwdOf sl.heap y j = some q →
      spanOf sl.heap y j = rankOf sl.header abs q - rankOf sl.header abs y := by
  refine span_law_pos sl.heap j (rankOf sl.header abs) abs sl.header 0 (hL.forward j hj) hS ?_
  intro k hk
  rw [rankOf_getElem hL.nodup_cons k hk, rankOf_header]
  ring

/-- The walk of `getByRank` or of the search of `RemoveRangeByRank` at one level, for a target
rank `t` that the first `n` nodes do not exceed and the others do. -/
theorem Linked.walk_to_rank {sl : skiplist S} {abs : List Nat} (hL : Linked sl abs) {j : Nat}
    (hS : SpanOK sl.heap j sl.header 0 abs) (hj : j < maxLevel) (t : Int) (n : Nat)
    (hA : ∀ q ∈ abs.take n, rankOf sl.header abs q ≤ t)
    (hB : ∀ q ∈ abs.drop n, t < rankOf sl.header abs q)
    (x : Nat) (hx : x = sl.header ∨ (x ∈ abs.take n ∧ j < hgt sl.heap x)) :
    getByRank.walk sl.heap j t (sl.heap.length + 1) x (rankOf sl.header abs x) =
      .ok (lastAt sl.heap j sl.header (abs.take n),
        rankOf sl.header abs (lastAt sl.heap j sl.header (abs.take n))) := by
  refine getByRank_walk_spec sl.heap j t (rankOf sl.header abs) (abs.drop n) hB (abs.take n)
    sl.header x _ (by rw [hL.header_levels]; exact hj) ?_ hA ?_ hx ?_
  · rw [List.take_append_drop]; exact hL.forward j hj
  · intro y hy
    refine hL.span_law hS hj y ?_
    rcases hy with e | ⟨e, e'⟩
    · exact Or.inl e
    · exact Or.inr ⟨List.mem_of_mem_take e, e'⟩
  · have := hL.length_le
    have : (abs.take n).length ≤ abs.length := by
      rw [List.length_take]; omega
    omega

section
variable [LinearOrder S]

/-- The outer loop of `getByRank` on a well-formed list returns the node of rank `r`. -/
theorem getByRank_levels_spec {sl : skiplist S} {abs : List Nat} (hW : WF sl abs) (r : Int)
    (h1 : 1 ≤ r) (h2 : r ≤ abs.length) :
    ∀ k, k ≤ sl.level →
      rankOf sl.header abs (lastAt sl.heap k sl.header (abs.take r.toNat)) < r →
      ∃ p, getByRank.levels sl.heap r k (lastAt sl.heap k sl.header (abs.take r.toNat))
          (rankOf sl.header abs (lastAt sl.heap k sl.header (abs.take r.toNat))) =
            .ok (some p) ∧ rankOf sl.header abs p = r ∧ p ∈ abs := by
  have hL := hW.linked
  have hn : r.toNat ≤ abs.length := by omega
  have hnr : (r.toNat : Int) = r := by omega
  intro k
  induction k with
  | zero =>
    intro _ hlt
    rw [hL.rankOf_lastAt_zero r.toNat hn] at hlt
    omega
  | succ k ih =>
    intro hk _
    have hk16 : k < maxLevel := by have := hL.level_le; omega
    have hx : lastAt sl.heap (k + 1) sl.header (abs.take r.toNat) = sl.header ∨
        (lastAt sl.heap (k + 1) sl.header (abs.take r.toNat) ∈ abs.take r.toNat ∧
          k < hgt sl.heap (lastAt sl.heap (k + 1) sl.header (abs.take r.toNat))) := by
      rcases lastAt_mem sl.heap (k + 1) sl.header (abs.take r.toNat) with h | ⟨h, h'⟩
      · exact Or.inl h
      · exact Or.inr ⟨h, by omega⟩
    have hw := hL.walk_to_rank (hW.spans k hk16) hk16 r r.toNat
      (fun q hq => by have := rankOf_take_le hL.nodup_cons r.toNat hq; omega)
      (fun q hq => by have := rankOf_drop_gt hL.nodup_cons r.toNat hq; omega)
      _ hx
    unfold getByRank.levels
    simp only [hw, bind_ok_eq]
    by_cases he : rankOf sl.header abs (lastAt sl.heap k sl.header (abs.take r.toNat)) = r
    · rw [if_pos he]
      refine ⟨_, rfl, he, ?_⟩
      rcases lastAt_mem sl.heap k sl.header (abs.take r.toNat) with h | ⟨h, _⟩
      · rw [h, rankOf_header] at he; omega
      · exact List.mem_of_mem_take h
    · rw [if_neg he]
      have := hL.rankOf_lastAt_le r.toNat k
      exact ih (by omega) (by omega)

end

/-- C7 (`getByRank` on a well-formed list).  For every skip list that satisfies the section-3
invariants, with level-0 sequence `abs` (the chain that `chain0` reads), and every rank `r`
with `1 ≤ r ≤ length`, `getByRank(r)` returns the node at 1-based position `r` of that chain. -/
theorem getByRank_wellformed [LinearOrder S] (sl : skiplist S) (abs : List Nat)
    (hW : WF sl abs) (r : Int) (h1 : 1 ≤ r) (h2 : r ≤ sl.length) :
    chain0 sl = .ok abs ∧
      ∃ p, abs[(r - 1).toNat]? = some p ∧ getByRank sl r = .ok (some p) := by
  have hL := hW.linked
  refine ⟨hL.chain0_eq, ?_⟩
  rw [hW.length_eq] at h2
  have htop : lastAt sl.heap sl.level sl.header (abs.take r.toNat) = sl.header :=
    lastAt_eq_self (fun q hq => (hL.heights q (List.mem_of_mem_take hq)).2)
  obtain ⟨p, hp1, hp2, hp3⟩ := getByRank_levels_spec hW r h1 h2 sl.level (le_refl _)
    (by rw [htop, rankOf_header]; omega)
  rw [htop, rankOf_header] at hp1
  refine ⟨p, ?_, hp1⟩
  have hne : p ≠ sl.header := fun e => hL.header_fresh (e ▸ hp3)
  have := @getElem?_of_rankOf sl.header abs p hp3 hne
  rw [hp2] at this
  exact this

/-! ## The search of `RemoveRangeByRank` -/

/-- Stopping before `start` is stopping at `start - 1`: the search of `RemoveRangeByRank` walks
as `getByRank` does for the rank `start - 1`. -/
theorem RemoveRangeByRank_walk_eq (H : Heap S) (level : Nat) (start : Int) :
    ∀ (fuel node : Nat) (i : Int),
      RemoveRangeByRank.walk H level start fuel node i =
        getByRank.walk H level (start - 1) fuel node i := by
  intro fuel
  induction fuel with
  | zero => intro node i; rfl
  | succ fuel ih =>
    intro node i
    unfold RemoveRangeByRank.walk getByRank.walk
    cases readLevel H node level with
    | error e => rfl
    | ok lv =>
      simp only [bind_ok_eq]
      cases lv.forward with
      | none => rfl
      | some f =>
        simp only
        by_cases h : i + lv.span < start
        · rw [if_pos h, if_pos (by omega), ih]
        · rw [if_neg h, if_neg (by omega)]

/-- The search of `RemoveRangeByRank` records at every level below the list's level the last
node of that level among the first `n` nodes, when those are the nodes of rank below `start`. -/
theorem RemoveRangeByRank_search_spec {sl : skiplist S} {abs : List Nat} (hL : Linked sl abs)
    (hS : ∀ i, i < maxLevel → SpanOK sl.heap i sl.header 0 abs) (start : Int) (n : Nat)
    (hA : ∀ q ∈ abs.take n, rankOf sl.header abs q ≤ start - 1)
    (hB : ∀ q ∈ abs.drop n, start - 1 < rankOf sl.header abs q) :
    ∀ k, k ≤ sl.level → ∀ (update : List (Option Nat)), update.length = maxLevel →
      ∃ update',
        RemoveRangeByRank.search sl.heap start k (lastAt sl.heap k sl.header (abs.take n))
            (rankOf sl.header abs (lastAt sl.heap k sl.header (abs.take n))) update =
          .ok (lastAt sl.heap 0 sl.header (abs.take n),
            rankOf sl.header abs (lastAt sl.heap 0 sl.header (abs.take n)), update') ∧
        update'.length = maxLevel ∧
        (∀ j, j < k → update'[j]? = some (some (lastAt sl.heap j sl.header (abs.take n)))) ∧
        (∀ j, k ≤ j → update'[j]? = update[j]?) := by
  intro k
  induction k with
  | zero =>
    intro _ update hu
    exact ⟨update, rfl, hu, fun j hj => absurd hj (by omega), fun _ _ => rfl⟩
  | succ k ih =>
    intro hk update hu
    have hk16 : k < maxLevel := by have := hL.level_le; omega
    have hx : lastAt sl.heap (k + 1) sl.header (abs.take n) = sl.header ∨
        (lastAt sl.heap (k + 1) sl.header (abs.take n) ∈ abs.take n ∧
          k < hgt sl.heap (lastAt sl.heap (k + 1) sl.header (abs.take n))) := by
      rcases lastAt_mem sl.heap (k + 1) sl.header (abs.take n) with h | ⟨h, h'⟩
      · exact Or.inl h
      · exact Or.inr ⟨h, by omega⟩
    have hw := hL.walk_to_rank (hS k hk16) hk16 (start - 1) n hA hB _ hx
    have hs : setIdx update k (some (lastAt sl.heap k sl.header (abs.take n))) =
        .ok (update.set k (some (lastAt sl.heap k sl.header (abs.take n)))) :=
      setIdx_eq_ok.mpr ⟨by rw [hu]; exact hk16, rfl⟩
    obtain ⟨update', h1, h2, h3, h4⟩ := ih (by omega)
      (update.set k (some (lastAt sl.heap k sl.header (abs.take n))))
      (by rw [List.length_set, hu])
    refine ⟨update', ?_, h2, ?_, ?_⟩
    · unfold RemoveRangeByRank.search
      simp only [RemoveRangeByRank_walk_eq, hw, bind_ok_eq, hs]
      exact h1
    · intro j hj
      by_cases hjk : j = k
      · subst hjk
        rw [h4 j (le_refl _), List.getElem?_set_self (by rw [hu]; exact hk16)]
      · exact h3 j (by omega)
    · intro j hj
      rw [h4 j (by omega), List.getElem?_set_ne (by omega)]

/-! ## removeNode -/

/-- One iteration of the first loop of `removeNode`: only the level-`i` link of the recorded
predecessor `u` changes. -/
theorem removeNode_unlink_step (H : Heap S) (node u i : Nat) (hu : i < hgt H u)
    (hne : u ≠ node) (hn : fwdOf H u i = some node → i < hgt H node) :
    ∃ H',
      (if (Level.mk (fwdOf H u i) (spanOf H u i)).forward = some node then do
          let nl ← readLevel H node i
          let H ← writeLevel H u i (fun l => { l with span := l.span + (nl.span - 1) })
          let nl ← readLevel H node i
          writeLevel H u i (fun l => { l with forward := nl.forward })
        else writeLevel H u i (fun l => { l with span := l.span - 1 })) = .ok H' ∧
      H'.length = H.length ∧
      (∀ q, hgt H' q = hgt H q ∧ elemOf H' q = elemOf H q ∧ backOf H' q = backOf H q) ∧
      (∀ q j, fwdOf H' q j =
        if j = i ∧ q = u ∧ fwdOf H u i = some node then fwdOf H node i else fwdOf H q j) ∧
      (∀ q j, spanOf H' q j =
        if j = i ∧ q = u then
          (if fwdOf H u i = some node then spanOf H u i + (spanOf H node i - 1)
            else spanOf H u i - 1)
        else spanOf H q j) := by
  by_cases hf : fwdOf H u i = some node
  · have hni := hn hf
    have hne' : ¬ node = u := fun e => hne e.symm
    refine ⟨setLevel (setLevel H u i (fun l =>
      { l with span := l.span + (spanOf H node i - 1) })) u i
      (fun l => { l with forward := fwdOf H node i }), ?_, ?_, ?_, ?_, ?_⟩
    · simp only [hf, if_true]
      rw [readLevel_of_lt hni]
      simp only [bind_ok_eq]
      rw [writeLevel_of_lt _ hu]
      simp only [bind_ok_eq]
      rw [readLevel_of_lt (by rw [hgt_setLevel]; exact hni)]
      simp only [bind_ok_eq]
      rw [writeLevel_of_lt _ (by rw [hgt_setLevel]; exact hu)]
      simp only [fwdOf_setLevel, hne', false_and, if_false]
    · simp
    · intro q; simp
    · intro q j
      simp only [fwdOf_setLevel, hgt_setLevel]
      by_cases hc : q = u ∧ j = i
      · obtain ⟨rfl, rfl⟩ := hc
        simp [hu, hf]
      · have h1 : ¬ (q = u ∧ j = i ∧ i < hgt H u) := fun h => hc ⟨h.1, h.2.1⟩
        have h2 : ¬ (j = i ∧ q = u ∧ fwdOf H u i = some node) := fun h => hc ⟨h.2.1, h.1⟩
        simp only [h1, h2, if_false]
    · intro q j
      simp only [spanOf_setLevel, hgt_setLevel]
      by_cases hc : q = u ∧ j = i
      · obtain ⟨rfl, rfl⟩ := hc
        simp [hu, hf]
      · have h1 : ¬ (q = u ∧ j = i ∧ i < hgt H u) := fun h => hc ⟨h.1, h.2.1⟩
        have h2 : ¬ (j = i ∧ q = u) := fun h => hc ⟨h.2, h.1⟩
        simp only [h1, h2, if_false]
  · refine ⟨setLevel H u i (fun l => { l with span := l.span - 1 }), ?_, ?_, ?_, ?_, ?_⟩
    · simp only [hf, if_false]
      exact writeLevel_of_lt _ hu
    · simp
    · intro q; simp
    · intro q j
      simp only [fwdOf_setLevel]
      by_cases hc : q = u ∧ j = i
      · obtain ⟨rfl, rfl⟩ := hc
        simp [hu, hf]
      · have h1 : ¬ (q = u ∧ j = i ∧ i < hgt H u) := fun h => hc ⟨h.1, h.2.1⟩
        have h2 : ¬ (j = i ∧ q = u ∧ fwdOf H u i = some node) := fun h => hc ⟨h.2.1, h.1⟩
        simp only [h1, h2, if_false]
    · intro q j
      simp only [spanOf_setLevel]
      by_cases hc : q = u ∧ j = i
      · obtain ⟨rfl, rfl⟩ := hc
        simp [hu, hf]
      · have h1 : ¬ (q = u ∧ j = i ∧ i < hgt H u) := fun h => hc ⟨h.1, h.2.1⟩
        have h2 : ¬ (j = i ∧ q = u) := fun h => hc ⟨h.2, h.1⟩
        simp only [h1, h2, if_false]

/-- The first loop of `removeNode`: at each level it handles, the recorded predecessor takes
over the link of the node when it points to it, and counts one hop less otherwise. -/
theorem removeNode_unlink_spec (node : Nat) (update : List (Option Nat)) (u : Nat → Nat) :
    ∀ (n i : Nat) (H : Heap S),
      (∀ j, i ≤ j → j < i + n → update[j]? = some (some (u j)) ∧ j < hgt H (u j) ∧
        u j ≠ node ∧ (fwdOf H (u j) j = some node → j < hgt H node)) →
      ∃ H', removeNode.unlink node update n i H = .ok H' ∧ H'.length = H.length ∧
        (∀ q, hgt H' q = hgt H q ∧ elemOf H' q = elemOf H q ∧ backOf H' q = backOf H q) ∧
        (∀ q j, fwdOf H' q j =
          if (i ≤ j ∧ j < i + n) ∧ q = u j ∧ fwdOf H (u j) j = some node then fwdOf H node j
          else fwdOf H q j) ∧
        (∀ q j, spanOf H' q j =
          if (i ≤ j ∧ j < i + n) ∧ q = u j then
            (if fwdOf H (u j) j = some node then spanOf H (u j) j + (spanOf H node j - 1)
              else spanOf H (u j) j - 1)
          else spanOf H q j) := by
  intro n
  induction n with
  | zero =>
    intro i H _
    refine ⟨H, rfl, rfl, fun _ => ⟨rfl, rfl, rfl⟩, fun q j => ?_, fun q j => ?_⟩
    · rw [if_neg (by omega)]
    · rw [if_neg (by omega)]
  | succ n ih =>
    intro i H hyp
    obtain ⟨hi1, hi2, hi3, hi4⟩ := hyp i (le_refl _) (by omega)
    obtain ⟨H1, e0, e1, e2, e3, e4⟩ := removeNode_unlink_step H node (u i) i hi2 hi3 hi4
    have hyp' : ∀ j, i + 1 ≤ j → j < i + 1 + n → update[j]? = some (some (u j)) ∧
        j < hgt H1 (u j) ∧ u j ≠ node ∧ (fwdOf H1 (u j) j = some node → j < hgt H1 node) := by
      intro j hj1 hj2
      obtain ⟨a, b, c, d⟩ := hyp j (by omega) (by omega)
      have hji : ¬ j = i := by omega
      refine ⟨a, by rw [(e2 _).1]; exact b, c, ?_⟩
      rw [e3, (e2 _).1]
      simp only [hji, false_and, if_false]
      exact d
    obtain ⟨H2, f0, f1, f2, f3, f4⟩ := ih (i + 1) H1 hyp'
    refine ⟨H2, ?_, f1.trans e1, fun q => ?_, fun q j => ?_, fun q j => ?_⟩
    · unfold removeNode.unlink
      have : (idx update i >>= ptr) = .ok (u i) := by
        rw [idx_eq_ok.mpr hi1]; rfl
      simp only [this, bind_ok_eq, readLevel_of_lt hi2]
      rw [e0]
      exact f0
    · exact ⟨(f2 q).1.trans (e2 q).1, (f2 q).2.1.trans (e2 q).2.1, (f2 q).2.2.trans (e2 q).2.2⟩
    · rw [f3, e3, e3, e3]
      by_cases hji : j = i
      · subst hji
        have h1 : ¬ (j + 1 ≤ j ∧ j < j + 1 + n) := by omega
        have h2 : (j ≤ j ∧ j < j + (n + 1)) := by omega
        simp only [h1, false_and, if_false, h2, true_and]
      · have h3 : (i + 1 ≤ j ∧ j < i + 1 + n) ↔ (i ≤ j ∧ j < i + (n + 1)) := by omega
        simp only [hji, false_and, if_false, h3]
    · rw [f4, e4, e3, e4, e4]
      by_cases hji : j = i
      · subst hji
        have h1 : ¬ (j + 1 ≤ j ∧ j < j + 1 + n) := by omega
        have h2 : (j ≤ j ∧ j < j + (n + 1)) := by omega
        simp only [h1, false_and, if_false, h2, true_and]
      · have h3 : (i + 1 ≤ j ∧ j < i + 1 + n) ↔ (i ≤ j ∧ j < i + (n + 1)) := by omega
        simp only [hji, false_and, if_false, h3]

/-- The last loop of `removeNode` stops at the highest level, above the first, at which the
header still has a link. -/
theorem removeNode_shrink_spec (H : Heap S) (header : Nat) :
    ∀ (level : Nat), 1 ≤ level → level ≤ hgt H header →
      ∃ level', removeNode.shrink H header level = .ok level' ∧ 1 ≤ level' ∧ level' ≤ level ∧
        (∀ j, level' ≤ j → j < level → fwdOf H header j = none) ∧
        (1 < level' → fwdOf H header (level' - 1) ≠ none) := by
  intro level
  induction level with
  | zero => intro h; omega
  | succ k ih =>
    intro _ hk
    cases k with
    | zero =>
      exact ⟨1, rfl, le_refl _, le_refl _, fun j h1 h2 => absurd h2 (by omega),
        fun h => absurd h (by omega)⟩
    | succ k =>
      unfold removeNode.shrink
      simp only [readLevel_of_lt (show k + 1 < hgt H header by omega), bind_ok_eq]
      cases hf : fwdOf H header (k + 1) with
      | none =>
        simp only
        obtain ⟨l', h1, h2, h3, h4, h5⟩ := ih (by omega) (by omega)
        refine ⟨l', h1, h2, by omega, fun j hj1 hj2 => ?_, h5⟩
        by_cases hjk : j = k + 1
        · rw [hjk]; exact hf
        · exact h4 j hj1 (by omega)
      | some x =>
        simp only
        refine ⟨k + 2, rfl, by omega, le_refl _, fun j h1 h2 => absurd h2 (by omega), fun _ => ?_⟩
        simp only [Nat.add_sub_cancel, show k + 2 - 1 = k + 1 by omega, hf]
        exact fun h => by simp at h

/-! ## Removing a node from a well-linked sequence -/

/-- In a well-linked sequence, the last level-`j` node before `q` points to `q` when `q` has a
level `j`. -/
theorem FwdOK.fwd_lastAt {H : Heap S} {j q : Nat} {C : List Nat} (hq : j < hgt H q) :
    ∀ (A : List Nat) (p : Nat), FwdOK H j p (A ++ q :: C) →
      fwdOf H (lastAt H j p A) j = some q := by
  intro A
  induction A with
  | nil =>
    intro p hf
    simp only [List.nil_append] at hf
    rw [FwdOK_cons_of_lt _ _ hq] at hf
    exact hf.1
  | cons x A ih =>
    intro p hf
    simp only [List.cons_append] at hf
    by_cases hx : j < hgt H x
    · rw [FwdOK_cons_of_lt _ _ hx] at hf
      rw [lastAt_cons_of_lt _ _ hx]
      exact ih x hf.2
    · rw [FwdOK_cons_of_not_lt _ _ hx] at hf
      rw [lastAt_cons_of_not_lt _ _ hx]
      exact ih p hf

/-- When `q` has no level `j`, the last level-`j` node before it does not point to it. -/
theorem FwdOK.fwd_lastAt_ne {H : Heap S} {j q : Nat} {C : List Nat} (hq : ¬ j < hgt H q) :
    ∀ (A : List Nat) (p : Nat), FwdOK H j p (A ++ q :: C) →
      fwdOf H (lastAt H j p A) j ≠ some q := by
  intro A
  induction A with
  | nil =>
    intro p hf
    simp only [List.nil_append] at hf
    rw [FwdOK_cons_of_not_lt _ _ hq] at hf
    rw [lastAt_nil]
    rcases hf.head with h | ⟨x, _, h, hx⟩
    · rw [h]; simp
    · rw [h]
      intro e
      simp only [Option.some.injEq] at e
      exact hq (e ▸ hx)
  | cons x A ih =>
    intro p hf
    simp only [List.cons_append] at hf
    by_cases hx : j < hgt H x
    · rw [FwdOK_cons_of_lt _ _ hx] at hf
      rw [lastAt_cons_of_lt _ _ hx]
      exact ih x hf.2
    · rw [FwdOK_cons_of_not_lt _ _ hx] at hf
      rw [lastAt_cons_of_not_lt _ _ hx]
      exact ih p hf

/-- A nil link at the start of a well-linked sequence: no node of it has that level. -/
theorem FwdOK.low_of_none {H : Heap S} {j : Nat} :
    ∀ (l : List Nat) (p : Nat), FwdOK H j p l → fwdOf H p j = none → ∀ x ∈ l, hgt H x ≤ j := by
  intro l
  induction l with
  | nil => intro p _ _ x hx; simp at hx
  | cons y l ih =>
    intro p hf hn x hx
    by_cases hy : j < hgt H y
    · rw [FwdOK_cons_of_lt _ _ hy] at hf
      rw [hf.1] at hn
      exact absurd hn (by simp)
    · rw [FwdOK_cons_of_not_lt _ _ hy] at hf
      rcases List.mem_cons.mp hx with e | e
      · rw [e]; omega
      · exact ih p hf hn x e

theorem FwdOK.of_all_low {H : Heap S} {j p : Nat} {l : List Nat} (hl : ∀ x ∈ l, hgt H x ≤ j)
    (hp : fwdOf H p j = none) : FwdOK H j p l := by
  induction l with
  | nil => exact hp
  | cons y l ih =>
    have hy : ¬ j < hgt H y := by
      have := hl y (List.mem_cons_self _ _)
      omega
    rw [FwdOK_cons_of_not_lt _ _ hy]
    exact ih (fun x hx => hl x (List.mem_cons_of_mem _ hx))

/-- At level 0 the link of a node is the next node of the sequence. -/
theorem FwdOK.fwd_zero {H : Heap S} {p : Nat} {l : List Nat} (hf : FwdOK H 0 p l)
    (hl : ∀ x ∈ l, 0 < hgt H x) : fwdOf H p 0 = l.head? := by
  cases l with
  | nil => exact hf
  | cons y l =>
    rw [FwdOK_cons_of_lt _ _ (hl y (List.mem_cons_self _ _))] at hf
    exact hf.1

/-- The links that follow a node of a well-linked sequence are well linked from it. -/
theorem FwdOK.suffix {H : Heap S} {j q : Nat} {C : List Nat} (hq : j < hgt H q) :
    ∀ (A : List Nat) (p : Nat), FwdOK H j p (A ++ q :: C) → FwdOK H j q C := by
  intro A
  induction A with
  | nil =>
    intro p hf
    simp only [List.nil_append] at hf
    rw [FwdOK_cons_of_lt _ _ hq] at hf
    exact hf.2
  | cons x A ih =>
    intro p hf
    simp only [List.cons_append] at hf
    by_cases hx : j < hgt H x
    · rw [FwdOK_cons_of_lt _ _ hx] at hf
      exact ih x hf.2
    · rw [FwdOK_cons_of_not_lt _ _ hx] at hf
      exact ih p hf

/-- Unlinking `q` at level `j`: its predecessor takes over its link when `q` has that level. -/
theorem FwdOK.remove_node {H H' : Heap S} {j q : Nat} (C : List Nat) :
    ∀ (A : List Nat) (p : Nat),
      FwdOK H j p (A ++ q :: C) → (p :: (A ++ q :: C)).Nodup →
      (∀ x ∈ p :: (A ++ C), hgt H' x = hgt H x) →
      (∀ x ∈ p :: (A ++ C), x ≠ lastAt H j p A → fwdOf H' x j = fwdOf H x j) →
      (j < hgt H q → fwdOf H' (lastAt H j p A) j = fwdOf H q j) →
      (¬ j < hgt H q → fwdOf H' (lastAt H j p A) j = fwdOf H (lastAt H j p A) j) →
      FwdOK H' j p (A ++ C) := by
  intro A
  induction A with
  | nil =>
    intro p hf hnd hh hfr h1 h2
    simp only [List.nil_append, lastAt_nil] at *
    have hpC : p ∉ C := fun e => (List.nodup_cons.mp hnd).1 (List.mem_cons_of_mem _ e)
    have hC : ∀ x ∈ C, fwdOf H' x j = fwdOf H x j ∧ hgt H' x = hgt H x := fun x hx =>
      ⟨hfr x (List.mem_cons_of_mem _ hx) (fun e => hpC (e ▸ hx)),
        hh x (List.mem_cons_of_mem _ hx)⟩
    by_cases hq : j < hgt H q
    · rw [FwdOK_cons_of_lt _ _ hq] at hf
      exact hf.2.congr (h1 hq) hC
    · rw [FwdOK_cons_of_not_lt _ _ hq] at hf
      exact hf.congr (h2 hq) hC
  | cons x A ih =>
    intro p hf hnd hh hfr h1 h2
    simp only [List.cons_append] at *
    have hx' := hh x (List.mem_cons_of_mem _ (List.mem_cons_self _ _))
    have hnd' : (x :: (A ++ q :: C)).Nodup := (List.nodup_cons.mp hnd).2
    have hpn : p ∉ x :: (A ++ q :: C) := (List.nodup_cons.mp hnd).1
    by_cases hx : j < hgt H x
    · rw [FwdOK_cons_of_lt _ _ hx] at hf
      rw [lastAt_cons_of_lt _ _ hx] at hfr h1 h2
      rw [FwdOK_cons_of_lt _ _ (by rw [hx']; exact hx)]
      have hpu : p ≠ lastAt H j x A := by
        rcases lastAt_mem H j x A with e | ⟨e, _⟩
        · rw [e]; exact fun e' => hpn (e' ▸ List.mem_cons_self _ _)
        · exact fun e' => hpn (e' ▸ List.mem_cons_of_mem _ (List.mem_append_left _ e))
      refine ⟨(hfr p (List.mem_cons_self _ _) hpu).trans hf.1, ?_⟩
      exact ih x hf.2 hnd' (fun y hy => hh y (List.mem_cons_of_mem _ hy))
        (fun y hy => hfr y (List.mem_cons_of_mem _ hy)) h1 h2
    · rw [FwdOK_cons_of_not_lt _ _ hx] at hf
      rw [lastAt_cons_of_not_lt _ _ hx] at hfr h1 h2
      rw [FwdOK_cons_of_not_lt _ _ (by rw [hx']; exact hx)]
      have hsub : ∀ y, y ∈ p :: (A ++ C) → y ∈ p :: x :: (A ++ C) := fun y hy => by
        rcases List.mem_cons.mp hy with e | e
        · exact e ▸ List.mem_cons_self _ _
        · exact List.mem_cons_of_mem _ (List.mem_cons_of_mem _ e)
      have hnd2 : (p :: (A ++ q :: C)).Nodup :=
        List.nodup_cons.mpr ⟨fun e => hpn (List.mem_cons_of_mem _ e),
          (List.nodup_cons.mp hnd').2⟩
      exact ih p hf hnd2 (fun y hy => hh y (hsub _ hy)) (fun y hy => hfr y (hsub _ hy)) h1 h2

/-- Spans depend only on the spans and heights of the nodes involved; a change of the span of
the start by `d` shifts the count of hops by `d`. -/
theorem SpanOK.shift {H H' : Heap S} {j : Nat} :
    ∀ (l : List Nat) (p p' : Nat) (c d : Int), SpanOK H j p c l →
      spanOf H' p' j = spanOf H p j + d →
      (∀ x ∈ l, spanOf H' x j = spanOf H x j ∧ hgt H' x = hgt H x) →
      SpanOK H' j p' (c + d) l := by
  intro l
  induction l with
  | nil => intro p p' c d _ _ _; exact SpanOK_nil _ _ _ _
  | cons x l ih =>
    intro p p' c d h hp hl
    have hx := hl x (List.mem_cons_self _ _)
    have hl' : ∀ y ∈ l, spanOf H' y j = spanOf H y j ∧ hgt H' y = hgt H y :=
      fun y hy => hl y (List.mem_cons_of_mem _ hy)
    by_cases hlt : j < hgt H x
    · have hlt' : j < hgt H' x := by rw [hx.2]; exact hlt
      rw [SpanOK_cons_of_lt _ _ _ hlt] at h
      rw [SpanOK_cons_of_lt _ _ _ hlt']
      refine ⟨by rw [hp, h.1]; ring, ?_⟩
      have := ih x x 0 0 h.2 (by rw [hx.1]; ring) hl'
      simpa using this
    · have hlt' : ¬ j < hgt H' x := by rw [hx.2]; exact hlt
      rw [SpanOK_cons_of_not_lt _ _ _ hlt] at h
      rw [SpanOK_cons_of_not_lt _ _ _ hlt']
      have := ih p p' (c + 1) d h hp hl'
      rw [show c + d + 1 = c + 1 + d by ring]
      exact this

/-- Unlinking `q` at level `j`: its predecessor adds the span of `q` less one when `q` has that
level, and counts one hop less otherwise. -/
theorem SpanOK.remove_span {H H' : Heap S} {j q : Nat} (C : List Nat) :
    ∀ (A : List Nat) (p : Nat) (c : Int),
      SpanOK H j p c (A ++ q :: C) → (p :: (A ++ q :: C)).Nodup →
      (∀ x ∈ p :: (A ++ C), hgt H' x = hgt H x) →
      (∀ x ∈ p :: (A ++ C), x ≠ lastAt H j p A → spanOf H' x j = spanOf H x j) →
      (j < hgt H q →
        spanOf H' (lastAt H j p A) j = spanOf H (lastAt H j p A) j + (spanOf H q j - 1)) →
      (¬ j < hgt H q →
        spanOf H' (lastAt H j p A) j = spanOf H (lastAt H j p A) j - 1) →
      SpanOK H' j p c (A ++ C) := by
  intro A
  induction A with
  | nil =>
    intro p c hs hnd hh hfr h1 h2
    simp only [List.nil_append, lastAt_nil] at *
    have hpC : p ∉ C := fun e => (List.nodup_cons.mp hnd).1 (List.mem_cons_of_mem _ e)
    have hC : ∀ x ∈ C, spanOf H' x j = spanOf H x j ∧ hgt H' x = hgt H x := fun x hx =>
      ⟨hfr x (List.mem_cons_of_mem _ hx) (fun e => hpC (e ▸ hx)),
        hh x (List.mem_cons_of_mem _ hx)⟩
    by_cases hq : j < hgt H q
    · rw [SpanOK_cons_of_lt _ _ _ hq] at hs
      have := SpanOK.shift C q p 0 c hs.2 (by rw [h1 hq, hs.1]; ring) hC
      simpa using this
    · rw [SpanOK_cons_of_not_lt _ _ _ hq] at hs
      have := SpanOK.shift C p p (c + 1) (-1) hs (by rw [h2 hq]; ring) hC
      simpa using this
  | cons x A ih =>
    intro p c hs hnd hh hfr h1 h2
    simp only [List.cons_append] at *
    have hx' := hh x (List.mem_cons_of_mem _ (List.mem_cons_self _ _))
    have hnd' : (x :: (A ++ q :: C)).Nodup := (List.nodup_cons.mp hnd).2
    have hpn : p ∉ x :: (A ++ q :: C) := (List.nodup_cons.mp hnd).1
    by_cases hx : j < hgt H x
    · rw [SpanOK_cons_of_lt _ _ _ hx] at hs
      rw [lastAt_cons_of_lt _ _ hx] at hfr h1 h2
      rw [SpanOK_cons_of_lt _ _ _ (by rw [hx']; exact hx)]
      have hpu : p ≠ lastAt H j x A := by
        rcases lastAt_mem H j x A with e | ⟨e, _⟩
        · rw [e]; exact fun e' => hpn (e' ▸ List.mem_cons_self _ _)
        · exact fun e' => hpn (e' ▸ List.mem_cons_of_mem _ (List.mem_append_left _ e))
      refine ⟨(hfr p (List.mem_cons_self _ _) hpu).trans hs.1, ?_⟩
      exact ih x 0 hs.2 hnd' (fun y hy => hh y (List.mem_cons_of_mem _ hy))
        (fun y hy => hfr y (List.mem_cons_of_mem _ hy)) h1 h2
    · rw [SpanOK_cons_of_not_lt _ _ _ hx] at hs
      rw [lastAt_cons_of_not_lt _ _ hx] at hfr h1 h2
      rw [SpanOK_cons_of_not_lt _ _ _ (by rw [hx']; exact hx)]
      have hsub : ∀ y, y ∈ p :: (A ++ C) → y ∈ p :: x :: (A ++ C) := fun y hy => by
        rcases List.mem_cons.mp hy with e | e
        · exact e ▸ List.mem_cons_self _ _
        · exact List.mem_cons_of_mem _ (List.mem_cons_of_mem _ e)
      have hnd2 : (p :: (A ++ q :: C)).Nodup :=
        List.nodup_cons.mpr ⟨fun e => hpn (List.mem_cons_of_mem _ e),
          (List.nodup_cons.mp hnd').2⟩
      exact ih p (c + 1) hs hnd2 (fun y hy => hh y (hsub _ hy))
        (fun y hy => hfr y (hsub _ hy)) h1 h2

/-! ### Backward links -/

theorem BackOK_nil (H : Heap S) (prev : Option Nat) : BackOK H prev [] := trivial

theorem BackOK_cons (H : Heap S) (prev : Option Nat) (q : Nat) (l : List Nat) :
    BackOK H prev (q :: l) ↔ backOf H q = prev ∧ BackOK H (some q) l := Iff.rfl

theorem BackOK.same_back {H H' : Heap S} {prev : Option Nat} {l : List Nat} (h : BackOK H prev l)
    (hl : ∀ x ∈ l, backOf H' x = backOf H x) : BackOK H' prev l := by
  induction l generalizing prev with
  | nil => exact BackOK_nil _ _
  | cons x l ih =>
    rw [BackOK_cons] at h ⊢
    exact ⟨(hl x (List.mem_cons_self _ _)).trans h.1,
      ih h.2 (fun y hy => hl y (List.mem_cons_of_mem _ hy))⟩

/-- The backward link of a node of a well-formed sequence is the last node before it. -/
theorem BackOK.back_eq {H : Heap S} {q : Nat} {C : List Nat} :
    ∀ (A : List Nat) (prev : Option Nat), BackOK H prev (A ++ q :: C) →
      backOf H q = if A = [] then prev else A.getLast? := by
  intro A
  induction A with
  | nil =>
    intro prev h
    simp only [List.nil_append] at h
    rw [BackOK_cons] at h
    simpa using h.1
  | cons x A ih =>
    intro prev h
    simp only [List.cons_append] at h
    rw [BackOK_cons] at h
    rw [ih (some x) h.2]
    cases A with
    | nil => simp
    | cons y A => simp [List.getLast?_cons_cons]

/-- Unlinking `q`: its successor, when there is one, takes over its backward link. -/
theorem BackOK.remove_back {H H' : Heap S} {q : Nat} (C : List Nat) :
    ∀ (A : List Nat) (prev : Option Nat),
      BackOK H prev (A ++ q :: C) → (A ++ q :: C).Nodup →
      (∀ x ∈ A ++ C, some x ≠ C.head? → backOf H' x = backOf H x) →
      (∀ x, C.head? = some x → backOf H' x = backOf H q) →
      BackOK H' prev (A ++ C) := by
  intro A
  induction A with
  | nil =>
    intro prev h hnd hfr hhd
    simp only [List.nil_append] at *
    rw [BackOK_cons] at h
    cases C with
    | nil => exact BackOK_nil _ _
    | cons y C =>
      rw [BackOK_cons] at h ⊢
      have hy : y ∉ C := by
        have := (List.nodup_cons.mp hnd).2
        exact (List.nodup_cons.mp this).1
      refine ⟨(hhd y rfl).trans h.1, h.2.2.same_back (fun x hx => ?_)⟩
      refine hfr x (List.mem_cons_of_mem _ hx) ?_
      simp only [List.head?_cons, ne_eq, Option.some.injEq]
      exact fun e => hy (e ▸ hx)
  | cons x A ih =>
    intro prev h hnd hfr hhd
    simp only [List.cons_append] at *
    rw [BackOK_cons] at h ⊢
    have hxC : x ∉ C := fun e => (List.nodup_cons.mp hnd).1
      (List.mem_append_right _ (List.mem_cons_of_mem _ e))
    refine ⟨(hfr x (List.mem_cons_self _ _) ?_).trans h.1,
      ih (some x) h.2 (List.nodup_cons.mp hnd).2
        (fun y hy => hfr y (List.mem_cons_of_mem _ hy)) hhd⟩
    intro e
    exact hxC (List.mem_of_mem_head? e.symm)

theorem SpanOK.of_low {H : Heap S} {j p : Nat} {c : Int} {l : List Nat}
    (hl : ∀ x ∈ l, hgt H x ≤ j) : SpanOK H j p c l := by
  induction l generalizing c with
  | nil => exact SpanOK_nil _ _ _ _
  | cons y l ih =>
    have hy : ¬ j < hgt H y := by
      have := hl y (List.mem_cons_self _ _)
      omega
    rw [SpanOK_cons_of_not_lt _ _ _ hy]
    exact ih (fun x hx => hl x (List.mem_cons_of_mem _ hx))

theorem backOf_of_deref {H : Heap S} {q : Nat} {n : Node S} (h : deref H q = .ok n) :
    n.backward = backOf H q := by
  have := deref_eq_ok.mp h
  simp [backOf, this]

theorem deref_of_lt {H : Heap S} {q : Nat} (h : q < H.length) : ∃ n, deref H q = .ok n :=
  ⟨H[q], deref_eq_ok.mpr (List.getElem?_eq_getElem h)⟩

theorem getLast?_append_cons_nil (A : List Nat) (q : Nat) :
    (A ++ [q]).getLast? = some q := by simp

section
variable [LinearOrder S]

/-- `removeNode` on a well-formed list, for a node `q` of the list and the predecessors of `q`
recorded in `update`: the call completes and leaves a well-formed list without `q`; no node
changes height or element. -/
theorem removeNode_spec (sl : skiplist S) (A C : List Nat) (q : Nat)
    (update : List (Option Nat)) (hW : WF sl (A ++ q :: C))
    (hu : ∀ j, j < sl.level → update[j]? = some (some (lastAt sl.heap j sl.header A))) :
    ∃ sl', removeNode sl q update = .ok sl' ∧ WF sl' (A ++ C) ∧
      sl'.heap.length = sl.heap.length ∧ sl'.header = sl.header ∧ sl'.level ≤ sl.level ∧
      (∀ x, hgt sl'.heap x = hgt sl.heap x ∧ elemOf sl'.heap x = elemOf sl.heap x) := by
  have hL := hW.linked
  have hnd := hL.nodup_cons
  have hqm : q ∈ A ++ q :: C := List.mem_append_right _ (List.mem_cons_self _ _)
  have hqh := hL.heights q hqm
  have hsubAC : ∀ x, x ∈ A ++ C → x ∈ A ++ q :: C := fun x hx => by
    rcases List.mem_append.mp hx with e | e
    · exact List.mem_append_left _ e
    · exact List.mem_append_right _ (List.mem_cons_of_mem _ e)
  have hqA : q ∉ A := by
    have := hL.nodup
    rw [List.nodup_append] at this
    exact fun e => this.2.2 e (List.mem_cons_self _ _)
  have hqC : q ∉ C := by
    have := hL.nodup
    rw [List.nodup_append] at this
    exact (List.nodup_cons.mp this.2.1).1
  have hqhdr : q ≠ sl.header := fun e => hL.header_fresh (e ▸ hqm)
  have hune : ∀ j, lastAt sl.heap j sl.header A ≠ q := fun j => by
    rcases lastAt_mem sl.heap j sl.header A with e | ⟨e, _⟩
    · rw [e]; exact fun e' => hqhdr e'.symm
    · exact fun e' => hqA (e' ▸ e)
  have huh : ∀ j, j < maxLevel → j < hgt sl.heap (lastAt sl.heap j sl.header A) := fun j hj => by
    rcases lastAt_mem sl.heap j sl.header A with e | ⟨_, e⟩
    · rw [e, hL.header_levels]; exact hj
    · exact e
  have hfq : ∀ j, j < maxLevel → (fwdOf sl.heap (lastAt sl.heap j sl.header A) j = some q ↔
      j < hgt sl.heap q) := fun j hj => by
    constructor
    · intro h
      by_contra hc
      exact FwdOK.fwd_lastAt_ne hc A sl.header (hL.forward j hj) h
    · intro h
      exact FwdOK.fwd_lastAt h A sl.header (hL.forward j hj)
  -- the first loop
  obtain ⟨H1, e0, e1, e2, e3, e4⟩ := removeNode_unlink_spec q update
    (fun j => lastAt sl.heap j sl.header A) sl.level 0 sl.heap
    (fun j _ hj => ⟨hu j (by omega), huh j (by have := hL.level_le; omega), hune j,
      fun h => (hfq j (by have := hL.level_le; omega)).mp h⟩)
  simp only [Nat.zero_le, Nat.zero_add, true_and] at e3 e4
  -- the successor of the node
  have hfC : fwdOf H1 q 0 = C.head? := by
    rw [e3, if_neg (fun h => hune 0 h.2.1.symm)]
    exact (FwdOK.suffix (by omega) A sl.header (hL.forward 0 (by decide))).fwd_zero
      (fun x hx => hL.hgt_pos x (List.mem_append_right _ (List.mem_cons_of_mem _ hx)))
  have hq1 : 0 < hgt H1 q := by rw [(e2 q).1]; omega
  obtain ⟨n, hn⟩ := deref_of_lt (hgt_pos_iff hq1)
  have hnb : n.backward = backOf sl.heap q := by
    rw [backOf_of_deref hn, (e2 q).2.2]
  -- the backward chain and the tail
  obtain ⟨H2, tail, hbt, hH2, htail⟩ : ∃ H2 tail,
      removeNode.relink H1 sl.tail C.head? n.backward = .ok (H2, tail) ∧
      H2 = (match C.head? with
        | some f => setBackward H1 f (backOf sl.heap q)
        | none => H1) ∧
      tail = (match C.head? with
        | some _ => sl.tail
        | none => backOf sl.heap q) := by
    cases hC : C.head? with
    | none => exact ⟨H1, n.backward, rfl, rfl, hnb⟩
    | some f =>
      have hf : f ∈ A ++ q :: C :=
        List.mem_append_right _ (List.mem_cons_of_mem _ (List.mem_of_mem_head? hC))
      have hfl : f < H1.length := by rw [e1]; exact hL.lt_length f hf
      refine ⟨setBackward H1 f (backOf sl.heap q), sl.tail, ?_, rfl, rfl⟩
      unfold removeNode.relink
      simp only
      rw [writeBackward_eq_ok.mpr ⟨hfl, rfl⟩, hnb]
      rfl
  have hsame2 : H2.length = sl.heap.length ∧
      ∀ x, hgt H2 x = hgt sl.heap x ∧ elemOf H2 x = elemOf sl.heap x ∧
        (∀ j, fwdOf H2 x j = fwdOf H1 x j) ∧ (∀ j, spanOf H2 x j = spanOf H1 x j) := by
    rw [hH2]
    cases C.head? with
    | none => exact ⟨e1, fun x => ⟨(e2 x).1, (e2 x).2.1, fun _ => rfl, fun _ => rfl⟩⟩
    | some f =>
      simp only
      refine ⟨by rw [length_setBackward, e1], fun x => ⟨?_, ?_, fun j => ?_, fun j => ?_⟩⟩
      · rw [hgt_setBackward, (e2 x).1]
      · rw [elemOf_setBackward, (e2 x).2.1]
      · rw [fwdOf_setBackward]
      · rw [spanOf_setBackward]
  have hback2 : ∀ x, backOf H2 x =
      if C.head? = some x then backOf sl.heap q else backOf sl.heap x := by
    intro x
    rw [hH2]
    cases hC : C.head? with
    | none => simp [(e2 x).2.2]
    | some f =>
      have hf : f ∈ A ++ q :: C :=
        List.mem_append_right _ (List.mem_cons_of_mem _ (List.mem_of_mem_head? hC))
      have hfl : f < H1.length := by rw [e1]; exact hL.lt_length f hf
      simp only [backOf_setBackward, hfl, and_true, Option.some.injEq, (e2 x).2.2]
      by_cases hxf : x = f
      · simp [hxf]
      · have : ¬ f = x := fun e => hxf e.symm
        simp [hxf, this]
  -- the last loop
  obtain ⟨level', s0, s1, s2, s3, s4⟩ := removeNode_shrink_spec H2 sl.header sl.level
    hL.level_pos (by rw [(hsame2.2 _).1, hL.header_levels]; exact hL.level_le)
  -- the links of the list without the node
  have hfwd : ∀ j, j < maxLevel → FwdOK H2 j sl.header (A ++ C) := by
    intro j hj
    refine FwdOK.remove_node C A sl.header (hL.forward j hj) hnd
      (fun x _ => (hsame2.2 x).1) ?_ ?_ ?_
    · intro x _ hx
      rw [(hsame2.2 x).2.2.1, e3, if_neg (fun h => hx h.2.1)]
    · intro hq
      rw [(hsame2.2 _).2.2.1, e3, if_pos ⟨by omega, rfl, (hfq j hj).mpr hq⟩]
    · intro hq
      rw [(hsame2.2 _).2.2.1, e3, if_neg (fun h => hq ((hfq j hj).mp h.2.2))]
  have hlow : ∀ x ∈ A ++ C, hgt H2 x ≤ level' := by
    intro x hx
    have h1 := (hL.heights x (hsubAC x hx)).2
    rw [(hsame2.2 x).1]
    by_cases hlt : level' < sl.level
    · have hn := s3 level' (le_refl _) hlt
      have := FwdOK.low_of_none (A ++ C) sl.header
        (hfwd level' (by have := hL.level_le; omega)) hn x hx
      rw [(hsame2.2 x).1] at this
      exact this
    · omega
  refine ⟨skiplist.mk H2 sl.header tail (sl.length - 1) level', ?_, ?_, hsame2.1, rfl, s2,
    fun x => ⟨(hsame2.2 x).1, (hsame2.2 x).2.1⟩⟩
  · unfold removeNode
    simp only [e0, bind_ok_eq, readLevel_of_lt hq1, hn, hfC, hbt, s0]
    rfl
  · constructor
    · -- Linked
      constructor
      · rw [← hL.header_levels]; exact (hsame2.2 _).1
      · exact fun h => hL.header_fresh (hsubAC _ h)
      · have := hL.nodup
        rw [List.nodup_append] at this ⊢
        exact ⟨this.1, (List.nodup_cons.mp this.2.1).2,
          fun a ha hb => this.2.2 ha (List.mem_cons_of_mem _ hb)⟩
      · intro p hp
        refine ⟨?_, hlow p hp⟩
        show 1 ≤ hgt H2 p
        rw [(hsame2.2 p).1]
        exact (hL.heights p (hsubAC p hp)).1
      · exact s1
      · exact le_trans s2 hL.level_le
      · exact hfwd
    · -- Ordered
      have ho := hW.ordered
      unfold Ordered at ho ⊢
      rw [List.pairwise_append] at ho ⊢
      obtain ⟨o1, o2, o3⟩ := ho
      have hcongr : ∀ a b, nodeLt sl.heap a b → nodeLt H2 a b := fun a b h => by
        unfold nodeLt at *
        rw [(hsame2.2 a).2.1, (hsame2.2 b).2.1]
        exact h
      exact ⟨o1.imp (fun h => hcongr _ _ h), (List.pairwise_cons.mp o2).2.imp
        (fun h => hcongr _ _ h), fun a ha b hb =>
          hcongr _ _ (o3 a ha b (List.mem_cons_of_mem _ hb))⟩
    · -- spans
      intro j hj
      show SpanOK H2 j sl.header 0 (A ++ C)
      by_cases hjl : j < sl.level
      · refine SpanOK.remove_span C A sl.header 0 (hW.spans j hj) hnd
          (fun x _ => (hsame2.2 x).1) ?_ ?_ ?_
        · intro x _ hx
          rw [(hsame2.2 x).2.2.2, e4, if_neg (fun h => hx h.2)]
        · intro hq
          rw [(hsame2.2 _).2.2.2, e4, if_pos ⟨hjl, rfl⟩, if_pos ((hfq j hj).mpr hq)]
        · intro hq
          rw [(hsame2.2 _).2.2.2, e4, if_pos ⟨hjl, rfl⟩,
            if_neg (fun h => hq ((hfq j hj).mp h))]
      · refine SpanOK.of_low (fun x hx => ?_)
        have := hlow x hx
        omega
    · -- backward
      show BackOK H2 none (A ++ C)
      refine BackOK.remove_back C A none hW.backward hL.nodup ?_ ?_
      · intro x _ hx
        rw [hback2, if_neg (fun h => hx h.symm)]
      · intro x hx
        rw [hback2, if_pos hx]
    · -- tail
      show tail = (A ++ C).getLast?
      rw [htail]
      have ht := hW.tail_last
      cases C with
      | nil =>
        simp only [List.head?_nil, List.append_nil]
        rw [BackOK.back_eq A none hW.backward]
        by_cases hA : A = []
        · simp [hA]
        · simp [hA]
      | cons y C =>
        simp only [List.head?_cons]
        rw [ht]
        simp [List.getLast?_append, List.getLast?_cons_cons]
    · -- length
      show sl.length - 1 = ((A ++ C).length : Int)
      rw [hW.length_eq]
      simp only [List.length_append, List.length_cons]
      push_cast
      ring
    · -- level
      intro hl
      show ∃ p ∈ A ++ C, hgt H2 p = level'
      have h1 := s4 hl
      rcases (hfwd (level' - 1) (by have := hL.level_le; omega)).head with h | ⟨x, hx, _, hx2⟩
      · exact absurd h h1
      · exact ⟨x, hx, by have := hlow x hx; omega⟩

end

theorem lastAt_congr {H H' : Heap S} (h : ∀ x, hgt H' x = hgt H x) (j : Nat) :
    ∀ (l : List Nat) (p : Nat), lastAt H' j p l = lastAt H j p l := by
  intro l
  induction l with
  | nil => intro p; rfl
  | cons x l ih =>
    intro p
    by_cases hx : j < hgt H x
    · rw [lastAt_cons_of_lt _ _ hx, lastAt_cons_of_lt _ _ (by rw [h]; exact hx), ih]
    · rw [lastAt_cons_of_not_lt _ _ hx, lastAt_cons_of_not_lt _ _ (by rw [h]; exact hx), ih]

section
variable [LinearOrder S]

/-- The removal loop of `RemoveRangeByRank`, entered on the first node of `B` with the
predecessors of that node in `update`: it completes, removes the first `stop - i` nodes of `B`
(all of them when there are fewer), and leaves a well-formed list. -/
theorem RemoveRangeByRank_loop_spec (A : List Nat) (update : List (Option Nat)) (stop : Int) :
    ∀ (B : List Nat) (sl : skiplist S) (i : Int) (removed : List (Element S)) (fuel : Nat),
      WF sl (A ++ B) →
      (∀ j, j < sl.level → update[j]? = some (some (lastAt sl.heap j sl.header A))) →
      B.length < fuel →
      ∃ sl' es,
        RemoveRangeByRank.loop update stop fuel sl B.head? i removed =
          .ok (sl', removed ++ es) ∧
        WF sl' (A ++ B.drop (stop - i).toNat) ∧
        es.map some = (B.take (stop - i).toNat).map (elemOf sl.heap) ∧
        (∀ x, elemOf sl'.heap x = elemOf sl.heap x) := by
  intro B
  induction B with
  | nil =>
    intro sl i removed fuel hW _ hfuel
    obtain ⟨fuel, rfl⟩ : ∃ f, fuel = f + 1 := ⟨fuel - 1, by omega⟩
    refine ⟨sl, [], ?_, by simpa using hW, by simp, fun _ => rfl⟩
    unfold RemoveRangeByRank.loop
    simp
  | cons q B ih =>
    intro sl i removed fuel hW hu hfuel
    simp only [List.length_cons] at hfuel
    obtain ⟨fuel, rfl⟩ : ∃ f, fuel = f + 1 := ⟨fuel - 1, by omega⟩
    have hL := hW.linked
    by_cases hi : i < stop
    · have hqm : q ∈ A ++ q :: B := List.mem_append_right _ (List.mem_cons_self _ _)
      have hq0 : 0 < hgt sl.heap q := hL.hgt_pos q hqm
      have hfB : fwdOf sl.heap q 0 = B.head? :=
        (FwdOK.suffix hq0 A sl.header (hL.forward 0 (by decide))).fwd_zero
          (fun x hx => hL.hgt_pos x (List.mem_append_right _ (List.mem_cons_of_mem _ hx)))
      obtain ⟨e, he⟩ := elemOf_of_hgt_pos hq0
      obtain ⟨n, hn, hne⟩ := deref_of_elemOf he
      obtain ⟨sl1, r0, r1, r2, r3, r4, r5⟩ := removeNode_spec sl A B q update hW hu
      have hu1 : ∀ j, j < sl1.level →
          update[j]? = some (some (lastAt sl1.heap j sl1.header A)) := by
        intro j hj
        rw [r3, lastAt_congr (fun x => (r5 x).1)]
        exact hu j (by omega)
      obtain ⟨sl', es, f0, f1, f2, f3⟩ := ih sl1 (i + 1) (removed ++ [n.toElement]) fuel r1 hu1
        (by omega)
      have hm : (stop - i).toNat = (stop - (i + 1)).toNat + 1 := by omega
      refine ⟨sl', n.toElement :: es, ?_, ?_, ?_, fun x => (f3 x).trans (r5 x).2⟩
      · unfold RemoveRangeByRank.loop
        simp only [List.head?_cons, if_pos hi, readLevel_of_lt hq0, bind_ok_eq, hn, r0, hfB]
        rw [f0]
        simp
      · rw [hm, List.drop_succ_cons]
        exact f1
      · rw [hm, List.take_succ_cons, List.map_cons, List.map_cons, f2, he, hne]
        congr 1
        exact List.map_congr_left (fun x _ => (r5 x).2)
    · have hm : (stop - i).toNat = 0 := by omega
      refine ⟨sl, [], ?_, by rw [hm]; simpa using hW, by rw [hm]; simp, fun _ => rfl⟩
      unfold RemoveRangeByRank.loop
      simp [hi]

/-- `RemoveRangeByRank` on a well-formed list with level-0 sequence `abs`: the call completes,
returns the elements of the nodes at the 0-based positions `lo ≤ k < hi`, for
`lo = start - 1` and `hi = stop - 1` cut off at 0, and leaves a well-formed list with those
nodes taken out of the sequence. -/
theorem RemoveRangeByRank_spec (sl : skiplist S) (abs : List Nat) (hW : WF sl abs)
    (start stop : Int) :
    ∃ sl' es, RemoveRangeByRank sl start stop = .ok (sl', es) ∧
      WF sl' (abs.take (start - 1).toNat ++
        (abs.drop (start - 1).toNat).drop ((stop - 1).toNat - (start - 1).toNat)) ∧
      es.map some = ((abs.drop (start - 1).toNat).take
        ((stop - 1).toNat - (start - 1).toNat)).map (elemOf sl.heap) ∧
      (∀ x, elemOf sl'.heap x = elemOf sl.heap x) := by
  have hL := hW.linked
  -- the number of nodes before the range
  obtain ⟨n, hn, hnle, htake, hdrop⟩ : ∃ n : Nat, n = min (start - 1).toNat abs.length ∧
      n ≤ abs.length ∧ abs.take n = abs.take (start - 1).toNat ∧
      abs.drop n = abs.drop (start - 1).toNat := by
    refine ⟨_, rfl, Nat.min_le_right _ _, ?_, ?_⟩
    · by_cases h : (start - 1).toNat ≤ abs.length
      · rw [Nat.min_eq_left h]
      · rw [Nat.min_eq_right (by omega), List.take_of_length_le (le_refl _),
          List.take_of_length_le (by omega)]
    · by_cases h : (start - 1).toNat ≤ abs.length
      · rw [Nat.min_eq_left h]
      · rw [Nat.min_eq_right (by omega), List.drop_of_length_le (le_refl _),
          List.drop_of_length_le (by omega)]
  have hA : ∀ q ∈ abs.take n, rankOf sl.header abs q ≤ start - 1 := fun q hq => by
    have h1 := rankOf_take_le hL.nodup_cons n hq
    have h2 := rankOf_pos_of_mem hL.nodup_cons (List.mem_of_mem_take hq)
    omega
  have hB : ∀ q ∈ abs.drop n, start - 1 < rankOf sl.header abs q := fun q hq => by
    have h1 := rankOf_drop_gt hL.nodup_cons n hq
    have h2 : n < abs.length := by
      by_contra hc
      rw [List.drop_of_length_le (by omega)] at hq
      simp at hq
    omega
  have htop : lastAt sl.heap sl.level sl.header (abs.take n) = sl.header :=
    lastAt_eq_self (fun q hq => (hL.heights q (List.mem_of_mem_take hq)).2)
  obtain ⟨update, s0, _, s2, _⟩ := RemoveRangeByRank_search_spec hL hW.spans start n hA hB
    sl.level (le_refl _) (List.replicate maxLevel none) (by simp)
  rw [htop, rankOf_header, hL.rankOf_lastAt_zero n hnle] at s0
  have hsplit : abs.take n ++ abs.drop n = abs := List.take_append_drop n abs
  have hu0 : 0 < hgt sl.heap (lastAt sl.heap 0 sl.header (abs.take n)) := by
    rcases lastAt_mem sl.heap 0 sl.header (abs.take n) with e | ⟨_, e⟩
    · rw [e, hL.header_levels]; decide
    · exact e
  -- the first node of the range
  have hfirst : fwdOf sl.heap (lastAt sl.heap 0 sl.header (abs.take n)) 0 =
      (abs.drop n).head? := by
    cases hd : abs.drop n with
    | nil =>
      have hf := hL.forward 0 (by decide)
      rw [← hsplit, hd] at hf
      simp only [List.head?_nil]
      -- the last node has no successor
      have : ∀ (l : List Nat) (p : Nat), FwdOK sl.heap 0 p l → (∀ x ∈ l, 0 < hgt sl.heap x) →
          fwdOf sl.heap (lastAt sl.heap 0 p l) 0 = none := by
        intro l
        induction l with
        | nil => intro p h _; exact h
        | cons x l ih =>
          intro p h hl
          have hx := hl x (List.mem_cons_self _ _)
          rw [FwdOK_cons_of_lt _ _ hx] at h
          rw [lastAt_cons_of_lt _ _ hx]
          exact ih x h.2 (fun y hy => hl y (List.mem_cons_of_mem _ hy))
      have h2 := this (abs.take n) sl.header (by simpa using hf)
        (fun x hx => hL.hgt_pos x (List.mem_of_mem_take hx))
      exact h2
    | cons y B =>
      have hf := hL.forward 0 (by decide)
      rw [← hsplit, hd] at hf
      simp only [List.head?_cons]
      exact FwdOK.fwd_lastAt (hL.hgt_pos y (by
        rw [← hsplit, hd]; exact List.mem_append_right _ (List.mem_cons_self _ _)))
        (abs.take n) sl.header hf
  have hlen : (abs.drop n).length < sl.heap.length + 1 := by
    have := hL.length_le
    simp only [List.length_drop]
    omega
  obtain ⟨sl', es, l0, l1, l2, l3⟩ := RemoveRangeByRank_loop_spec (abs.take n) update stop
    (abs.drop n) sl ((n : Int) + 1) [] (sl.heap.length + 1) (by rw [hsplit]; exact hW) s2 hlen
  -- the count of removals in terms of `start` and `stop`
  have hcount : (abs.drop n).take (stop - ((n : Int) + 1)).toNat =
      (abs.drop n).take ((stop - 1).toNat - (start - 1).toNat) ∧
      (abs.drop n).drop (stop - ((n : Int) + 1)).toNat =
      (abs.drop n).drop ((stop - 1).toNat - (start - 1).toNat) := by
    by_cases h : (start - 1).toNat ≤ abs.length
    · have : n = (start - 1).toNat := by rw [hn, Nat.min_eq_left h]
      have e : (stop - ((n : Int) + 1)).toNat = (stop - 1).toNat - (start - 1).toNat := by
        omega
      rw [e]
      exact ⟨rfl, rfl⟩
    · have : n = abs.length := by rw [hn, Nat.min_eq_right (by omega)]
      rw [List.drop_of_length_le (by omega)]
      simp
  refine ⟨sl', es, ?_, ?_, ?_, l3⟩
  · unfold RemoveRangeByRank
    simp only [s0, bind_ok_eq, readLevel_of_lt hu0, hfirst]
    simpa using l0
  · rw [← htake, ← hdrop, ← hcount.2]
    exact l1
  · rw [← hdrop, ← hcount.1]
    exact l2

end

/-! ## The rank interval as a slice -/

theorem filter_enumFrom_interval {α : Type} (lo hi : Nat) :
    ∀ (l : List α) (s : Nat),
      ((l.enumFrom s).filter (fun p => decide (lo ≤ p.1 ∧ p.1 < hi))).map Prod.snd =
        (l.drop (lo - s)).take (hi - max lo s) := by
  intro l
  induction l with
  | nil => intro s; simp
  | cons x l ih =>
    intro s
    rw [List.enumFrom_cons, List.filter_cons]
    by_cases h1 : lo ≤ s ∧ s < hi
    · simp only [h1, and_self, decide_True, if_true, List.map_cons, ih]
      have e1 : lo - (s + 1) = 0 := by omega
      have e2 : lo - s = 0 := by omega
      have e3 : hi - max lo s = (hi - max lo (s + 1)) + 1 := by
        rw [max_eq_right h1.1, max_eq_right (by omega)]; omega
      rw [e1, e2, e3]
      simp
    · simp only [h1, decide_False, Bool.false_eq_true, if_false, ih]
      by_cases h2 : s < lo
      · have e1 : lo - s = (lo - (s + 1)) + 1 := by omega
        have e2 : max lo (s + 1) = max lo s := by
          rw [max_eq_left (by omega), max_eq_left (by omega)]
        rw [e1, e2, List.drop_succ_cons]
      · have e1 : hi - max lo (s + 1) = 0 := by
          rw [max_eq_right (by omega)]; omega
        have e2 : hi - max lo s = 0 := by
          rw [max_eq_right (by omega)]; omega
        rw [e1, e2]
        simp

theorem filter_enumFrom_outside {α : Type} (lo hi : Nat) :
    ∀ (l : List α) (s : Nat),
      ((l.enumFrom s).filter (fun p => !decide (lo ≤ p.1 ∧ p.1 < hi))).map Prod.snd =
        l.take (lo - s) ++ l.drop (max hi lo - s) := by
  intro l
  induction l with
  | nil => intro s; simp
  | cons x l ih =>
    intro s
    rw [List.enumFrom_cons, List.filter_cons]
    by_cases h1 : lo ≤ s ∧ s < hi
    · simp only [h1, and_self, decide_True, Bool.not_true, Bool.false_eq_true, if_false, ih]
      have e1 : lo - (s + 1) = 0 := by omega
      have e2 : lo - s = 0 := by omega
      have e3 : max hi lo - s = (max hi lo - (s + 1)) + 1 := by
        rw [max_eq_left (by omega)]; omega
      rw [e1, e2, e3]
      simp
    · simp only [h1, decide_False, Bool.not_false, if_true, List.map_cons, ih]
      by_cases h2 : s < lo
      · have e1 : lo - s = (lo - (s + 1)) + 1 := by omega
        have e3 : max hi lo - s = (max hi lo - (s + 1)) + 1 := by
          have := le_max_right hi lo
          omega
        rw [e1, e3]
        simp
      · have e1 : lo - (s + 1) = 0 := by omega
        have e2 : lo - s = 0 := by omega
        have e3 : max hi lo - (s + 1) = 0 := by
          have : max hi lo ≤ s := max_le (by omega) (by omega)
          omega
        have e4 : max hi lo - s = 0 := by
          have : max hi lo ≤ s := max_le (by omega) (by omega)
          omega
        rw [e1, e2, e3, e4]
        simp

theorem inRankRange_eq (start stop : Int) (k : Nat) :
    inRankRange start stop k = decide ((start - 1).toNat ≤ k ∧ k < (stop - 1).toNat) := by
  unfold inRankRange
  rw [decide_eq_decide, max_le_iff]
  omega

theorem rankSlice_eq {α : Type} (l : List α) (start stop : Int) :
    rankSlice l start stop =
      (l.drop (start - 1).toNat).take ((stop - 1).toNat - (start - 1).toNat) := by
  unfold rankSlice List.enum
  simp only [inRankRange_eq]
  rw [filter_enumFrom_interval]
  simp

theorem rankRest_eq {α : Type} (l : List α) (start stop : Int) :
    rankRest l start stop =
      l.take (start - 1).toNat ++
        (l.drop (start - 1).toNat).drop ((stop - 1).toNat - (start - 1).toNat) := by
  unfold rankRest List.enum
  simp only [inRankRange_eq]
  rw [filter_enumFrom_outside]
  simp only [Nat.sub_zero, List.drop_drop]
  congr 2
  rcases le_total (stop - 1).toNat (start - 1).toNat with h | h
  · rw [max_eq_right h]; omega
  · rw [max_eq_left h]; omega

theorem map_some_injective {α : Type} {l l' : List α} (h : l.map some = l'.map some) :
    l = l' :=
  List.map_injective_iff.mpr (Option.some_injective α) h

/-- C4 (`RemoveRangeByRank` removes exactly the half-open rank interval).  For every skip list
satisfying the invariants of section 3, with elements `l` on its level-0 chain, and all
integers `start`, `stop`, the call completes and returns, in ascending rank order, exactly the
elements of rank `r` with `max(start, 1) ≤ r < stop` (none when there is no such rank), and
afterwards the level-0 chain holds the other elements in their original order. -/
theorem RemoveRangeByRank_removes_interval [LinearOrder S] (sl : skiplist S) (abs : List Nat)
    (hW : WF sl abs) (start stop : Int) :
    ∃ l sl' removed, elements sl = .ok l ∧
      RemoveRangeByRank sl start stop = .ok (sl', removed) ∧
      removed = rankSlice l start stop ∧
      elements sl' = .ok (rankRest l start stop) := by
  obtain ⟨l, hl1, hl2⟩ := hW.linked.elements_eq
  obtain ⟨sl', es, h1, h2, h3, h4⟩ := RemoveRangeByRank_spec sl abs hW start stop
  obtain ⟨l', hl1', hl2'⟩ := h2.linked.elements_eq
  refine ⟨l, sl', es, hl1, h1, ?_, ?_⟩
  · apply map_some_injective
    rw [h3, rankSlice_eq]
    simp only [List.map_take, List.map_drop, hl2]
  · rw [hl1']
    congr 1
    apply map_some_injective
    have e : abs.map (elemOf sl'.heap) = abs.map (elemOf sl.heap) :=
      List.map_congr_left (fun x _ => h4 x)
    rw [hl2', rankRest_eq]
    simp only [List.map_append, List.map_take, List.map_drop, hl2, e]

/-- The example list `sl5` satisfies the invariants of section 3. -/
theorem sl5_wellformed : WF sl5 [1, 2, 3, 4, 5] :=
  ⟨⟨by decide, by decide, by decide, by decide, by decide, by decide, by decide⟩,
    by decide, by decide, by decide, by decide, by decide, by decide⟩

/-- The scenario of the spec: `RemoveRangeByRank(2, 4)` on `a, b, c, d, e` returns `b, c` and
leaves `a, d, e`. -/
theorem RemoveRangeByRank_removes_interval_witness :
    WF sl5 [1, 2, 3, 4, 5] ∧
      (∃ l sl' removed, elements sl5 = .ok l ∧
        RemoveRangeByRank sl5 2 4 = .ok (sl', removed) ∧
        removed = rankSlice l 2 4 ∧ elements sl' = .ok (rankRest l 2 4)) ∧
      (RemoveRangeByRank sl5 2 4).map Prod.snd = .ok [⟨"b", 2⟩, ⟨"c", 3⟩] ∧
      (RemoveRangeByRank sl5 2 4 >>= fun r => elements r.1) =
        .ok [⟨"a", 1⟩, ⟨"d", 4⟩, ⟨"e", 5⟩] :=
  ⟨sl5_wellformed, RemoveRangeByRank_removes_interval sl5 [1, 2, 3, 4, 5] sl5_wellformed 2 4,
    by decide, by decide⟩

/-- C5 (`RemoveRangeByRank` preserves the invariants).  If a skip list satisfies the
invariants of section 3 (level-0 order, spans of all existing links, backward chain and tail,
length, level), then `RemoveRangeByRank(start, stop)`, which removes every node of the batch
through `removeNode` with the one predecessor array of its search, completes and leaves a list
that satisfies them again, with the sequence `abs'` that its level-0 chain reads. -/
theorem RemoveRangeByRank_preserves_invariants [LinearOrder S] (sl : skiplist S)
    (abs : List Nat) (hW : WF sl abs) (start stop : Int) :
    ∃ sl' removed abs', RemoveRangeByRank sl start stop = .ok (sl', removed) ∧
      WF sl' abs' ∧ chain0 sl' = .ok abs' := by
  obtain ⟨sl', es, h1, h2, _, _⟩ := RemoveRangeByRank_spec sl abs hW start stop
  exact ⟨sl', es, _, h1, h2, h2.linked.chain0_eq⟩

/-- The invariants hold again after `RemoveRangeByRank(4, 6)` on the example list, which
removes the last two nodes and moves the tail. -/
theorem RemoveRangeByRank_preserves_invariants_witness :
    WF sl5 [1, 2, 3, 4, 5] ∧
      ∃ sl' removed abs', RemoveRangeByRank sl5 4 6 = .ok (sl', removed) ∧
        WF sl' abs' ∧ chain0 sl' = .ok abs' :=
  ⟨sl5_wellformed,
    RemoveRangeByRank_preserves_invariants sl5 [1, 2, 3, 4, 5] sl5_wellformed 4 6⟩

/-- On the example list, `getByRank(4)` returns the fourth node of the chain. -/
theorem getByRank_wellformed_witness :
    WF sl5 [1, 2, 3, 4, 5] ∧ (1 : Int) ≤ 4 ∧ (4 : Int) ≤ sl5.length ∧
      chain0 sl5 = .ok [1, 2, 3, 4, 5] ∧
      ∃ p, [1, 2, 3, 4, 5][((4 : Int) - 1).toNat]? = some p ∧ getByRank sl5 4 = .ok (some p) :=
  ⟨sl5_wellformed, by decide, by decide,
    getByRank_wellformed sl5 [1, 2, 3, 4, 5] sl5_wellformed 4 (by decide) (by decide)⟩

section
variable [LinearOrder S]

/-- On a well-formed list the outer loop of `getByRank` runs through all levels and returns nil
when no node among the first `n` has the rank looked for, those being the nodes of rank at
most `r`. -/
theorem getByRank_levels_none {sl : skiplist S} {abs : List Nat} (hW : WF sl abs) (r : Int)
    (n : Nat) (hA : ∀ q ∈ abs.take n, rankOf sl.header abs q < r)
    (hB : ∀ q ∈ abs.drop n, r < rankOf sl.header abs q) (h0 : r ≠ 0) :
    ∀ k, k ≤ sl.level →
      getByRank.levels sl.heap r k (lastAt sl.heap k sl.header (abs.take n))
        (rankOf sl.header abs (lastAt sl.heap k sl.header (abs.take n))) = .ok none := by
  have hL := hW.linked
  intro k
  induction k with
  | zero => intro _; rfl
  | succ k ih =>
    intro hk
    have hk16 : k < maxLevel := by have := hL.level_le; omega
    have hx : lastAt sl.heap (k + 1) sl.header (abs.take n) = sl.header ∨
        (lastAt sl.heap (k + 1) sl.header (abs.take n) ∈ abs.take n ∧
          k < hgt sl.heap (lastAt sl.heap (k + 1) sl.header (abs.take n))) := by
      rcases lastAt_mem sl.heap (k + 1) sl.header (abs.take n) with h | ⟨h, h'⟩
      · exact Or.inl h
      · exact Or.inr ⟨h, by omega⟩
    have hw := hL.walk_to_rank (hW.spans k hk16) hk16 r n
      (fun q hq => le_of_lt (hA q hq)) hB _ hx
    have hne : rankOf sl.header abs (lastAt sl.heap k sl.header (abs.take n)) ≠ r := by
      rcases lastAt_mem sl.heap k sl.header (abs.take n) with h | ⟨h, _⟩
      · rw [h, rankOf_header]; exact fun e => h0 e.symm
      · exact ne_of_lt (hA _ h)
    unfold getByRank.levels
    simp only [hw, bind_ok_eq]
    rw [if_neg hne]
    exact ih (by omega)

/-- On a well-formed list `getByRank` returns nil for every negative rank and every rank above
`length`. -/
theorem getByRank_outside (sl : skiplist S) (abs : List Nat) (hW : WF sl abs) (r : Int)
    (hr : r < 0 ∨ sl.length < r) : getByRank sl r = .ok none := by
  have hL := hW.linked
  rw [hW.length_eq] at hr
  unfold getByRank
  rcases hr with hr | hr
  · have := getByRank_levels_none hW r 0 (by simp)
      (fun q hq => by
        have := rankOf_pos_of_mem hL.nodup_cons (List.mem_of_mem_drop hq)
        omega) (by omega) sl.level (le_refl _)
    simpa [lastAt_nil, rankOf_header] using this
  · have htop : lastAt sl.heap sl.level sl.header (abs.take abs.length) = sl.header :=
      lastAt_eq_self (fun q hq => (hL.heights q (List.mem_of_mem_take hq)).2)
    have := getByRank_levels_none hW r abs.length
      (fun q hq => by
        have := rankOf_take_le hL.nodup_cons abs.length hq
        omega)
      (by simp) (by omega) sl.level (le_refl _)
    rw [htop, rankOf_header] at this
    exact this

/-- On a well-formed list `getByRank(0)` returns the header sentinel. -/
theorem getByRank_zero (sl : skiplist S) (abs : List Nat) (hW : WF sl abs) :
    getByRank sl 0 = .ok (some sl.header) := by
  have hL := hW.linked
  obtain ⟨k, hk⟩ : ∃ k, sl.level = k + 1 := ⟨sl.level - 1, by have := hL.level_pos; omega⟩
  have hk16 : k < maxLevel := by have := hL.level_le; omega
  have hw := hL.walk_to_rank (hW.spans k hk16) hk16 0 0 (by simp)
    (fun q hq => by
      have := rankOf_pos_of_mem hL.nodup_cons (List.mem_of_mem_drop hq)
      omega) sl.header (Or.inl rfl)
  simp only [List.take_zero, lastAt_nil, rankOf_header] at hw
  unfold getByRank
  rw [hk]
  unfold getByRank.levels
  simp only [hw, bind_ok_eq, if_true]
  rfl

end

/-! ## getFirstInScoreRange on a well-formed list -/

theorem lessAt_of_deref {B : Type} (ops : BorderOps B S) {H : Heap S} (min : B) {q : Nat}
    {n : Node S} (h : deref H q = .ok n) : lessAt ops H min q = ops.less min n.toElement := by
  have := deref_eq_ok.mp h
  simp [lessAt, elemOf, this]

theorem greaterAt_of_deref {B : Type} (ops : BorderOps B S) {H : Heap S} (max : B) {q : Nat}
    {n : Node S} (h : deref H q = .ok n) :
    greaterAt ops H max q = ops.greater max n.toElement := by
  have := deref_eq_ok.mp h
  simp [greaterAt, elemOf, this]

/-- The inner loop of `getFirstInScoreRange`, started on any node of the level-`i` chain of
`p :: l`, stops on the last node of that chain, when `min.less` fails on `l` and holds on
`hi`. -/
theorem getFirstInScoreRange_walk_spec {B : Type} (ops : BorderOps B S) (H : Heap S) (min : B)
    (i : Nat) (hi : List Nat)
    (hhi : ∀ q ∈ hi, 0 < hgt H q ∧ lessAt ops H min q = true) :
    ∀ (l : List Nat) (p x : Nat) (fuel : Nat),
      i < hgt H p → FwdOK H i p (l ++ hi) →
      (∀ q ∈ l, 0 < hgt H q ∧ lessAt ops H min q = false) →
      (x = p ∨ (x ∈ l ∧ i < hgt H x)) → l.length < fuel →
      getFirstInScoreRange.walk ops H min i fuel x = .ok (lastAt H i p l) := by
  intro l
  induction l with
  | nil =>
    intro p x fuel hp hf _ hx hfuel
    have hx : x = p := by simpa using hx
    subst hx
    obtain ⟨fuel, rfl⟩ : ∃ f, fuel = f + 1 := ⟨fuel - 1, by omega⟩
    simp only [List.nil_append] at hf
    unfold getFirstInScoreRange.walk
    simp only [readLevel_of_lt hp, bind_ok_eq, lastAt]
    rcases hf.head with h | ⟨q, hq, h, _⟩
    · rw [h]; rfl
    · rw [h]
      obtain ⟨hq1, hq2⟩ := hhi q hq
      obtain ⟨n, hn⟩ := deref_of_lt (hgt_pos_iff hq1)
      rw [lessAt_of_deref ops min hn] at hq2
      simp only [hn, bind_ok_eq, hq2]
      rfl
  | cons q l ih =>
    intro p x fuel hp hf hl hx hfuel
    have hl' : ∀ y ∈ l, 0 < hgt H y ∧ lessAt ops H min y = false :=
      fun y hy => hl y (List.mem_cons_of_mem _ hy)
    simp only [List.length_cons] at hfuel
    simp only [List.cons_append] at hf
    by_cases hq : i < hgt H q
    · rw [FwdOK_cons_of_lt _ _ hq] at hf
      rw [lastAt_cons_of_lt _ _ hq]
      rcases hx with hx | ⟨hx, hx'⟩
      · subst hx
        obtain ⟨fuel, rfl⟩ : ∃ f, fuel = f + 1 := ⟨fuel - 1, by omega⟩
        unfold getFirstInScoreRange.walk
        simp only [readLevel_of_lt hp, bind_ok_eq, hf.1]
        obtain ⟨hq1, hq2⟩ := hl q (List.mem_cons_self _ _)
        obtain ⟨n, hn⟩ := deref_of_lt (hgt_pos_iff hq1)
        rw [lessAt_of_deref ops min hn] at hq2
        simp only [hn, bind_ok_eq, hq2]
        exact ih q q fuel hq hf.2 hl' (Or.inl rfl) (by omega)
      · rcases List.mem_cons.mp hx with hx | hx
        · exact ih q x fuel hq hf.2 hl' (Or.inl hx) (by omega)
        · exact ih q x fuel hq hf.2 hl' (Or.inr ⟨hx, hx'⟩) (by omega)
    · rw [FwdOK_cons_of_not_lt _ _ hq] at hf
      rw [lastAt_cons_of_not_lt _ _ hq]
      rcases hx with hx | ⟨hx, hx'⟩
      · exact ih p x fuel hp hf hl' (Or.inl hx) (by omega)
      · rcases List.mem_cons.mp hx with hx | hx
        · subst hx; exact absurd hx' hq
        · exact ih p x fuel hp hf hl' (Or.inr ⟨hx, hx'⟩) (by omega)

/-- The outer loop of `getFirstInScoreRange` ends on the last node at which `min.less`
fails (the header when there is none). -/
theorem getFirstInScoreRange_levels_spec {B : Type} (ops : BorderOps B S) (sl : skiplist S)
    (min : B) (lo hi : List Nat) (hL : Linked sl (lo ++ hi))
    (hlo : ∀ q ∈ lo, lessAt ops sl.heap min q = false)
    (hhi : ∀ q ∈ hi, lessAt ops sl.heap min q = true) :
    ∀ k, k ≤ sl.level →
      getFirstInScoreRange.levels ops sl.heap min k (lastAt sl.heap k sl.header lo) =
        .ok (lastAt sl.heap 0 sl.header lo) := by
  intro k
  induction k with
  | zero => intro _; rfl
  | succ i ih =>
    intro hk
    have hlvl := hL.level_le
    have hi16 : i < maxLevel := by omega
    have hx := lastAt_mem sl.heap (i + 1) sl.header lo
    have hxi : lastAt sl.heap (i + 1) sl.header lo = sl.header ∨
        (lastAt sl.heap (i + 1) sl.header lo ∈ lo ∧
          i < hgt sl.heap (lastAt sl.heap (i + 1) sl.header lo)) := by
      rcases hx with h | ⟨h1, h2⟩
      · exact Or.inl h
      · exact Or.inr ⟨h1, by omega⟩
    have hhdr : i < hgt sl.heap sl.header := by rw [hL.header_levels]; exact hi16
    have hpos : ∀ q ∈ lo ++ hi, 0 < hgt sl.heap q := fun q hq => by
      have := (hL.heights q hq).1
      omega
    have hlen : lo.length < sl.heap.length + 1 := by
      have := hL.length_le
      simp only [List.length_append] at this
      omega
    have hw := getFirstInScoreRange_walk_spec ops sl.heap min i hi
      (fun q hq => ⟨hpos q (List.mem_append_right _ hq), hhi q hq⟩) lo sl.header
      (lastAt sl.heap (i + 1) sl.header lo) (sl.heap.length + 1) hhdr (hL.forward i hi16)
      (fun q hq => ⟨hpos q (List.mem_append_left _ hq), hlo q hq⟩) hxi hlen
    unfold getFirstInScoreRange.levels
    simp only [hw, bind_ok_eq]
    exact ih (by omega)

section
variable [LinearOrder S]

/-- On a well-formed list `hasInRange` completes: it answers true exactly when the boundaries
do not intersect, `min.less` holds at the last node and `max.greater` at the first. -/
theorem hasInRange_spec {B : Type} (ops : BorderOps B S) (sl : skiplist S) (abs : List Nat)
    (hW : WF sl abs) (min max : B) :
    hasInRange ops sl min max =
      .ok (!ops.isIntersected min max && abs.getLast?.any (lessAt ops sl.heap min) &&
        abs.head?.any (greaterAt ops sl.heap max)) := by
  have hL := hW.linked
  unfold hasInRange
  cases hint : ops.isIntersected min max with
  | true => simp
  | false =>
    simp only [Bool.false_eq_true, if_false, Bool.not_false, Bool.true_and]
    rw [hW.tail_last]
    cases hlast : abs.getLast? with
    | none => simp [pure, Except.pure]
    | some t =>
      have ht : t ∈ abs := List.mem_of_getLast?_eq_some hlast
      obtain ⟨n, hn⟩ := deref_of_lt (hL.lt_length t ht)
      simp only [hn, bind_ok_eq, Option.any_some]
      rw [← lessAt_of_deref ops min hn]
      cases hless : lessAt ops sl.heap min t with
      | false => simp [pure, Except.pure]
      | true =>
        simp only [Bool.not_true, Bool.false_eq_true, if_false, Bool.true_and]
        have hhdr : 0 < hgt sl.heap sl.header := by rw [hL.header_levels]; decide
        have hpos : ∀ q ∈ abs, 0 < hgt sl.heap q := fun q hq => by
          have := (hL.heights q hq).1
          omega
        rw [readLevel_of_lt hhdr]
        simp only [bind_ok_eq]
        rw [FwdOK.fwd_zero (hL.forward 0 (by decide)) hpos]
        cases abs with
        | nil => simp at ht
        | cons f rest =>
          simp only [List.head?_cons, Option.any_some]
          obtain ⟨fn, hfn⟩ := deref_of_lt (hL.lt_length f (List.mem_cons_self _ _))
          simp only [hfn, bind_ok_eq]
          rw [← greaterAt_of_deref ops max hfn]
          cases greaterAt ops sl.heap max f <;> simp [pure, Except.pure]

/-- On a well-formed list whose nodes pass `min.less` from some node on, a call of
`getFirstInScoreRange` that finds `hasInRange` true returns the first node that passes
`min.less` when it passes `max.greater`, and nil otherwise. -/
theorem getFirstInScoreRange_spec {B : Type} (ops : BorderOps B S) (sl : skiplist S)
    (abs : List Nat) (hW : WF sl abs) (min max : B) (lo hi : List Nat)
    (hsplit : abs = lo ++ hi)
    (hlo : ∀ q ∈ lo, lessAt ops sl.heap min q = false)
    (hhi : ∀ q ∈ hi, lessAt ops sl.heap min q = true)
    (hin : hasInRange ops sl min max = .ok true) :
    ∃ y, hi.head? = some y ∧
      getFirstInScoreRange ops sl min max =
        .ok (if greaterAt ops sl.heap max y then some y else none) := by
  subst hsplit
  have hL := hW.linked
  have hpos : ∀ q ∈ lo ++ hi, 0 < hgt sl.heap q := fun q hq => by
    have := (hL.heights q hq).1
    omega
  -- the last node passes `min.less`, so `hi` is not empty
  have hs := hasInRange_spec ops sl (lo ++ hi) hW min max
  rw [hin] at hs
  simp only [Except.ok.injEq] at hs
  have hs := hs.symm
  simp only [Bool.and_eq_true] at hs
  obtain ⟨⟨_, hlast⟩, _⟩ := hs
  have hne : hi ≠ [] := by
    intro he
    subst he
    rw [List.append_nil] at hlast
    cases h : lo.getLast? with
    | none => rw [h] at hlast; simp at hlast
    | some t =>
      rw [h, Option.any_some] at hlast
      rw [hlo t (List.mem_of_getLast?_eq_some h)] at hlast
      exact absurd hlast (by simp)
  obtain ⟨y, hi', rfl⟩ := List.exists_cons_of_ne_nil hne
  refine ⟨y, rfl, ?_⟩
  have hy : 0 < hgt sl.heap y := hpos y (by simp)
  have hlev := getFirstInScoreRange_levels_spec ops sl min lo (y :: hi') hL hlo hhi sl.level
    (le_refl _)
  rw [hL.lastAt_top (le_refl _)] at hlev
  have hfwd : fwdOf sl.heap (lastAt sl.heap 0 sl.header lo) 0 = some y :=
    FwdOK.fwd_lastAt hy lo sl.header (hL.forward 0 (by decide))
  have hu : 0 < hgt sl.heap (lastAt sl.heap 0 sl.header lo) := by
    rcases lastAt_mem sl.heap 0 sl.header lo with h | ⟨_, h⟩
    · rw [h, hL.header_levels]; decide
    · exact h
  obtain ⟨n, hn⟩ := deref_of_lt (hgt_pos_iff hy)
  unfold getFirstInScoreRange
  simp only [hin, bind_ok_eq, Bool.not_true, Bool.false_eq_true, if_false, hlev,
    readLevel_of_lt hu, hfwd, ptr, hn]
  rw [greaterAt_of_deref ops max hn]
  cases ops.greater max n.toElement <;> simp [pure, Except.pure]

end

/-- C13 (`getFirstInScoreRange` on a well-formed list).  For every skip list that satisfies the
section-3 invariants, with level-0 sequence `abs`, and boundaries `min`, `max` such that
`min.less` is false on a prefix `lo` of `abs` and true on the remaining suffix `hi`:
`hasInRange` completes with an answer `b`; when `b` is true the call dereferences no nil node
and returns the first node of `hi` (the first node in level-0 order that passes `min.less`) if
that node passes `max.greater`, and nil otherwise; when `b` is false the call returns nil.
The boundaries need not be assumed not to intersect: `hasInRange` is false when they do. -/
theorem getFirstInScoreRange_wellformed [LinearOrder S] {B : Type} (ops : BorderOps B S)
    (sl : skiplist S) (abs : List Nat) (hW : WF sl abs) (min max : B) (lo hi : List Nat)
    (hsplit : abs = lo ++ hi)
    (hlo : ∀ q ∈ lo, lessAt ops sl.heap min q = false)
    (hhi : ∀ q ∈ hi, lessAt ops sl.heap min q = true) :
    ∃ b, hasInRange ops sl min max = .ok b ∧
      (b = true → ∃ y, hi.head? = some y ∧
        getFirstInScoreRange ops sl min max =
          .ok (if greaterAt ops sl.heap max y then some y else none)) ∧
      (b = false → getFirstInScoreRange ops sl min max = .ok none) := by
  refine ⟨_, hasInRange_spec ops sl abs hW min max, ?_, ?_⟩
  · intro hb
    have hin := hasInRange_spec ops sl abs hW min max
    rw [hb] at hin
    exact getFirstInScoreRange_spec ops sl abs hW min max lo hi hsplit hlo hhi hin
  · intro hb
    have hin := hasInRange_spec ops sl abs hW min max
    rw [hb] at hin
    unfold getFirstInScoreRange
    simp only [hin, bind_ok_eq]
    rfl

/-- On the example list `a..e` with scores 1 to 5 and the inclusive range `[2, 4]`, `min.less`
fails on `a` and holds from `b` on; `hasInRange` is true and the call returns the node of
`b`, which passes `max.greater`. -/
theorem getFirstInScoreRange_wellformed_witness :
    WF sl5 [1, 2, 3, 4, 5] ∧
      hasInRange scoreBorderOps sl5 range24.1 range24.2 = .ok true ∧
      greaterAt scoreBorderOps sl5.heap range24.2 2 = true ∧
      getFirstInScoreRange scoreBorderOps sl5 range24.1 range24.2 = .ok (some 2) ∧
      ∃ b, hasInRange scoreBorderOps sl5 range24.1 range24.2 = .ok b ∧
        (b = true → ∃ y, [2, 3, 4, 5].head? = some y ∧
          getFirstInScoreRange scoreBorderOps sl5 range24.1 range24.2 =
            .ok (if greaterAt scoreBorderOps sl5.heap range24.2 y then some y else none)) ∧
        (b = false → getFirstInScoreRange scoreBorderOps sl5 range24.1 range24.2 = .ok none) :=
  ⟨sl5_wellformed, by decide, by decide, by decide,
    getFirstInScoreRange_wellformed scoreBorderOps sl5 [1, 2, 3, 4, 5] sl5_wellformed
      range24.1 range24.2 [1] [2, 3, 4, 5] rfl (by decide) (by decide)⟩

/-- C14 (no index outside a `level` slice in `insert`): evaluation at a failing input.  The
example list `a..e` satisfies the section-3 invariants and its last node `e` (address 5) has
one level.  `insert("f", 6)` with drawn height 2 finds `e` as level-0 predecessor and then
indexes `e.level[1]` (the statement `node.level[i].span = ...` at `i = 1`), which does not
exist: the call stops on an index out of range.  With drawn height 1 the same call
completes. -/
theorem insert_indexes_outside_predecessor :
    WF sl5 [1, 2, 3, 4, 5] ∧ hgt sl5.heap 5 = 1 ∧
      insert sl5 "f" 6 2 = .error .indexOutOfRange ∧
      (insert sl5 "f" 6 1).map (fun r => r.2) = .ok 5 :=
  ⟨sl5_wellformed, by decide, by decide, by decide⟩

/-! ## Length and level after a sequence of inserts -/

/-- The level-0 sequence of a linked list is the chain read from the header, hence unique. -/
theorem Linked.unique {sl : skiplist S} {abs abs' : List Nat} (h : Linked sl abs)
    (h' : Linked sl abs') : abs = abs' := by
  have e1 := h.chain0_eq
  rw [h'.chain0_eq] at e1
  simpa using e1.symm

/-- Above the level of the list the header has no link. -/
theorem Linked.header_top {sl : skiplist S} {abs : List Nat} (hL : Linked sl abs) (j : Nat)
    (hj : sl.level ≤ j) : fwdOf sl.heap sl.header j = none := by
  by_cases h16 : j < maxLevel
  · rcases (hL.forward j h16).head with h | ⟨q, hq, _, hq2⟩
    · exact h
    · have := (hL.heights q hq).2
      omega
  · exact fwdOf_eq_none_of_le (by rw [hL.header_levels]; omega)

section
variable [LinearOrder S]

/-- One more completed `insert` of a fresh member: the heights of the nodes of the chain are
the heights drawn. -/
theorem Grown.step_heights {sl : skiplist S} {done : List (String × S × Nat)} {abs : List Nat}
    (hG : Grown sl done abs)
    (hH : (abs.map (hgt sl.heap)).Perm (done.map fun o => o.2.2))
    (member : String) (score : S) (level : Nat)
    (hfresh : member ∉ done.map (fun o => o.1)) (h1 : 1 ≤ level) (h16 : level ≤ maxLevel)
    (sl' : skiplist S) (ret : Nat) (h : insert sl member score level = .ok (sl', ret)) :
    ∃ abs', Grown sl' (done ++ [(member, score, level)]) abs' ∧
      (abs'.map (hgt sl'.heap)).Perm ((done ++ [(member, score, level)]).map fun o => o.2.2) := by
  obtain ⟨abs1, hG1⟩ := hG.step member score level hfresh h1 h16 sl' ret h
  refine ⟨abs1, hG1, ?_⟩
  let A := abs.takeWhile (fun q => decide (before sl.heap member score q))
  let B := abs.dropWhile (fun q => decide (before sl.heap member score q))
  have hAB : A ++ B = abs := List.takeWhile_append_dropWhile _ _
  have hL : Linked sl (A ++ B) := by rw [hAB]; exact hG.linked
  have hA : ∀ q ∈ A, before sl.heap member score q := fun q hq => by
    simpa using List.mem_takeWhile_imp hq
  have hB : ∀ q ∈ B, ¬ before sl.heap member score q := not_before_of_dropWhile hG.ordered
  have hL1 := insert_linked sl member score level A B hL hA hB h1 h16 sl' ret h
  obtain ⟨_, _, _, _, _, _, e7, _⟩ :=
    insert_effect sl member score level A B hL hA hB h1 sl' ret h
  rw [hG1.linked.unique hL1]
  have hlt := hL.lt_length
  have hmap : (A ++ B).map (hgt sl'.heap) = (A ++ B).map (hgt sl.heap) :=
    List.map_congr_left (fun q hq => by
      have := hlt q hq
      rw [e7, if_neg (by omega)])
  have p1 : (A ++ sl.heap.length :: B).Perm (sl.heap.length :: (A ++ B)) := List.perm_middle
  have p2 := p1.map (hgt sl'.heap)
  rw [List.map_cons, hmap, hAB, e7, if_pos rfl] at p2
  refine p2.trans ?_
  rw [List.map_append, List.map_singleton]
  exact ((hH.cons _).trans (List.perm_append_singleton _ _).symm)

/-- After every completed sequence of `insert` calls with distinct members and heights in
`1..maxLevel`, the heights of the nodes of the chain are the heights drawn. -/
theorem Grown.run_heights :
    ∀ (ops done : List (String × S × Nat)) (sl sl' : skiplist S) (abs : List Nat),
      Grown sl done abs → (abs.map (hgt sl.heap)).Perm (done.map fun o => o.2.2) →
      ((done ++ ops).map (fun o => o.1)).Nodup →
      (∀ o ∈ ops, 1 ≤ o.2.2 ∧ o.2.2 ≤ maxLevel) → zset.insertAll sl ops = .ok sl' →
      ∃ abs', Grown sl' (done ++ ops) abs' ∧
        (abs'.map (hgt sl'.heap)).Perm ((done ++ ops).map fun o => o.2.2) := by
  intro ops
  induction ops with
  | nil =>
    intro done sl sl' abs hG hH _ _ h
    simp only [zset.insertAll, pure_eq_ok, Except.ok.injEq] at h
    subst h
    exact ⟨abs, by simpa using hG, by simpa using hH⟩
  | cons o ops ih =>
    intro done sl sl' abs hG hH hnd hh h
    obtain ⟨member, score, level⟩ := o
    unfold zset.insertAll at h
    obtain ⟨r, hr, h⟩ := bind_eq_ok.mp h
    obtain ⟨sl1, ret⟩ := r
    simp only at h
    have hho := hh _ (List.mem_cons_self _ _)
    have hfresh : member ∉ done.map (fun o => o.1) := by
      rw [List.map_append, List.map_cons, List.nodup_append] at hnd
      intro hm
      exact hnd.2.2 hm (List.mem_cons_self _ _)
    obtain ⟨abs1, hG1, hH1⟩ :=
      hG.step_heights hH member score level hfresh hho.1 hho.2 sl1 ret hr
    have := ih (done ++ [(member, score, level)]) sl1 sl' abs1 hG1 hH1
      (by simpa using hnd) (fun o ho => hh o (List.mem_cons_of_mem _ ho)) h
    simpa using this

end

/-- The greatest of a list of heights does not depend on their order. -/
theorem foldr_max_perm {l l' : List Nat} (h : l.Perm l') : l.foldr max 1 = l'.foldr max 1 := by
  induction h with
  | nil => rfl
  | cons x _ ih => simp only [List.foldr_cons, ih]
  | swap x y l =>
    simp only [List.foldr_cons]
    rw [← max_assoc, ← max_assoc, max_comm y x]
  | trans _ _ ih1 ih2 => exact ih1.trans ih2

/-- C15 (length and level under insert).  For every sequence `ops` of `insert` calls with
pairwise distinct members and drawn heights in `1..maxLevel`, applied to the empty skip list
(level 1, length 0), if the calls complete then: the level-0 chain from the header has as many
nodes as there were calls, and `length` is that number; the heights of the nodes of the chain
are the heights drawn; `level` is the greatest height among the nodes of the chain (1 when
there is none); and the header, which has `maxLevel` levels, has a nil forward pointer at
every level `L ≥ level`. -/
theorem insert_length_level [LinearOrder S] [Zero S] (ops : List (String × S × Nat))
    (hdistinct : (ops.map (fun o => o.1)).Nodup)
    (hheights : ∀ o ∈ ops, 1 ≤ o.2.2 ∧ o.2.2 ≤ maxLevel)
    (sl : skiplist S) (hrun : insertAll makeSkiplist ops = .ok sl) :
    ∃ ns, chain0 sl = .ok ns ∧ ns.length = ops.length ∧ sl.length = (ops.length : Int) ∧
      (ns.map (hgt sl.heap)).Perm (ops.map fun o => o.2.2) ∧
      sl.level = (ns.map (hgt sl.heap)).foldr max 1 ∧
      hgt sl.heap sl.header = maxLevel ∧
      ∀ L, sl.level ≤ L → fwdOf sl.heap sl.header L = none := by
  obtain ⟨abs, hG, hH⟩ := Grown.run_heights ops [] makeSkiplist sl [] Grown.empty
    (by simp) (by simpa using hdistinct) hheights hrun
  simp only [List.nil_append] at hG hH
  refine ⟨abs, hG.linked.chain0_eq, ?_, hG.length_eq, hH, ?_, hG.linked.header_levels,
    hG.linked.header_top⟩
  · have := hH.length_eq
    simpa using this
  · rw [hG.level_eq]
    exact (foldr_max_perm hH).symm

/-- The sequence `opsCAB` (heights 2, 1, 1) satisfies the hypotheses of C15 and completes:
`length` is 3 and `level` is 2. -/
theorem insert_length_level_witness :
    ∃ sl, insertAll makeSkiplist opsCAB = .ok sl ∧ sl.length = 3 ∧ sl.level = 2 ∧
      ∃ ns, chain0 sl = .ok ns ∧ ns.length = opsCAB.length ∧
        sl.length = (opsCAB.length : Int) ∧
        (ns.map (hgt sl.heap)).Perm (opsCAB.map fun o => o.2.2) ∧
        sl.level = (ns.map (hgt sl.heap)).foldr max 1 ∧
        hgt sl.heap sl.header = maxLevel ∧
        ∀ L, sl.level ≤ L → fwdOf sl.heap sl.header L = none :=
  match h : insertAll (makeSkiplist : skiplist Int) opsCAB with
  | .ok sl =>
    ⟨sl, rfl,
      by
        have h2 : (insertAll (makeSkiplist : skiplist Int) opsCAB).map (fun s => s.length) =
            .ok 3 := by decide
        rw [h] at h2
        simpa [Except.map] using h2,
      by
        have h2 : (insertAll (makeSkiplist : skiplist Int) opsCAB).map (fun s => s.level) =
            .ok 2 := by decide
        rw [h] at h2
        simpa [Except.map] using h2,
      insert_length_level opsCAB (by decide) (by decide) sl h⟩
  | .error _ => by
    have h2 : (insertAll (makeSkiplist : skiplist Int) opsCAB).toBool = true := by decide
    rw [h] at h2
    exact absurd h2 (by simp [Except.toBool])

/-! ## randomLevel -/

theorem wrapInt16_succ (v : Int) : wrapInt16 (wrapInt16 v + 1) = wrapInt16 (v + 1) := by
  unfold wrapInt16
  omega

theorem wrapInt16_of_range {v : Int} (h0 : -32768 ≤ v) (h1 : v ≤ 32767) : wrapInt16 v = v := by
  unfold wrapInt16
  omega

/-- The loop of `randomLevel` adds one to the `int16` counter for each leading draw that
passes the test. -/
theorem randomLevel_loop_lows (rest : List Nat) :
    ∀ (lows : List Nat) (level : Int), (∀ d ∈ lows, randomLevel.advances d = true) →
      randomLevel.loop (lows ++ rest) (wrapInt16 level) =
        randomLevel.loop rest (wrapInt16 (level + lows.length)) := by
  intro lows
  induction lows with
  | nil => intro level _; simp
  | cons d lows ih =>
    intro level hl
    rw [List.cons_append, randomLevel.loop, hl d (List.mem_cons_self _ _), if_pos rfl,
      wrapInt16_succ, ih (level + 1) (fun x hx => hl x (List.mem_cons_of_mem _ hx))]
    simp only [List.length_cons, Nat.cast_add, Nat.cast_one]
    congr 2
    omega

/-- The loop stops on the first draw that fails the test. -/
theorem randomLevel_loop_stop (r : Nat) (rest : List Nat) (level : Int)
    (hr : randomLevel.advances r = false) :
    randomLevel.loop (r :: rest) level = some level := by
  simp [randomLevel.loop, hr]

/-- The result of `randomLevel` on a sequence of draws on which its loop stops. -/
theorem randomLevel_eq (lows : List Nat) (r : Nat) (rest : List Nat)
    (hlows : ∀ d ∈ lows, randomLevel.advances d = true)
    (hr : randomLevel.advances r = false) :
    randomLevel (lows ++ r :: rest) = some (min (wrapInt16 (1 + (lows.length : Int))) 16) := by
  unfold randomLevel
  have e : wrapInt16 1 = 1 := by decide
  have hloop := randomLevel_loop_lows (r :: rest) lows 1 hlows
  rw [e] at hloop
  rw [hloop, randomLevel_loop_stop r rest _ hr]
  simp only [maxLevel, Nat.cast_ofNat]
  by_cases h : wrapInt16 (1 + (lows.length : Int)) < 16
  · rw [if_pos h, min_eq_left (by omega)]
  · rw [if_neg h, min_eq_right (by omega)]

/-- C17 (amended): `randomLevel` and the height bounds.  For every sequence of draws on which
the loop stops, that is `k` draws below the threshold followed by one that is not,
`randomLevel` returns `min(w, 16)` where `w` is `1 + k` as an `int16` (wrapped around); when
`k ≤ 32766` nothing wraps, the result is `min(1 + k, 16)` and lies in `1..maxLevel`. -/
theorem randomLevel_bounded (lows : List Nat) (r : Nat) (rest : List Nat)
    (hlows : ∀ d ∈ lows, randomLevel.advances d = true)
    (hr : randomLevel.advances r = false) :
    randomLevel (lows ++ r :: rest) = some (min (wrapInt16 (1 + (lows.length : Int))) 16) ∧
      (lows.length ≤ 32766 →
        randomLevel (lows ++ r :: rest) = some (min (1 + (lows.length : Int)) 16) ∧
        1 ≤ min (1 + (lows.length : Int)) 16 ∧ min (1 + (lows.length : Int)) 16 ≤ maxLevel) := by
  refine ⟨randomLevel_eq lows r rest hlows hr, fun hk => ⟨?_, by omega, by simp [maxLevel]⟩⟩
  rw [randomLevel_eq lows r rest hlows hr, wrapInt16_of_range (by omega) (by omega)]

/-- Twenty draws below the threshold and one above: the result is the cap 16. -/
theorem randomLevel_bounded_witness :
    randomLevel (List.replicate 20 0 ++ 65535 :: []) =
        some (min (wrapInt16 (1 + ((List.replicate 20 0).length : Int))) 16) ∧
      ((List.replicate 20 0).length ≤ 32766 →
        randomLevel (List.replicate 20 0 ++ 65535 :: []) =
          some (min (1 + ((List.replicate 20 0).length : Int)) 16) ∧
        1 ≤ min (1 + ((List.replicate 20 0).length : Int)) 16 ∧
        min (1 + ((List.replicate 20 0).length : Int)) 16 ≤ maxLevel) :=
  randomLevel_bounded (List.replicate 20 0) 65535 [] (by decide) (by decide)

/-- C17 as stated fails at `k = 32767`: after 32767 draws below the threshold (the value 0)
and one above it (the value 65535) the loop has stopped, the `int16` counter has wrapped
around to `-32768`, which is below `maxLevel`, and `randomLevel` returns it: the result is not
`min(1 + k, 16) = 16` and does not lie in `1..maxLevel`. -/
theorem randomLevel_wraps :
    (∀ d ∈ List.replicate 32767 0, randomLevel.advances d = true) ∧
      randomLevel.advances 65535 = false ∧
      randomLevel (List.replicate 32767 0 ++ [65535]) = some (-32768) ∧
      ¬ (1 : Int) ≤ -32768 := by
  have hl : ∀ d ∈ List.replicate 32767 0, randomLevel.advances d = true := fun d hd => by
    rw [List.eq_of_mem_replicate hd]
    decide
  refine ⟨hl, by decide, ?_, by decide⟩
  rw [randomLevel_eq (List.replicate 32767 0) 65535 [] hl (by decide), List.length_replicate]
  decide

/-! ## The sorted set -/

/-- C12 (sorted-set upsert round trip): evaluation at a failing input.  The sorted set that
holds `("x", 5)` in a node of height 1 is reached by `Add("x", 5)` on the empty set.  On it,
`Add("m", 7)` with drawn height 2 does not complete: `insert` finds the node of `x` as level-0
predecessor and indexes its missing level 1, so neither `Add("m", 7)` nor the pair
`Add("m", 7)`, `Add("m", 8)` returns, and no `Score("m")` follows.  When the heights drawn are
1 the same pair completes with `Score("m") = 8`, a chain `x, m` and the element `("m", 8)`;
from the empty set `Add("a", 1)`, `Add("a", 5)` gives `Score("a") = 5`, length 1 and the
chain `("a", 5)`. -/
theorem Add_stops_in_insert :
    ((Make : SortedSet Int).Add "x" 5 1).map (fun r => r.1) = .ok setX ∧
      elements setX.skiplist = .ok [⟨"x", 5⟩] ∧ setX.Score "x" = some 5 ∧
      setX.Score "m" = none ∧
      (setX.Add "m" 7 2).map (fun r => r.1) = .error .indexOutOfRange ∧
      setX.addTwice "m" 7 8 2 1 = .error .indexOutOfRange ∧
      (setX.addTwice "m" 7 8 1 1).map
          (fun ss => (ss.Score "m", ss.skiplist.length, elements ss.skiplist)) =
        .ok (some 8, 2, .ok [⟨"x", 5⟩, ⟨"m", 8⟩]) ∧
      ((Make : SortedSet Int).addTwice "a" 1 5 1 1).map
          (fun ss => (ss.Score "a", ss.skiplist.length, elements ss.skiplist)) =
        .ok (some 5, 1, .ok [⟨"a", 5⟩]) := by
  decide

end zset

/-! # Theorems about the decoder -/

namespace protocol

/-! ## Reading lines and counted bodies -/

theorem ReadBytes_line (pre rest : Bytes) (h : ∀ b ∈ pre, b ≠ 10) :
    ReadBytes (pre ++ 10 :: rest) = (pre ++ [10], rest, false) := by
  induction pre with
  | nil => simp [ReadBytes]
  | cons b pre ih =>
    have hb : b ≠ 10 := h b (List.mem_cons_self _ _)
    have := ih (fun x hx => h x (List.mem_cons_of_mem _ hx))
    rw [List.cons_append]
    unfold ReadBytes
    rw [if_neg hb, this]
    rfl

theorem ReadFull_exact (body rest : Bytes) :
    ReadFull (body ++ rest) body.length = .ok (body, rest) := by
  unfold ReadFull
  rw [if_pos (by simp)]
  simp

/-! ## Decimal numbers -/

theorem toNat_digit {d : Nat} (h : d < 10) : (UInt8.ofNat (48 + d)).toNat = 48 + d :=
  UInt8.toNat_ofNat_of_lt (by simp only [UInt8.size]; omega)

theorem isDigit_digit {d : Nat} (h : d < 10) : isDigit (UInt8.ofNat (48 + d)) = true := by
  unfold isDigit
  rw [toNat_digit h]
  simp
  omega

theorem ne_of_isDigit {b : UInt8} (h : isDigit b = true) (c : UInt8) (hc : c.toNat < 48) :
    b ≠ c := by
  intro e
  subst e
  unfold isDigit at h
  simp only [Bool.and_eq_true, decide_eq_true_eq] at h
  omega

theorem parseUintDigits_digit (a : Nat) {d : Nat} (h : d < 10) (rest : Bytes) :
    parseUintDigits a (UInt8.ofNat (48 + d) :: rest) = parseUintDigits (a * 10 + d) rest := by
  simp only [parseUintDigits, isDigit_digit h, if_true, toNat_digit h, Nat.add_sub_cancel_left]

/-- The digits that `encodeDecimal.go` puts in front of `acc` are decimal digits, at least
one, and read back as the number. -/
theorem encodeDecimal_go_spec :
    ∀ (fuel n : Nat) (acc : Bytes), n < fuel →
      ∃ ds, encodeDecimal.go fuel n acc = ds ++ acc ∧ ds ≠ [] ∧
        (∀ b ∈ ds, isDigit b = true) ∧
        ∀ (a : Nat) (rest : Bytes),
          parseUintDigits a (ds ++ rest) = parseUintDigits (a * 10 ^ ds.length + n) rest := by
  intro fuel
  induction fuel with
  | zero => intro n acc h; omega
  | succ fuel ih =>
    intro n acc h
    unfold encodeDecimal.go
    by_cases hn : n < 10
    · rw [if_pos hn]
      refine ⟨[UInt8.ofNat (48 + n)], rfl, by simp, ?_, ?_⟩
      · intro b hb
        simp only [List.mem_singleton] at hb
        rw [hb]; exact isDigit_digit hn
      · intro a rest
        simp only [List.singleton_append, List.length_singleton, pow_one]
        exact parseUintDigits_digit a hn rest
    · rw [if_neg hn]
      have hm : n % 10 < 10 := Nat.mod_lt _ (by decide)
      obtain ⟨ds, h1, h2, h3, h4⟩ := ih (n / 10) (UInt8.ofNat (48 + n % 10) :: acc) (by omega)
      refine ⟨ds ++ [UInt8.ofNat (48 + n % 10)], by rw [h1]; simp, by simp, ?_, ?_⟩
      · intro b hb
        rcases List.mem_append.mp hb with e | e
        · exact h3 b e
        · simp only [List.mem_singleton] at e
          rw [e]; exact isDigit_digit hm
      · intro a rest
        rw [List.append_assoc, h4, List.singleton_append, parseUintDigits_digit _ hm]
        congr 1
        rw [List.length_append, List.length_singleton, pow_succ]
        have := Nat.div_add_mod n 10
        nlinarith [this]

theorem encodeDecimal_spec (n : Nat) :
    encodeDecimal n ≠ [] ∧ (∀ b ∈ encodeDecimal n, isDigit b = true) ∧
      parseUintDigits 0 (encodeDecimal n) = some n := by
  obtain ⟨ds, h1, h2, h3, h4⟩ := encodeDecimal_go_spec (n + 1) n [] (by omega)
  unfold encodeDecimal
  rw [h1, List.append_nil]
  refine ⟨h2, h3, ?_⟩
  have := h4 0 []
  simp only [List.append_nil, Nat.zero_mul, Nat.zero_add] at this
  rw [this]
  rfl

/-- `ParseInt` reads a decimal number back. -/
theorem ParseInt_encodeDecimal (n : Nat) (h : n < 2 ^ 63) :
    ParseInt (encodeDecimal n) = some (n : Int) := by
  obtain ⟨h1, h2, h3⟩ := encodeDecimal_spec n
  cases hd : encodeDecimal n with
  | nil => exact absurd hd h1
  | cons c rest =>
    have hc : isDigit c = true := h2 c (by rw [hd]; exact List.mem_cons_self _ _)
    have c1 : c ≠ 43 := ne_of_isDigit hc 43 (by decide)
    have c2 : c ≠ 45 := ne_of_isDigit hc 45 (by decide)
    rw [hd] at h3
    unfold ParseInt
    simp only [c1, c2, or_self, if_false, h3, h, if_true]

theorem encodeDecimal_ne_lf (n : Nat) : ∀ b ∈ encodeDecimal n, b ≠ 10 := fun b hb =>
  ne_of_isDigit ((encodeDecimal_spec n).2.1 b hb) 10 (by decide)

/-! ## Decoding the encoding of commands -/

/-- The header line `<c><n>\r\n` in front of `rest` is read as one line. -/
theorem ReadBytes_header (c : UInt8) (hc : c ≠ 10) (n : Nat) (rest : Bytes) :
    ReadBytes (c :: encodeDecimal n ++ [13, 10] ++ rest) =
      (c :: encodeDecimal n ++ [13, 10], rest, false) := by
  have := ReadBytes_line (c :: encodeDecimal n ++ [13]) rest (by
    intro b hb
    simp only [List.cons_append, List.mem_cons, List.mem_append, List.mem_singleton,
      List.not_mem_nil, or_false] at hb
    rcases hb with e | e | e
    · rw [e]; exact hc
    · exact encodeDecimal_ne_lf n b e
    · rw [e]; decide)
  simpa using this

theorem header_facts (c : UInt8) (n : Nat) :
    let ln := c :: encodeDecimal n ++ [13, 10]
    4 ≤ ln.length ∧ ln[ln.length - 2]? = some 13 ∧ ln[0]? = some c ∧
      (ln.take (ln.length - 2)).drop 1 = encodeDecimal n ∧
      TrimSuffix ln [13, 10] = c :: encodeDecimal n := by
  have hne := (encodeDecimal_spec n).1
  have hlen : 1 ≤ (encodeDecimal n).length := by
    cases h : encodeDecimal n with
    | nil => exact absurd h hne
    | cons _ _ => simp
  have e1 : (c :: encodeDecimal n ++ [13, 10]).length = (encodeDecimal n).length + 3 := by simp
  have e2 : c :: encodeDecimal n ++ [13, 10] = (c :: encodeDecimal n) ++ [13, 10] := by simp
  refine ⟨by rw [e1]; omega, ?_, by simp, ?_, ?_⟩
  · rw [e1, e2, List.getElem?_append_right (by simp)]
    simp
  · rw [e1, e2, List.take_append_of_le_length (by simp), List.take_of_length_le (by simp)]
    simp
  · unfold TrimSuffix
    rw [e1, e2]
    simp

/-- The loop of `parseArray` on the bulk strings of `args` collects `args` and stops in front
of what follows them. -/
theorem parseArray_loop_encode :
    ∀ (args : List Bytes) (rest : Bytes) (lines : List Bytes),
      (∀ a ∈ args, a.length + 2 < 2 ^ 63) →
      parseArray.loop args.length ((args.map encodeBulk).flatten ++ rest) lines =
        ([], rest, .nil, lines ++ args) := by
  intro args
  induction args with
  | nil => intro rest lines _; simp [parseArray.loop]
  | cons a args ih =>
    intro rest lines h
    have ha := h a (List.mem_cons_self _ _)
    have hinp : ((a :: args).map encodeBulk).flatten ++ rest =
        36 :: encodeDecimal a.length ++ [13, 10] ++
          ((a ++ [13, 10]) ++ ((args.map encodeBulk).flatten ++ rest)) := by
      simp [encodeBulk]
    obtain ⟨f1, f2, f3, f4, _⟩ := header_facts 36 a.length
    have hp : ParseInt (encodeDecimal a.length) = some (a.length : Int) :=
      ParseInt_encodeDecimal _ (by omega)
    have hrf := ReadFull_exact (a ++ [13, 10]) ((args.map encodeBulk).flatten ++ rest)
    have hl2 : (a ++ [13, 10]).length = ((a.length : Int) + 2).toNat := by
      simp only [List.length_append, List.length_cons, List.length_nil]
      omega
    rw [hl2] at hrf
    rw [List.length_cons, hinp]
    unfold parseArray.loop
    simp only [ReadBytes_header 36 (by decide) a.length, Bool.false_eq_true, if_false]
    rw [if_neg (by
      simp only [not_or, not_lt, ne_eq, not_not]
      exact ⟨f1, f2, f3⟩)]
    simp only [f4, hp]
    rw [if_neg (by omega), if_neg (by omega), if_neg (by norm_cast; omega)]
    simp only [hrf]
    have e : (a ++ [13, 10]).take ((a ++ [13, 10]).length - 2) = a := by simp
    rw [e, ih rest (lines ++ [a]) (fun x hx => h x (List.mem_cons_of_mem _ hx))]
    simp

theorem length_le_join_encodeBulk (args : List Bytes) :
    args.length ≤ ((args.map encodeBulk).flatten).length ∧
      ∀ a ∈ args, a.length + 2 ≤ ((args.map encodeBulk).flatten).length := by
  induction args with
  | nil => simp
  | cons a args ih =>
    have e : ((a :: args).map encodeBulk).flatten.length =
        (encodeBulk a).length + ((args.map encodeBulk).flatten).length := by simp
    have e2 : a.length + 2 ≤ (encodeBulk a).length := by
      simp [encodeBulk]; omega
    refine ⟨by rw [e, List.length_cons]; omega, fun x hx => ?_⟩
    rcases List.mem_cons.mp hx with h | h
    · rw [h, e]; omega
    · have := ih.2 x h
      rw [e]; omega

/-- `parseArray` on the header of a non-empty command, the reader holding its arguments: one
multi-bulk reply with the arguments. -/
theorem parseArray_encode (args : List Bytes) (hne : args ≠ []) (rest : Bytes)
    (hlen : ((args.map encodeBulk).flatten).length < 2 ^ 63) :
    parseArray (42 :: encodeDecimal args.length) ((args.map encodeBulk).flatten ++ rest) =
      ([.data (.multiBulk args)], rest, .nil) := by
  have h1 := length_le_join_encodeBulk args
  have hp : ParseInt (encodeDecimal args.length) = some (args.length : Int) :=
    ParseInt_encodeDecimal _ (by omega)
  have hpos : 0 < args.length := List.length_pos.mpr hne
  unfold parseArray
  simp only [List.drop_succ_cons, List.drop_zero, hp]
  rw [if_neg (by omega), if_neg (by omega)]
  simp only [Int.toNat_ofNat]
  rw [parseArray_loop_encode args rest [] (fun a ha => by have := h1.2 a ha; omega)]
  simp

/-- `parse0` on the encoding of a list of non-empty commands sends one multi-bulk reply per
command, then `io.EOF`, and closes the channel. -/
theorem parse0_encodeAll :
    ∀ (cmds : List (List Bytes)) (fuel : Nat), (∀ c ∈ cmds, c ≠ []) →
      (encodeAll cmds).length < 2 ^ 63 → (encodeAll cmds).length < fuel →
      parse0 fuel (encodeAll cmds) =
        (cmds.map (fun c => Payload.data (.multiBulk c)) ++ [.error .eof], true) := by
  intro cmds
  induction cmds with
  | nil =>
    intro fuel _ _ hfuel
    obtain ⟨fuel, rfl⟩ : ∃ f, fuel = f + 1 := ⟨fuel - 1, by omega⟩
    simp [encodeAll, parse0, ReadBytes]
  | cons c cmds ih =>
    intro fuel hne hlen hfuel
    obtain ⟨fuel, rfl⟩ : ∃ f, fuel = f + 1 := ⟨fuel - 1, by omega⟩
    have hinp : encodeAll (c :: cmds) =
        42 :: encodeDecimal c.length ++ [13, 10] ++
          ((c.map encodeBulk).flatten ++ encodeAll cmds) := by
      simp [encodeAll, encodeArray]
    have hl : (encodeAll (c :: cmds)).length =
        (encodeDecimal c.length).length + 3 + ((c.map encodeBulk).flatten).length +
          (encodeAll cmds).length := by
      rw [hinp]; simp; omega
    obtain ⟨f1, f2, _, _, f5⟩ := header_facts 42 c.length
    have hpa := parseArray_encode c (hne c (List.mem_cons_self _ _)) (encodeAll cmds)
      (by omega)
    have hrec := ih fuel (fun x hx => hne x (List.mem_cons_of_mem _ hx)) (by omega) (by omega)
    rw [hinp]
    unfold parse0
    simp only [ReadBytes_header 42 (by decide) c.length, Bool.false_eq_true, if_false]
    rw [if_neg (by
      simp only [not_or, not_le, ne_eq, not_not]
      exact ⟨by omega, f2⟩)]
    simp only [f5]
    have hd : parse0.dispatch (42 :: encodeDecimal c.length)
        ((c.map encodeBulk).flatten ++ encodeAll cmds) =
        ([.data (.multiBulk c)], encodeAll cmds, .nil) := by
      unfold parse0.dispatch
      simp only [show ¬ ((42 : UInt8) = 43) by decide, show ¬ ((42 : UInt8) = 45) by decide,
        show ¬ ((42 : UInt8) = 58) by decide, show ¬ ((42 : UInt8) = 36) by decide, if_false,
        if_true, hpa]
    rw [hd]
    simp only [hrec]
    simp

theorem drain_data (closed : Bool) (rs : List Reply) (tail : List Payload) :
    ∀ (results : List Reply),
      ParseBytes.drain closed (rs.map Payload.data ++ tail) results =
        ParseBytes.drain closed tail (results ++ rs) := by
  induction rs with
  | nil => intro results; simp
  | cons r rs ih =>
    intro results
    have := ih (results ++ [r])
    simp only [List.map_cons, List.cons_append, ParseBytes.drain]
    rw [List.append_assoc] at this
    exact this



/-- C10 (command decoding round trip).  For every list of commands, each a non-empty list of
arbitrary byte strings (which may hold CR and LF), whose encoding fits a Go slice (fewer than
`2^63` bytes), `ParseBytes` on the concatenation of their RESP array encodings returns no
error and exactly one multi-bulk reply per command, in input order, whose arguments are the
original byte strings. -/
theorem ParseBytes_roundtrip (cmds : List (List Bytes)) (hne : ∀ c ∈ cmds, c ≠ [])
    (hlen : (encodeAll cmds).length < 2 ^ 63) :
    ParseBytes (encodeAll cmds) = .ok (cmds.map Reply.multiBulk) := by
  unfold ParseBytes
  rw [parse0_encodeAll cmds _ hne hlen (by omega)]
  have e : cmds.map (fun c => Payload.data (.multiBulk c)) =
      (cmds.map Reply.multiBulk).map Payload.data := by
    simp [List.map_map, Function.comp]
  simp only [e, drain_data]
  simp [ParseBytes.drain]

/-- The two commands `SET k a\r\nb` and `GET k` are decoded from their encoding. -/
theorem ParseBytes_roundtrip_witness :
    (∀ c ∈ cmdsSetGet, c ≠ []) ∧ (encodeAll cmdsSetGet).length < 2 ^ 63 ∧
      ParseBytes (encodeAll cmdsSetGet) = .ok (cmdsSetGet.map Reply.multiBulk) ∧
      ParseBytes (encodeAll cmdsSetGet) =
        .ok [.multiBulk [ascii "SET", ascii "k", [97, 13, 10, 98]],
          .multiBulk [ascii "GET", ascii "k"]] :=
  ⟨by decide, by decide, ParseBytes_roundtrip cmdsSetGet (by decide) (by decide), by decide⟩

/-! ## Arrays with a malformed element -/

/-- C16 (malformed array): evaluation at a failing input.  On `*2\r\n$3\r\nGET\r\nxx\r\n` the
second element line `xx` is no bulk-string header: `parseArray` sends the protocol error,
leaves its loop with `break` and then sends the multi-bulk reply built from the element read so
far, `GET`; the end of the input follows.  On `*1\r\n$x\r\n` the length is no number: the
protocol error is followed by a multi-bulk reply without elements.  `ParseBytes` stops at the
error it receives first. -/
theorem parseArray_break_sends_reply :
    parse0 (badArray.length + 1) badArray =
        ([.error (.protocolErr "illegal bulk string header " (ascii "xx\r\n")),
          .data (.multiBulk [ascii "GET"]), .error .eof], true) ∧
      parse0 (badLength.length + 1) badLength =
        ([.error (.protocolErr "illegal bulk string length " (ascii "$x\r\n")),
          .data (.multiBulk []), .error .eof], true) ∧
      ParseBytes badArray =
        .error (.protocolErr "illegal bulk string header " (ascii "xx\r\n")) := by
  decide

end protocol

/-! # Theorems about the atomic boolean -/

namespace utils

/-- The value that `CompareAndSwap` hands to the swap as the new one is 0 for both values of
`newVal`: after a call that answers true the flag is 0. -/
theorem CompareAndSwap_flag (a : AtomicBool) (oldVal newVal : Bool)
    (h : (a.CompareAndSwap oldVal newVal).1 = true) :
    (a.CompareAndSwap oldVal newVal).2.flag = 0 := by
  unfold AtomicBool.CompareAndSwap CompareAndSwapInt32 at *
  cases oldVal <;> cases newVal <;> simp at h ⊢ <;> split <;> simp_all

/-- A call that answers false leaves the flag as it was. -/
theorem CompareAndSwap_false (a : AtomicBool) (oldVal newVal : Bool)
    (h : (a.CompareAndSwap oldVal newVal).1 = false) :
    (a.CompareAndSwap oldVal newVal).2 = a := by
  unfold AtomicBool.CompareAndSwap CompareAndSwapInt32 at *
  cases oldVal <;> cases newVal <;> simp at h ⊢ <;> split <;> simp_all

/-- C11 (`CompareAndSwap` on the boolean): evaluation at a failing input.  With the current
value false (the flag after `Store(false)`), `CompareAndSwap(false, true)` answers true, and
the `Load` that follows returns false, not `newVal`; with the current value true (the flag
after `Store(true)`), `CompareAndSwap(true, true)` answers true and `Load` returns false. -/
theorem CompareAndSwap_true_stores_false :
    (AtomicBool.Store ⟨0⟩ false).Load = false ∧
      ((AtomicBool.Store ⟨0⟩ false).CompareAndSwap false true).1 = true ∧
      ((AtomicBool.Store ⟨0⟩ false).CompareAndSwap false true).2.Load = false ∧
      (AtomicBool.Store ⟨0⟩ true).Load = true ∧
      ((AtomicBool.Store ⟨0⟩ true).CompareAndSwap true true).1 = true ∧
      ((AtomicBool.Store ⟨0⟩ true).CompareAndSwap true true).2.Load = false := by
  decide

end utils
